import Mathlib

/-! # Merkle tree over a hash-ring partition: embedding and verification

Shallow embedding of `range.go`, `tree.go` and `cursor.go`.

* A Go `[]byte` is a `List Nat` of byte values; a hash, where the code tests
  `== nil`, is an `Option Bytes` (`none` is the nil slice, `some []` a
  zero-length non-nil slice).
* A Go `*Node` is a value of `Node`: `Node.null` is the nil pointer and
  `Node.mk` a pointer to an allocated record.  Children are owned, so the
  heap of nodes is a tree.  The `parent` back-reference is kept as the flag
  `parent != nil`; the parent node itself is recovered from the position of
  a node, which is its path from the root.
* A Go panic is an `Except.error` carrying a `Panic`.
* The 64-bit murmur3 digest of the external library is the parameter `H`.
* A method that writes to its receiver returns the receiver after the call
  next to its result.
* "A tree built by `NewMerkleTree`" in a later state of its life is a tree
  `t` with `t.sameShape t0`, where `t0` is what the constructor returned: the
  callers of the package write hashes through the handles of leaves, and
  `Fill` writes the hashes of internal nodes and the `filled` flag; nothing
  else of a tree changes after its construction.
-/

namespace Merkle

/-! ## Bytes and big integers -/

abbrev Bytes := List Nat

/-- Runtime failures of the Go code; `outOfFuel` is not one of them, it marks
the exhaustion of a loop bound of the model. -/
inductive Panic where
  | nilDereference
  | indexOutOfRange
  | depthZero
  | nodeTypeMismatch
  | nodeRangeMismatch
  | keyNotInTree
  | treeNotBuiltCorrectly
  | posNotLeaf
  | outOfFuel
  deriving DecidableEq, Repr

/-- Value of `big.Int.SetBytes`: the big-endian unsigned integer. -/
def setBytes (b : Bytes) : Nat :=
  b.foldl (fun acc x => acc * 256 + x) 0

/-- Big-endian digits of `n` pushed in front of `acc`; `fuel` bounds the
number of digits. -/
def natBytesAux : Nat → Nat → Bytes → Bytes
  | 0, _, acc => acc
  | fuel + 1, n, acc =>
    if n = 0 then acc else natBytesAux fuel (n / 256) (n % 256 :: acc)

/-- Value of `big.Int.Bytes` on a number of absolute value `n`: the minimal
big-endian byte string (empty for zero). -/
def natBytes (n : Nat) : Bytes :=
  natBytesAux n n []

/-- Lexicographic comparison of `bytes.Compare`: -1, 0 or 1. -/
def bytesCompare : Bytes → Bytes → Int
  | [], [] => 0
  | [], _ :: _ => -1
  | _ :: _, [] => 1
  | a :: as, b :: bs =>
    if a < b then -1 else if b < a then 1 else bytesCompare as bs

/-- The bytes of a hash slice as `bytes.Compare` reads them: the nil slice has
no bytes. -/
def hashBytes (h : Option Bytes) : Bytes :=
  h.getD []

/-! ## Range (range.go) -/

/-- Token range from (Left, Right]. -/
structure Range where
  Left : Bytes
  Right : Bytes
  deriving DecidableEq, Repr

def Range.Equal (r other : Range) : Bool :=
  bytesCompare r.Left other.Left == 0 && bytesCompare r.Right other.Right == 0

/-! ## Nodes and trees (tree.go) -/

inductive NodeType where
  | NodeInternal
  | NodeLeaf
  deriving DecidableEq, Repr

open NodeType

/-- A `*Node`: nil, or a record `typ, hash, parent != nil, lchild, rchild,
level, Range`. -/
inductive Node where
  | null : Node
  | mk (typ : NodeType) (hash : Option Bytes) (parent : Bool)
      (lchild rchild : Node) (level : Nat) (rng : Range) : Node
  deriving DecidableEq, Repr

/-- The record `new(Node)` with the given parent flag and Range. -/
def Node.new (parent : Bool) (rng : Range) : Node :=
  Node.mk NodeInternal none parent Node.null Node.null 0 rng

structure MerkleTree where
  filled : Bool
  min : Bytes
  max : Bytes
  fullRange : Range
  depth : Nat
  root : Node
  deriving DecidableEq, Repr

/-- Midpoint between left and right (`MerkleTree.midpoint`).  The empty
`if m.Cmp(&max) == 1` block of the source has no effect, so `max` is
subtracted on the whole loop-around branch; `Bytes` returns the absolute
value. -/
def MerkleTree.midpoint (t : MerkleTree) (rng : Range) : Bytes :=
  let min : Int := setBytes t.min
  let max : Int := setBytes t.max
  let lt : Int := setBytes rng.Left
  let rt : Int := setBytes rng.Right
  let m : Int :=
    if lt ≤ rt then
      (lt + rt) >>> (1 : Nat)
    else
      let sz : Int := (max + rt - lt - min) >>> (1 : Nat)
      lt + sz - max
  let midpoint := natBytes m.natAbs
  if midpoint.length < t.max.length then
    List.replicate (t.max.length - midpoint.length) 0 ++ midpoint
  else
    midpoint

/-- The method `buildTree(node, depth, maxdepth)`; the last argument is
`maxdepth - depth`, the number of levels still to build below `node`
(`NewMerkleTree` calls it with `depth = 0`).  The node passed in is always a
freshly allocated one. -/
def MerkleTree.buildTree (t : MerkleTree) : Node → Nat → Node
  | Node.null, _ => Node.null
  | Node.mk _ hash parent lchild rchild level rng, 0 =>
    Node.mk NodeLeaf hash parent lchild rchild level rng
  | Node.mk typ hash parent _ _ level rng, k + 1 =>
    let midpoint := t.midpoint rng
    let lchild := t.buildTree (Node.new true ⟨rng.Left, midpoint⟩) k
    let rchild := t.buildTree (Node.new true ⟨midpoint, rng.Right⟩) k
    Node.mk typ hash parent lchild rchild level rng

/-- The constructor `NewMerkleTree(depth, min, max, left, right)`.  The depth,
a `uint8` in the source, is any natural number here: the level counters only
count up to the depth and never overflow. -/
def NewMerkleTree (depth : Nat) (min max left right : Bytes) :
    Except Panic MerkleTree :=
  if depth = 0 then
    Except.error Panic.depthZero
  else
    let fullRange : Range := ⟨left, right⟩
    let t : MerkleTree :=
      { filled := false, min := min, max := max, fullRange := fullRange,
        depth := depth, root := Node.null }
    let root := t.buildTree (Node.new false t.fullRange) depth
    Except.ok { t with root := root }

/-- Fill hash of internal nodes (the function `fillInnerHash(n)`); returns
the updated node. -/
def fillInnerHash (H : Bytes → Bytes) : Node → Except Panic Node
  | Node.null => Except.error Panic.nilDereference
  | Node.mk typ hash parent lchild rchild level rng =>
    if typ = NodeLeaf then
      Except.ok (Node.mk typ hash parent lchild rchild level rng)
    else
      match fillInnerHash H lchild with
      | Except.error e => Except.error e
      | Except.ok Node.null => Except.error Panic.nilDereference
      | Except.ok (Node.mk lt lh lp ll lr lv lrng) =>
        match fillInnerHash H rchild with
        | Except.error e => Except.error e
        | Except.ok Node.null => Except.error Panic.nilDereference
        | Except.ok (Node.mk rt rh rp rl rr rv rrng) =>
          let hash' : Option Bytes :=
            match lh, rh with
            | none, none => none
            | none, some r => some r
            | some l, none => some l
            | some l, some r => some (H (l ++ r))
          Except.ok (Node.mk typ hash' parent
            (Node.mk lt lh lp ll lr lv lrng) (Node.mk rt rh rp rl rr rv rrng)
            level rng)

/-- The method `fillInnerHash()`, gated by the `filled` flag. -/
def MerkleTree.fillInnerHash (H : Bytes → Bytes) (t : MerkleTree) :
    Except Panic MerkleTree :=
  if t.filled then
    Except.ok t
  else
    match Merkle.fillInnerHash H t.root with
    | Except.error e => Except.error e
    | Except.ok root => Except.ok { t with root := root, filled := true }

def MerkleTree.Fill (H : Bytes → Bytes) (t : MerkleTree) :
    Except Panic MerkleTree :=
  t.fillInnerHash H

inductive consistency where
  | FullyConsistent
  | PartiallyInconsistent
  | FullyInconsistent
  deriving DecidableEq, Repr

open consistency

/-- Add largest contiguous ranges to diff (the function `diff`); the result
slice is passed in and returned. -/
def diff : Node → Node → List Range → Except Panic (consistency × List Range)
  | Node.mk typ1 hash1 parent1 lchild1 rchild1 _ rng1,
    Node.mk typ2 hash2 _ lchild2 rchild2 _ rng2, result =>
    if typ1 ≠ typ2 then
      Except.error Panic.nodeTypeMismatch
    else if rng1.Equal rng2 = false then
      Except.error Panic.nodeRangeMismatch
    else if bytesCompare (hashBytes hash1) (hashBytes hash2) = 0 then
      Except.ok (FullyConsistent, result)
    else if typ1 = NodeLeaf ∧ typ2 = NodeLeaf then
      Except.ok (FullyInconsistent, result)
    else
      match diff lchild1 lchild2 result with
      | Except.error e => Except.error e
      | Except.ok (lcon, result1) =>
        match diff rchild1 rchild2 result1 with
        | Except.error e => Except.error e
        | Except.ok (rcon, result2) =>
          if lcon = FullyInconsistent ∧ rcon = FullyInconsistent then
            if parent1 = false then
              Except.ok (FullyInconsistent, result2 ++ [rng1])
            else
              Except.ok (FullyInconsistent, result2)
          else if rcon = FullyInconsistent then
            match rchild1 with
            | Node.null => Except.error Panic.nilDereference
            | Node.mk _ _ _ _ _ _ rrng =>
              Except.ok (PartiallyInconsistent, result2 ++ [rrng])
          else if lcon = FullyInconsistent then
            match lchild1 with
            | Node.null => Except.error Panic.nilDereference
            | Node.mk _ _ _ _ _ _ lrng =>
              Except.ok (PartiallyInconsistent, result2 ++ [lrng])
          else
            Except.ok (PartiallyInconsistent, result2)
  | _, _, _ => Except.error Panic.nilDereference

/-- The method `t.Diff(other)` for two distinct trees: both are filled, then
compared.  Returns the ranges and the two trees as `Fill` left them. -/
def MerkleTree.Diff (H : Bytes → Bytes) (t other : MerkleTree) :
    Except Panic (List Range × MerkleTree × MerkleTree) :=
  match t.Fill H with
  | Except.error e => Except.error e
  | Except.ok t1 =>
    match other.Fill H with
    | Except.error e => Except.error e
    | Except.ok other1 =>
      match diff t1.root other1.root [] with
      | Except.error e => Except.error e
      | Except.ok (_, d) => Except.ok (d, t1, other1)

/-- The call `t.Diff(t)`: `other` aliases `t`, so the second `Fill` runs on
the tree the first one left. -/
def MerkleTree.DiffSelf (H : Bytes → Bytes) (t : MerkleTree) :
    Except Panic (List Range × MerkleTree) :=
  match t.Fill H with
  | Except.error e => Except.error e
  | Except.ok t1 =>
    match t1.Fill H with
    | Except.error e => Except.error e
    | Except.ok t2 =>
      match diff t2.root t2.root [] with
      | Except.error e => Except.error e
      | Except.ok (_, d) => Except.ok (d, t2)

/-! ## Positions -/

/-- A position in a tree: the directions from the root, `false` for `lchild`
and `true` for `rchild`. -/
abbrev Path := List Bool

/-- The node reached from `n` by following `p` (nil when the walk leaves the
tree). -/
def Node.at : Node → Path → Node
  | n, [] => n
  | Node.null, _ :: _ => Node.null
  | Node.mk _ _ _ lchild rchild _ _, b :: p =>
    if b then rchild.at p else lchild.at p

/-- A caller's write `node.hash = h` through the handle of the node at `p`. -/
def Node.setHash : Node → Path → Option Bytes → Node
  | Node.null, _, _ => Node.null
  | Node.mk typ _ parent lchild rchild level rng, [], h =>
    Node.mk typ h parent lchild rchild level rng
  | Node.mk typ hash parent lchild rchild level rng, b :: p, h =>
    if b then Node.mk typ hash parent lchild (rchild.setHash p h) level rng
    else Node.mk typ hash parent (lchild.setHash p h) rchild level rng

def MerkleTree.setHash (t : MerkleTree) (p : Path) (h : Option Bytes) :
    MerkleTree :=
  { t with root := t.root.setHash p h }

/-! ## Observations on nodes -/

/-- The hash field of the node behind a pointer (no hash behind nil). -/
def Node.hash : Node → Option Bytes
  | Node.null => none
  | Node.mk _ h _ _ _ _ _ => h

/-- The Range field of the node behind a pointer. -/
def Node.range : Node → Range
  | Node.null => ⟨[], []⟩
  | Node.mk _ _ _ _ _ _ rng => rng

/-- The flag `parent != nil` of the node behind a pointer. -/
def Node.hasParent : Node → Bool
  | Node.null => false
  | Node.mk _ _ parent _ _ _ _ => parent

/-- Two hash slices are byte-equal: `bytes.Compare` returns 0. -/
def byteEqual (h1 h2 : Option Bytes) : Bool :=
  bytesCompare (hashBytes h1) (hashBytes h2) == 0

/-- The two nodes agree in everything but the hashes and the (unread) level
numbers, at every position: same pointers nil, same types, same parent
flags, same Ranges. -/
def Node.sameShape : Node → Node → Bool
  | Node.null, Node.null => true
  | Node.mk typ1 _ parent1 lchild1 rchild1 _ rng1,
    Node.mk typ2 _ parent2 lchild2 rchild2 _ rng2 =>
    decide (typ1 = typ2) && decide (parent1 = parent2) && decide (rng1 = rng2)
      && lchild1.sameShape lchild2 && rchild1.sameShape rchild2
  | _, _ => false

/-- The tree `t` has the ring bounds, full range, depth and node geometry of
`t0`: it is `t0` up to writes to hashes and runs of `Fill`. -/
def MerkleTree.sameShape (t t0 : MerkleTree) : Bool :=
  decide (t.min = t0.min) && decide (t.max = t0.max)
    && decide (t.fullRange = t0.fullRange) && decide (t.depth = t0.depth)
    && t.root.sameShape t0.root

/-- A complete binary tree of the given depth: leaves exactly at that depth,
internal nodes above, every child carrying a parent reference. -/
def Node.Complete : Nat → Node → Prop
  | _, Node.null => False
  | 0, Node.mk typ _ _ _ _ _ _ => typ = NodeLeaf
  | k + 1, Node.mk typ _ _ lchild rchild _ _ =>
    typ = NodeInternal ∧ lchild.hasParent = true ∧ rchild.hasParent = true
      ∧ lchild.Complete k ∧ rchild.Complete k

/-- The hash `fillInnerHash` gives an internal node whose children carry
`l` and `r`. -/
def combineHash (H : Bytes → Bytes) : Option Bytes → Option Bytes → Option Bytes
  | none, none => none
  | none, some r => some r
  | some l, none => some l
  | some l, some r => some (H (l ++ r))

/-! ## Serialization (tree.go) -/

/-- Merkle tree representation that can be serialized over the network. -/
structure MerkleTreeSerializable where
  Min : Bytes
  Max : Bytes
  FullRange : Range
  Depth : Nat
  FlatTree : List (Option Bytes)
  deriving DecidableEq, Repr

/-- Number of pointers in a tree, nil ones included: a bound on the number
of rounds of the queue loop of `Serialize`. -/
def Node.count : Node → Nat
  | Node.null => 1
  | Node.mk _ _ _ lchild rchild _ _ => 1 + lchild.count + rchild.count

/-- The queue loop of `Serialize`: pop the first node, append its hash, push
the children of an internal node.  The first argument bounds the number of
rounds; `Panic.outOfFuel` is the answer of the model when the bound is
reached, which `Serialize` never meets. -/
def serializeLoop : Nat → List Node → List (Option Bytes) →
    Except Panic (List (Option Bytes))
  | _, [], flat => Except.ok flat
  | 0, _ :: _, _ => Except.error Panic.outOfFuel
  | _ + 1, Node.null :: _, _ => Except.error Panic.nilDereference
  | fuel + 1, Node.mk typ hash _ lchild rchild _ _ :: q, flat =>
    if typ = NodeInternal then
      serializeLoop fuel (q ++ [lchild, rchild]) (flat ++ [hash])
    else
      serializeLoop fuel q (flat ++ [hash])

/-- Serialize using breadth-first representation. -/
def Serialize (t : MerkleTree) : Except Panic MerkleTreeSerializable :=
  match serializeLoop t.root.count [t.root] [] with
  | Except.error e => Except.error e
  | Except.ok flat =>
    Except.ok { Min := t.min, Max := t.max, FullRange := t.fullRange,
                Depth := t.depth, FlatTree := flat }

/-- The write of a whole record through the pointer at position `p`. -/
def Node.put : Node → Path → Node → Node
  | _, [], m => m
  | Node.null, _ :: _, _ => Node.null
  | Node.mk typ hash parent lchild rchild level rng, b :: p, m =>
    if b then Node.mk typ hash parent lchild (rchild.put p m) level rng
    else Node.mk typ hash parent (lchild.put p m) rchild level rng

/-- One round of the loop of `Deserialize` on the state (root, queue): the
queue holds the positions of the queued nodes. -/
def deserializeStep (t : MerkleTree) (st : Node × List Path) (hash : Option Bytes) :
    Except Panic (Node × List Path) :=
  match st.2 with
  | [] => Except.error Panic.indexOutOfRange
  | p :: q =>
    match st.1.at p with
    | Node.null => Except.error Panic.nilDereference
    | Node.mk typ _ parent lchild rchild level rng =>
      if level < t.depth then
        let midpoint := t.midpoint rng
        let l := Node.mk NodeInternal none true Node.null Node.null (level + 1)
          ⟨rng.Left, midpoint⟩
        let r := Node.mk NodeInternal none true Node.null Node.null (level + 1)
          ⟨midpoint, rng.Right⟩
        Except.ok (st.1.put p (Node.mk typ hash parent l r level rng),
          q ++ [p ++ [false], p ++ [true]])
      else
        Except.ok (st.1.put p (Node.mk NodeLeaf hash parent lchild rchild level rng), q)

/-- The loop of `Deserialize` over the entries of the flat tree. -/
def deserializeLoop (t : MerkleTree) : Node × List Path → List (Option Bytes) →
    Except Panic (Node × List Path)
  | st, [] => Except.ok st
  | st, hash :: rest =>
    match deserializeStep t st hash with
    | Except.error e => Except.error e
    | Except.ok st1 => deserializeLoop t st1 rest

/-- Deserialize breadth-first representation of the tree. -/
def Deserialize (s : MerkleTreeSerializable) : Except Panic MerkleTree :=
  let t : MerkleTree :=
    { filled := false, min := s.Min, max := s.Max, fullRange := s.FullRange,
      depth := s.Depth, root := Node.null }
  let root := Node.mk NodeInternal none false Node.null Node.null 0 t.fullRange
  match deserializeLoop t (root, [[]]) s.FlatTree with
  | Except.error e => Except.error e
  | Except.ok (root1, _) => Except.ok { t with root := root1 }

/-! ## Cursor (cursor.go) -/

/-- Check if the given key is within range: `l < k <= r` on the big-endian
values, without any case for a Range that wraps. -/
def Node.inRange : Node → Bytes → Except Panic Bool
  | Node.null, _ => Except.error Panic.nilDereference
  | Node.mk _ _ _ _ _ _ rng, key =>
    Except.ok (decide (setBytes rng.Left < setBytes key)
      && decide (setBytes key ≤ setBytes rng.Right))

def Node.isLeaf : Node → Except Panic Bool
  | Node.null => Except.error Panic.nilDereference
  | Node.mk typ _ _ _ _ _ _ => Except.ok (decide (typ = NodeLeaf))

/-- Cursor is used to traverse the leaf node of a Merkle Tree.  The tree it
is bound to is passed to its methods; `pos` is the position of the current
leaf, `none` for nil. -/
structure Cursor where
  pos : Option Path
  deriving DecidableEq, Repr

/-- The method `Cursor()` of a tree. -/
def MerkleTree.Cursor (_t : MerkleTree) : Cursor :=
  { pos := none }

/-- The loop of `First`, and the last loop of `Next`: always select the left
node until a leaf is reached.  Returns the directions taken. -/
def leftmost : Node → Except Panic Path
  | Node.null => Except.error Panic.nilDereference
  | Node.mk typ _ _ lchild _ _ _ =>
    if typ = NodeLeaf then
      Except.ok []
    else
      match leftmost lchild with
      | Except.error e => Except.error e
      | Except.ok p => Except.ok (false :: p)

/-- First find the first leaf node.  Returns the result and the cursor after
the call. -/
def Cursor.First (t : MerkleTree) (c : Cursor) : Except Panic Path × Cursor :=
  match leftmost t.root with
  | Except.error e => (Except.error e, c)
  | Except.ok p => (Except.ok p, { pos := some p })

/-- The first loop of `Seek`, on the position read from the leaf upwards (the
head is the last direction taken): traverse up the tree until it finds a node
with range that match the key, or the root. -/
def seekUp (root : Node) (key : Bytes) : List Bool → Except Panic (List Bool)
  | [] => Except.ok []
  | b :: up =>
    match (root.at (b :: up).reverse).inRange key with
    | Except.error e => Except.error e
    | Except.ok true => Except.ok (b :: up)
    | Except.ok false => seekUp root key up

/-- The second loop of `Seek`: traverse down the tree to find a leaf node with
range that match the key.  Returns the directions taken. -/
def seekDown (key : Bytes) : Node → Except Panic Path
  | Node.null => Except.error Panic.nilDereference
  | Node.mk typ hash parent lchild rchild level rng =>
    if typ = NodeLeaf then
      match (Node.mk typ hash parent lchild rchild level rng).inRange key with
      | Except.error e => Except.error e
      | Except.ok true => Except.ok []
      | Except.ok false => Except.error Panic.treeNotBuiltCorrectly
    else
      match lchild.inRange key with
      | Except.error e => Except.error e
      | Except.ok true =>
        match seekDown key lchild with
        | Except.error e => Except.error e
        | Except.ok p => Except.ok (false :: p)
      | Except.ok false =>
        match rchild.inRange key with
        | Except.error e => Except.error e
        | Except.ok true =>
          match seekDown key rchild with
          | Except.error e => Except.error e
          | Except.ok p => Except.ok (true :: p)
        | Except.ok false => Except.error Panic.treeNotBuiltCorrectly

/-- Seek find leaf node with range matching the given key, starting from the
current position of the cursor.  Returns the result and the cursor after the
call. -/
def Cursor.Seek (t : MerkleTree) (c : Cursor) (key : Bytes) :
    Except Panic Path × Cursor :=
  let start : Path :=
    match c.pos with
    | none => []
    | some p => p
  match seekUp t.root key start.reverse with
  | Except.error e => (Except.error e, c)
  | Except.ok up =>
    match (t.root.at up.reverse).inRange key with
    | Except.error e => (Except.error e, c)
    | Except.ok false => (Except.error Panic.keyNotInTree, c)
    | Except.ok true =>
      match seekDown key (t.root.at up.reverse) with
      | Except.error e => (Except.error e, c)
      | Except.ok q => (Except.ok (up.reverse ++ q), { pos := some (up.reverse ++ q) })

/-- The first loop of `Next`, on the position read from the leaf upwards:
traverse up the tree until we are no longer the last child. -/
def nextUp : List Bool → List Bool
  | true :: up => nextUp up
  | rest => rest

/-- Next get to the next leaf node; the result is `none` if the current node
is the last node.  Returns the result and the cursor after the call. -/
def Cursor.Next (t : MerkleTree) (c : Cursor) : Except Panic (Option Path) × Cursor :=
  match c.pos with
  | none =>
    match c.First t with
    | (Except.error e, c1) => (Except.error e, c1)
    | (Except.ok p, c1) => (Except.ok (some p), c1)
  | some p =>
    match (t.root.at p).isLeaf with
    | Except.error e => (Except.error e, c)
    | Except.ok false => (Except.error Panic.posNotLeaf, c)
    | Except.ok true =>
      match nextUp p.reverse with
      | [] => (Except.ok none, c)
      | _ :: up =>
        match leftmost (t.root.at (up.reverse ++ [true])) with
        | Except.error e => (Except.error e, c)
        | Except.ok q =>
          (Except.ok (some (up.reverse ++ true :: q)),
            { pos := some (up.reverse ++ true :: q) })

/-- The loop `for n := c.First(); n != nil; n = c.Next()` after its first
call: the positions visited are appended to `acc`.  The first argument bounds
the number of calls of `Next`. -/
def walkNext (t : MerkleTree) : Nat → Cursor → List Path → Except Panic (List Path)
  | 0, _, _ => Except.error Panic.outOfFuel
  | fuel + 1, c, acc =>
    match c.Next t with
    | (Except.error e, _) => Except.error e
    | (Except.ok none, _) => Except.ok acc
    | (Except.ok (some p), c1) => walkNext t fuel c1 (acc ++ [p])

/-- The loop `for n := c.First(); n != nil; n = c.Next()` on a fresh cursor:
the positions of the nodes it visits, in order. -/
def walk (t : MerkleTree) (fuel : Nat) : Except Panic (List Path) :=
  match t.Cursor.First t with
  | (Except.error e, _) => Except.error e
  | (Except.ok p, c) => walkNext t fuel c [p]

/-- Membership of a key in a Range of the ring under the cyclic rule of the
specification: `key > Left` or `key <= Right` when `Left > Right`, and
`Left < key <= Right` otherwise. -/
def Range.cyclicContains (r : Range) (key : Bytes) : Bool :=
  if setBytes r.Left > setBytes r.Right then
    decide (setBytes key > setBytes r.Left) || decide (setBytes key ≤ setBytes r.Right)
  else
    decide (setBytes r.Left < setBytes key) && decide (setBytes key ≤ setBytes r.Right)

/-- The test of `inRange` on the Range of the node behind a pointer. -/
def Node.inRangeB (n : Node) (key : Bytes) : Bool :=
  decide (setBytes n.range.Left < setBytes key)
    && decide (setBytes key ≤ setBytes n.range.Right)

/-- The Range of the node does not wrap: its Left is at most its Right. -/
def Node.NonWrap (n : Node) : Prop :=
  setBytes n.range.Left ≤ setBytes n.range.Right

/-- The tree of `TestIteration`: depth 1 over the wrapping range (255,3]. -/
def wrapBase : MerkleTree :=
  match NewMerkleTree 1 [0] [255] [255] [3] with
  | Except.ok t => t
  | Except.error _ => ⟨false, [], [], ⟨[], []⟩, 0, Node.null⟩

/-- A tree of depth 2 over the wrapping range (200,10]. -/
def wrapDeep : MerkleTree :=
  match NewMerkleTree 2 [0] [255] [200] [10] with
  | Except.ok t => t
  | Except.error _ => ⟨false, [], [], ⟨[], []⟩, 0, Node.null⟩

/-! ## Level order -/

/-- The positions at depth `k`, from left to right. -/
def levelPaths : Nat → List Path
  | 0 => [[]]
  | k + 1 => (levelPaths k).map (List.cons false) ++ (levelPaths k).map (List.cons true)

/-- The hashes of the nodes at depth `k` below `n`, from left to right. -/
def Node.levelHashes (n : Node) (k : Nat) : List (Option Bytes) :=
  (levelPaths k).map (fun p => (n.at p).hash)

/-- The hashes below the nodes of `ns` on `m` successive levels starting at
depth `j`: each level from left to right. -/
def levelsFrom (ns : List Node) : Nat → Nat → List (Option Bytes)
  | _, 0 => []
  | j, m + 1 => ns.flatMap (fun n => n.levelHashes j) ++ levelsFrom ns (j + 1) m

/-- The two child pointers of a node. -/
def Node.children : Node → List Node
  | Node.null => []
  | Node.mk _ _ _ lchild rchild _ _ => [lchild, rchild]

/-- Index of a position in breadth-first order: 0 for the root, `2i+1` and
`2i+2` for the left and right child of the node of index `i`. -/
def bfsIndex (p : Path) : Nat :=
  p.foldl (fun i b => 2 * i + (if b then 2 else 1)) 0

/-- Rank of a position among the positions of its depth, from the left. -/
def pathNum : Path → Nat
  | [] => 0
  | b :: p => (if b then 2 ^ p.length else 0) + pathNum p

/-! ## Notions for the proof of the round trip -/

/-- The tree with the level numbers `Deserialize` writes: `lv` at the top and
one more at each step down. -/
def Node.relevel : Nat → Node → Node
  | _, Node.null => Node.null
  | lv, Node.mk typ hash parent lchild rchild _ rng =>
    Node.mk typ hash parent (lchild.relevel (lv + 1)) (rchild.relevel (lv + 1)) lv rng

/-- The tree `Deserialize` has built when the levels above depth `j` are
read: as `relevel`, but the nodes at depth `j` are still the fresh records
their parents allocated. -/
def Node.cut : Nat → Nat → Node → Node
  | _, _, Node.null => Node.null
  | 0, lv, Node.mk _ _ parent _ _ _ rng =>
    Node.mk NodeInternal none parent Node.null Node.null lv rng
  | j + 1, lv, Node.mk typ hash parent lchild rchild _ rng =>
    Node.mk typ hash parent (lchild.cut j (lv + 1)) (rchild.cut j (lv + 1)) lv rng

/-- The geometry `buildTree` produces with `k` levels below the node: leaves
without children at depth `k`, and above them internal nodes whose children
hold the two halves of the Range, split at the midpoint. -/
def Node.Built (t : MerkleTree) : Nat → Node → Prop
  | _, Node.null => False
  | 0, Node.mk typ _ _ lchild rchild _ _ =>
    typ = NodeLeaf ∧ lchild = Node.null ∧ rchild = Node.null
  | k + 1, Node.mk typ _ _ lchild rchild _ rng =>
    typ = NodeInternal ∧ lchild.hasParent = true ∧ rchild.hasParent = true
      ∧ lchild.range = ⟨rng.Left, t.midpoint rng⟩
      ∧ rchild.range = ⟨t.midpoint rng, rng.Right⟩
      ∧ lchild.Built t k ∧ rchild.Built t k

/-- Some position at depth `k` is reached by `diff` from the pair of nodes:
the hashes of the two trees differ at every node above it. -/
def Reached (k : Nat) (n1 n2 : Node) : Prop :=
  ∃ p : Path, p.length = k ∧
    ∀ j, j < k → byteEqual (n1.at (p.take j)).hash (n2.at (p.take j)).hash = false

/-! ## Concrete trees -/

/-- A stand-in for the external digest in concrete runs: the concatenated
input itself, which is free of collisions. -/
def concatHash : Bytes → Bytes := fun b => b

/-- The tree of the tests: depth 2 over (16,31] on the ring [0,255]. -/
def testBase : MerkleTree :=
  match NewMerkleTree 2 [0] [255] [16] [31] with
  | Except.ok t => t
  | Except.error _ => ⟨false, [], [], ⟨[], []⟩, 0, Node.null⟩

/-- First tree of `TestDiff`: leaf of key 17 set to "test", leaf of key 31 set
to "foo". -/
def testTree1 : MerkleTree :=
  (testBase.setHash [false, false] (some [116, 101, 115, 116])).setHash [true, true]
    (some [102, 111, 111])

/-- Second tree of `TestDiff`: leaf of key 17 set to "test", leaf of key 31 set
to "bar". -/
def testTree2 : MerkleTree :=
  (testBase.setHash [false, false] (some [116, 101, 115, 116])).setHash [true, true]
    (some [98, 97, 114])

/-- A tree of depth 1 over (16,31]. -/
def smallBase : MerkleTree :=
  match NewMerkleTree 1 [0] [255] [16] [31] with
  | Except.ok t => t
  | Except.error _ => ⟨false, [], [], ⟨[], []⟩, 0, Node.null⟩

/-- The tree `smallBase` with only its right leaf set, to "a". -/
def smallRight : MerkleTree := smallBase.setHash [true] (some [97])

/-- The tree `smallBase` with only its left leaf set, to "a". -/
def smallLeft : MerkleTree := smallBase.setHash [false] (some [97])

/-- The tree `smallBase` with its leaves set to "a" and "b". -/
def smallAB : MerkleTree :=
  (smallBase.setHash [false] (some [97])).setHash [true] (some [98])

/-- The tree `smallBase` with its leaves set to "c" and "d". -/
def smallCD : MerkleTree :=
  (smallBase.setHash [false] (some [99])).setHash [true] (some [100])

/-- A tree of depth 2 over (16,30]. -/
def shortBase : MerkleTree :=
  match NewMerkleTree 2 [0] [255] [16] [30] with
  | Except.ok t => t
  | Except.error _ => ⟨false, [], [], ⟨[], []⟩, 0, Node.null⟩

/-- The tree of the tests with only its second leaf, over (19,23], set, to
"a". -/
def midLeft : MerkleTree := testBase.setHash [false, true] (some [97])

/-- The tree of the tests with only its third leaf, over (23,27], set, to
"c". -/
def midRight : MerkleTree := testBase.setHash [true, false] (some [99])

/-- The first tree of `TestDiff` after Fill. -/
def testFilled : MerkleTree :=
  match testTree1.Fill concatHash with
  | Except.ok f => f
  | Except.error _ => testTree1

/-- The tree `testFilled` after the write of "bar" to the leaf of key 31. -/
def testStale : MerkleTree := testFilled.setHash [true, true] (some [98, 97, 114])

/-- The tree with the hash of each node replaced by the entry of `flat` at the
breadth-first index of the node, `i` being the index of the top node; absent
where `flat` has no such entry. -/
def Node.withFlat (flat : List (Option Bytes)) : Nat → Node → Node
  | _, Node.null => Node.null
  | i, Node.mk typ _ parent lchild rchild level rng =>
    Node.mk typ (flat.getD i none) parent (lchild.withFlat flat (2 * i + 1))
      (rchild.withFlat flat (2 * i + 2)) level rng

/-- A flat tree of depth 2 that stops after two entries. -/
def shortFlat : MerkleTreeSerializable :=
  { Min := [0], Max := [255], FullRange := ⟨[16], [31]⟩, Depth := 2,
    FlatTree := [some [1], some [2]] }

/-- A flat tree of depth 0: one entry, "a", for the root. -/
def leafFlatA : MerkleTreeSerializable :=
  { Min := [0], Max := [255], FullRange := ⟨[16], [31]⟩, Depth := 0,
    FlatTree := [some [97]] }

/-- A flat tree of depth 0: one entry, "b", for the root. -/
def leafFlatB : MerkleTreeSerializable :=
  { Min := [0], Max := [255], FullRange := ⟨[16], [31]⟩, Depth := 0,
    FlatTree := [some [98]] }

/-- The tree Deserialize returns on `leafFlatA`: a single leaf as root. -/
def leafTreeA : MerkleTree :=
  match Deserialize leafFlatA with
  | Except.ok t => t
  | Except.error _ => ⟨false, [], [], ⟨[], []⟩, 0, Node.null⟩

/-- The tree Deserialize returns on `leafFlatB`: a single leaf as root. -/
def leafTreeB : MerkleTree :=
  match Deserialize leafFlatB with
  | Except.ok t => t
  | Except.error _ => ⟨false, [], [], ⟨[], []⟩, 0, Node.null⟩

/-- The tree Deserialize returns on `shortFlat`. -/
def shortTree : MerkleTree :=
  match Deserialize shortFlat with
  | Except.ok t => t
  | Except.error _ => ⟨false, [], [], ⟨[], []⟩, 0, Node.null⟩

/-! ## Notions for the characterisation of Diff -/

/-- The hashes of the two trees differ at position `p`. -/
def Differ (n1 n2 : Node) (p : Path) : Prop :=
  byteEqual (n1.at p).hash (n2.at p).hash = false

/-- The hashes of the two trees differ at the node at `p` and at every node
of its subtree, in trees of depth `d`. -/
def Divergent (d : Nat) (n1 n2 : Node) (p : Path) : Prop :=
  ∀ r : Path, (p ++ r).length ≤ d → Differ n1 n2 (p ++ r)

/-- The hashes of the two trees differ at every ancestor of the node at `p`. -/
def AncestorsDiffer (n1 n2 : Node) (p : Path) : Prop :=
  ∀ j, j < p.length → Differ n1 n2 (p.take j)

/-- The position of the sibling of the node at `p`: the last direction is
turned. -/
def sibling : Path → Path
  | [] => []
  | [b] => [!b]
  | c :: b :: p => c :: sibling (b :: p)

/-- One position is an ancestor of the other, or the same. -/
def Comparable (p q : Path) : Prop :=
  p <+: q ∨ q <+: p

/-! ## Wire form of the flat tree -/

/-- Modelled from the spec: the flat tree as it is written out, each absent
hash as a zero-length entry. -/
def MerkleTreeSerializable.zeroLength (s : MerkleTreeSerializable) :
    MerkleTreeSerializable :=
  { s with FlatTree := s.FlatTree.map (fun h => some (hashBytes h)) }

/-! ## Notions for Deserialize on a short flat tree -/

/-- Breadth-first index of the node reached by the directions `p` from the
node of breadth-first index `i`. -/
def bfsFrom (i : Nat) (p : Path) : Nat :=
  p.foldl (fun i b => 2 * i + (if b then 2 else 1)) i

/-- The tree `Deserialize` holds when it has read the `n` first entries of
the flat tree, as a part of the complete tree `Deserialize` builds from all
entries, `i` being the breadth-first index of the top node: a node of index
below `n` is as in the complete tree; a node of index `n` or more is the
record its parent allocated, without hash, without children and without the
leaf mark; below such a node there is nothing. -/
def Node.readTo (n : Nat) : Nat → Node → Node
  | _, Node.null => Node.null
  | i, Node.mk typ hash parent lchild rchild level rng =>
    if i < n then
      Node.mk typ hash parent (lchild.readTo n (2 * i + 1)) (rchild.readTo n (2 * i + 2))
        level rng
    else
      Node.mk NodeInternal none parent Node.null Node.null level rng

/-- The positions at depth at most `d`, in breadth-first order. -/
def allPaths : Nat → List Path
  | 0 => [[]]
  | d + 1 => allPaths d ++ levelPaths (d + 1)

/-! # Verification -/

/-! ## Bytes -/

theorem bytesCompare_eq_zero_iff (a b : Bytes) : bytesCompare a b = 0 ↔ a = b := by
  induction a generalizing b with
  | nil => cases b <;> simp [bytesCompare]
  | cons x xs ih =>
    cases b with
    | nil => simp [bytesCompare]
    | cons y ys =>
      simp only [bytesCompare]
      by_cases h1 : x < y
      · simp [h1]; omega
      · by_cases h2 : y < x
        · simp [h1, h2]; omega
        · have : x = y := by omega
          simp [h1, h2, ih, this]

theorem bytesCompare_self (a : Bytes) : bytesCompare a a = 0 :=
  (bytesCompare_eq_zero_iff a a).mpr rfl

theorem Range.Equal_self (r : Range) : r.Equal r = true := by
  simp [Range.Equal, bytesCompare_self]

theorem byteEqual_self (h : Option Bytes) : byteEqual h h = true := by
  simp [byteEqual, bytesCompare_self]

theorem byteEqual_iff (h1 h2 : Option Bytes) :
    byteEqual h1 h2 = true ↔ hashBytes h1 = hashBytes h2 := by
  simp [byteEqual, bytesCompare_eq_zero_iff]

/-! ## Shapes -/

theorem Node.sameShape_refl (n : Node) : n.sameShape n = true := by
  induction n with
  | null => rfl
  | mk typ hash parent l r level rng ihl ihr => simp [Node.sameShape, ihl, ihr]

theorem Node.sameShape_symm {n m : Node} (h : n.sameShape m = true) :
    m.sameShape n = true := by
  induction n generalizing m with
  | null => cases m <;> simp_all [Node.sameShape]
  | mk typ hash parent l r level rng ihl ihr =>
    cases m with
    | null => simp [Node.sameShape] at h
    | mk typ2 hash2 parent2 l2 r2 level2 rng2 =>
      simp only [Node.sameShape, Bool.and_eq_true, decide_eq_true_eq] at h ⊢
      obtain ⟨⟨⟨⟨h1, h2⟩, h3⟩, h4⟩, h5⟩ := h
      exact ⟨⟨⟨⟨h1.symm, h2.symm⟩, h3.symm⟩, ihl h4⟩, ihr h5⟩

theorem Node.sameShape_trans {n m k : Node} (h1 : n.sameShape m = true)
    (h2 : m.sameShape k = true) : n.sameShape k = true := by
  induction n generalizing m k with
  | null => cases m <;> cases k <;> simp_all [Node.sameShape]
  | mk typ hash parent l r level rng ihl ihr =>
    cases m with
    | null => simp [Node.sameShape] at h1
    | mk typ2 hash2 parent2 l2 r2 level2 rng2 =>
      cases k with
      | null => simp [Node.sameShape] at h2
      | mk typ3 hash3 parent3 l3 r3 level3 rng3 =>
        simp only [Node.sameShape, Bool.and_eq_true, decide_eq_true_eq] at h1 h2 ⊢
        obtain ⟨⟨⟨⟨a1, a2⟩, a3⟩, a4⟩, a5⟩ := h1
        obtain ⟨⟨⟨⟨b1, b2⟩, b3⟩, b4⟩, b5⟩ := h2
        exact ⟨⟨⟨⟨a1.trans b1, a2.trans b2⟩, a3.trans b3⟩, ihl a4 b4⟩, ihr a5 b5⟩

theorem Node.sameShape_hasParent {n m : Node} (h : n.sameShape m = true) :
    n.hasParent = m.hasParent := by
  cases n <;> cases m <;> simp [Node.sameShape, Node.hasParent] at h ⊢
  exact h.1.1.1.2

theorem Node.Complete_of_sameShape {d : Nat} {n m : Node}
    (h : n.sameShape m = true) (c : n.Complete d) : m.Complete d := by
  induction d generalizing n m with
  | zero =>
    cases n with
    | null => exact absurd c (by simp [Node.Complete])
    | mk typ hash parent l r level rng =>
      cases m with
      | null => simp [Node.sameShape] at h
      | mk typ2 hash2 parent2 l2 r2 level2 rng2 =>
        simp only [Node.sameShape, Bool.and_eq_true, decide_eq_true_eq] at h
        simp only [Node.Complete] at c ⊢
        rw [← h.1.1.1.1]; exact c
  | succ k ih =>
    cases n with
    | null => exact absurd c (by simp [Node.Complete])
    | mk typ hash parent l r level rng =>
      cases m with
      | null => simp [Node.sameShape] at h
      | mk typ2 hash2 parent2 l2 r2 level2 rng2 =>
        simp only [Node.sameShape, Bool.and_eq_true, decide_eq_true_eq] at h
        simp only [Node.Complete] at c ⊢
        obtain ⟨⟨⟨⟨a1, a2⟩, a3⟩, a4⟩, a5⟩ := h
        obtain ⟨c1, c2, c3, c4, c5⟩ := c
        exact ⟨a1 ▸ c1, (Node.sameShape_hasParent a4) ▸ c2,
          (Node.sameShape_hasParent a5) ▸ c3, ih a4 c4, ih a5 c5⟩

theorem Node.sameShape_range {n m : Node} (h : n.sameShape m = true) :
    n.range = m.range := by
  cases n <;> cases m <;> simp [Node.sameShape, Node.range] at h ⊢
  exact h.1.1.2

theorem Node.sameShape_at {n m : Node} (h : n.sameShape m = true) (p : Path) :
    (n.at p).sameShape (m.at p) = true := by
  induction p generalizing n m with
  | nil => simpa [Node.at] using h
  | cons b p ih =>
    cases n with
    | null => cases m <;> simp_all [Node.sameShape, Node.at]
    | mk typ hash parent l r level rng =>
      cases m with
      | null => simp [Node.sameShape] at h
      | mk typ2 hash2 parent2 l2 r2 level2 rng2 =>
        simp only [Node.sameShape, Bool.and_eq_true, decide_eq_true_eq] at h
        cases b
        · simpa [Node.at] using ih h.1.2
        · simpa [Node.at] using ih h.2

/-! ## Positions in complete trees -/

theorem Node.at_cons_mk (typ : NodeType) (hash : Option Bytes) (parent : Bool)
    (l r : Node) (level : Nat) (rng : Range) (b : Bool) (p : Path) :
    (Node.mk typ hash parent l r level rng).at (b :: p) = if b then r.at p else l.at p := by
  simp [Node.at]

theorem Node.at_nil (n : Node) : n.at [] = n := by
  cases n <;> rfl

theorem Node.at_append (n : Node) (p q : Path) : n.at (p ++ q) = (n.at p).at q := by
  induction p generalizing n with
  | nil => simp [Node.at_nil]
  | cons b p ih =>
    cases n with
    | null => cases q <;> simp [Node.at]
    | mk typ hash parent l r level rng =>
      cases b <;> simp [Node.at, ih]

theorem Node.Complete.at {d : Nat} {n : Node} (c : n.Complete d) {q : Path}
    (hq : q.length ≤ d) : (n.at q).Complete (d - q.length) := by
  induction q generalizing d n with
  | nil => simpa [Node.at_nil] using c
  | cons b q ih =>
    cases d with
    | zero => simp at hq
    | succ d =>
      cases n with
      | null => exact absurd c (by simp [Node.Complete])
      | mk typ hash parent l r level rng =>
        simp only [Node.Complete] at c
        simp only [List.length_cons, Nat.add_le_add_iff_right] at hq
        cases b
        · simpa [Node.at] using ih c.2.2.2.1 hq
        · simpa [Node.at] using ih c.2.2.2.2 hq

theorem isLeaf_complete {d : Nat} {n : Node} (c : n.Complete d) {p : Path}
    (hp : p.length = d) : (n.at p).isLeaf = Except.ok true := by
  have h := c.at (Nat.le_of_eq hp)
  rw [hp, Nat.sub_self] at h
  cases hn : n.at p with
  | null => rw [hn] at h; exact absurd h (by simp [Node.Complete])
  | mk typ hash parent l r level rng =>
    rw [hn] at h
    simp only [Node.Complete] at h
    simp [Node.isLeaf, h]

theorem isLeaf_internal {d : Nat} {n : Node} (c : n.Complete d) {p : Path}
    (hp : p.length < d) : (n.at p).isLeaf = Except.ok false := by
  have h := c.at (Nat.le_of_lt hp)
  obtain ⟨k, hk⟩ : ∃ k, d - p.length = k + 1 := ⟨d - p.length - 1, by omega⟩
  rw [hk] at h
  cases hn : n.at p with
  | null => rw [hn] at h; exact absurd h (by simp [Node.Complete])
  | mk typ hash parent l r level rng =>
    rw [hn] at h
    simp only [Node.Complete] at h
    simp [Node.isLeaf, h.1]

/-! ## The constructor -/

theorem buildTree_shape (t : MerkleTree) (k : Nat) (parent : Bool) (rng : Range) :
    (t.buildTree (Node.new parent rng) k).Complete k
      ∧ (t.buildTree (Node.new parent rng) k).hasParent = parent
      ∧ (t.buildTree (Node.new parent rng) k).range = rng := by
  induction k generalizing parent rng with
  | zero => simp [MerkleTree.buildTree, Node.new, Node.Complete, Node.hasParent, Node.range]
  | succ k ih =>
    simp only [MerkleTree.buildTree, Node.new, Node.Complete, Node.hasParent, Node.range,
      and_true, true_and]
    exact ⟨(ih true _).2.1, (ih true _).2.1, (ih true _).1, (ih true _).1⟩

theorem NewMerkleTree_ok {depth : Nat} (min max left right : Bytes) (h : 1 ≤ depth) :
    ∃ t0, NewMerkleTree depth min max left right = Except.ok t0 := by
  have : depth ≠ 0 := by omega
  simp [NewMerkleTree, this]

theorem NewMerkleTree_spec {depth : Nat} {min max left right : Bytes} {t0 : MerkleTree}
    (h : NewMerkleTree depth min max left right = Except.ok t0) :
    1 ≤ depth ∧ t0.filled = false ∧ t0.min = min ∧ t0.max = max
      ∧ t0.fullRange = ⟨left, right⟩ ∧ t0.depth = depth
      ∧ t0.root.Complete depth ∧ t0.root.hasParent = false
      ∧ t0.root.range = ⟨left, right⟩ := by
  unfold NewMerkleTree at h
  by_cases hd : depth = 0
  · simp [hd] at h
  · simp only [hd, if_false, Except.ok.injEq] at h
    subst h
    refine ⟨by omega, rfl, rfl, rfl, rfl, rfl, ?_, ?_, ?_⟩
    · exact (buildTree_shape _ depth false _).1
    · exact (buildTree_shape _ depth false _).2.1
    · exact (buildTree_shape _ depth false _).2.2

/-! ## Fill -/

/-- On a complete tree `fillInnerHash` returns; it keeps the geometry and the
leaf hashes, and gives every internal node the combination of its
children's hashes. -/
theorem fillInnerHash_complete (H : Bytes → Bytes) {d : Nat} {n : Node}
    (c : n.Complete d) :
    ∃ n', fillInnerHash H n = Except.ok n' ∧ n.sameShape n' = true
      ∧ (∀ p : Path, p.length = d → (n'.at p).hash = (n.at p).hash)
      ∧ (∀ p : Path, p.length < d → (n'.at p).hash =
          combineHash H (n'.at (p ++ [false])).hash (n'.at (p ++ [true])).hash) := by
  induction d generalizing n with
  | zero =>
    cases n with
    | null => exact absurd c (by simp [Node.Complete])
    | mk typ hash parent l r level rng =>
      simp only [Node.Complete] at c
      subst c
      refine ⟨_, by simp [fillInnerHash], Node.sameShape_refl _, fun p _ => rfl, ?_⟩
      intro p hp
      simp at hp
  | succ k ih =>
    cases n with
    | null => exact absurd c (by simp [Node.Complete])
    | mk typ hash parent l r level rng =>
      simp only [Node.Complete] at c
      obtain ⟨c1, -, -, c4, c5⟩ := c
      subst c1
      obtain ⟨l', hl, sl, leafl, innerl⟩ := ih c4
      obtain ⟨r', hr, sr, leafr, innerr⟩ := ih c5
      cases l' with
      | null => cases l <;> simp [Node.sameShape, Node.Complete] at sl c4
      | mk lt lh lp ll lr lv lrng =>
        cases r' with
        | null => cases r <;> simp [Node.sameShape, Node.Complete] at sr c5
        | mk rt rh rp rl rr rv rrng =>
          refine ⟨_, by simp [fillInnerHash, hl, hr]; rfl, ?_, ?_, ?_⟩
          · simp [Node.sameShape, sl, sr]
          · intro p hp
            cases p with
            | nil => simp at hp
            | cons b p =>
              simp only [List.length_cons, Nat.add_right_cancel_iff] at hp
              cases b
              · simpa [Node.at] using leafl p hp
              · simpa [Node.at] using leafr p hp
          · intro p hp
            cases p with
            | nil =>
              simp only [List.nil_append, Node.at, Node.hash]
              cases lh <;> cases rh <;> simp [combineHash, Node.at, Node.hash]
            | cons b p =>
              simp only [List.length_cons, Nat.add_lt_add_iff_right] at hp
              cases b
              · simpa [Node.at] using innerl p hp
              · simpa [Node.at] using innerr p hp

/-! ## Diff -/

/-- Two same-shaped complete trees whose leaf hashes are byte-equal at every
leaf: `diff` fails no assertion, adds nothing to the result and does not
report full inconsistency. -/
theorem diff_leaves_equal {d : Nat} {n1 n2 : Node} (res : List Range)
    (c : n1.Complete d) (s : n1.sameShape n2 = true)
    (heq : ∀ p : Path, p.length = d → byteEqual (n1.at p).hash (n2.at p).hash = true) :
    ∃ con, diff n1 n2 res = Except.ok (con, res) ∧ con ≠ FullyInconsistent := by
  induction d generalizing n1 n2 res with
  | zero =>
    cases n1 with
    | null => exact absurd c (by simp [Node.Complete])
    | mk typ hash parent l r level rng =>
      cases n2 with
      | null => simp [Node.sameShape] at s
      | mk typ2 hash2 parent2 l2 r2 level2 rng2 =>
        simp only [Node.sameShape, Bool.and_eq_true, decide_eq_true_eq] at s
        obtain ⟨⟨⟨⟨a1, -⟩, a3⟩, -⟩, -⟩ := s
        subst a1 a3
        have h0 := heq [] rfl
        simp only [Node.at, Node.hash, byteEqual, beq_iff_eq] at h0
        exact ⟨FullyConsistent, by simp [diff, Range.Equal_self, h0], by decide⟩
  | succ k ih =>
    cases n1 with
    | null => exact absurd c (by simp [Node.Complete])
    | mk typ hash parent l r level rng =>
      cases n2 with
      | null => simp [Node.sameShape] at s
      | mk typ2 hash2 parent2 l2 r2 level2 rng2 =>
        simp only [Node.sameShape, Bool.and_eq_true, decide_eq_true_eq] at s
        obtain ⟨⟨⟨⟨a1, -⟩, a3⟩, a4⟩, a5⟩ := s
        subst a1 a3
        simp only [Node.Complete] at c
        obtain ⟨c1, -, -, c4, c5⟩ := c
        subst c1
        obtain ⟨lcon, hl, nl⟩ := ih res c4 a4
          (fun p hp => by simpa [Node.at] using heq (false :: p) (by simp [hp]))
        obtain ⟨rcon, hr, nr⟩ := ih res c5 a5
          (fun p hp => by simpa [Node.at] using heq (true :: p) (by simp [hp]))
        by_cases h0 : bytesCompare (hashBytes hash) (hashBytes hash2) = 0
        · exact ⟨FullyConsistent, by simp [diff, Range.Equal_self, h0], by decide⟩
        · exact ⟨PartiallyInconsistent,
            by simp [diff, Range.Equal_self, h0, hl, hr, nl, nr], by decide⟩

/-- Two same-shaped complete trees whose leaf hashes differ at the leaf `p`
only, the hashes differing at every ancestor of `p`: below the root of a tree
of depth at least one `diff` adds the Range of that leaf, and nothing else. -/
theorem diff_one_leaf {d : Nat} {n1 n2 : Node} (res : List Range) (p : Path)
    (c : n1.Complete d) (s : n1.sameShape n2 = true) (hp : p.length = d)
    (hne : byteEqual (n1.at p).hash (n2.at p).hash = false)
    (heq : ∀ q : Path, q.length = d → q ≠ p →
      byteEqual (n1.at q).hash (n2.at q).hash = true)
    (hanc : ∀ k, k < d →
      byteEqual (n1.at (p.take k)).hash (n2.at (p.take k)).hash = false) :
    diff n1 n2 res = Except.ok
      (if d = 0 then (FullyInconsistent, res)
        else (PartiallyInconsistent, res ++ [(n1.at p).range])) := by
  induction d generalizing n1 n2 res p with
  | zero =>
    cases n1 with
    | null => exact absurd c (by simp [Node.Complete])
    | mk typ hash parent l r level rng =>
      cases n2 with
      | null => simp [Node.sameShape] at s
      | mk typ2 hash2 parent2 l2 r2 level2 rng2 =>
        simp only [Node.sameShape, Bool.and_eq_true, decide_eq_true_eq] at s
        obtain ⟨⟨⟨⟨a1, -⟩, a3⟩, -⟩, -⟩ := s
        subst a1 a3
        simp only [Node.Complete] at c
        subst c
        have hp0 : p = [] := List.length_eq_zero.mp hp
        subst hp0
        simp only [Node.at, Node.hash, byteEqual, beq_eq_false_iff_ne, ne_eq] at hne
        simp [diff, Range.Equal_self, hne]
  | succ k ih =>
    cases n1 with
    | null => exact absurd c (by simp [Node.Complete])
    | mk typ hash parent l r level rng =>
      cases n2 with
      | null => simp [Node.sameShape] at s
      | mk typ2 hash2 parent2 l2 r2 level2 rng2 =>
        simp only [Node.sameShape, Bool.and_eq_true, decide_eq_true_eq] at s
        obtain ⟨⟨⟨⟨a1, -⟩, a3⟩, a4⟩, a5⟩ := s
        subst a1 a3
        simp only [Node.Complete] at c
        obtain ⟨c1, -, -, c4, c5⟩ := c
        subst c1
        have h0 := hanc 0 (Nat.succ_pos k)
        simp only [List.take_zero, Node.at, Node.hash, byteEqual, beq_eq_false_iff_ne,
          ne_eq] at h0
        cases p with
        | nil => simp at hp
        | cons b p =>
          simp only [List.length_cons, Nat.add_right_cancel_iff] at hp
          have hanc' : ∀ j, j < k → byteEqual
              (((Node.mk NodeInternal hash parent l r level rng).at (b :: p.take j)).hash)
              (((Node.mk NodeInternal hash2 parent2 l2 r2 level2 rng).at
                (b :: p.take j)).hash) = false := by
            intro j hj
            simpa using hanc (j + 1) (by omega)
          cases b
          · -- the differing leaf is below lchild
            have hl := ih res p c4 a4 hp (by simpa [Node.at] using hne)
              (fun q hq hqp => by
                simpa [Node.at] using heq (false :: q) (by simp [hq]) (by simpa using hqp))
              (fun j hj => by simpa [Node.at] using hanc' j hj)
            obtain ⟨rcon, hr, nr⟩ := diff_leaves_equal
              (if k = 0 then res else res ++ [(l.at p).range]) c5 a5
              (fun q hq => by
                simpa [Node.at] using heq (true :: q) (by simp [hq]) (by simp))
            by_cases hk : k = 0
            · subst hk
              have hp0 : p = [] := List.length_eq_zero.mp hp
              subst hp0
              cases l with
              | null => exact absurd c4 (by simp [Node.Complete])
              | mk lt lh lp ll lr lv lrng =>
                simp only [if_true] at hl hr
                simp [diff, Range.Equal_self, h0, hl, hr, nr, Node.at, Node.range]
            · simp only [hk, if_false] at hl hr
              simp [diff, Range.Equal_self, h0, hl, hr, nr, Node.at]
          · -- the differing leaf is below rchild
            obtain ⟨lcon, hl, nl⟩ := diff_leaves_equal res c4 a4
              (fun q hq => by
                simpa [Node.at] using heq (false :: q) (by simp [hq]) (by simp))
            have hr := ih res p c5 a5 hp (by simpa [Node.at] using hne)
              (fun q hq hqp => by
                simpa [Node.at] using heq (true :: q) (by simp [hq]) (by simpa using hqp))
              (fun j hj => by simpa [Node.at] using hanc' j hj)
            by_cases hk : k = 0
            · subst hk
              have hp0 : p = [] := List.length_eq_zero.mp hp
              subst hp0
              cases r with
              | null => exact absurd c5 (by simp [Node.Complete])
              | mk rt rh rp rl rr rv rrng =>
                simp only [if_true] at hr
                simp [diff, Range.Equal_self, h0, hl, hr, nl, Node.at, Node.range]
            · simp only [hk, if_false] at hr
              simp [diff, Range.Equal_self, h0, hl, hr, nl, Node.at]

/-- Two same-shaped complete trees whose hashes differ at every leaf and at
every internal node: `diff` reports full inconsistency, and adds the Range
of the top node exactly when that node is internal and has no parent. -/
theorem diff_all_differ {d : Nat} {n1 n2 : Node} (res : List Range)
    (c : n1.Complete d) (s : n1.sameShape n2 = true)
    (hne : ∀ p : Path, p.length ≤ d →
      byteEqual (n1.at p).hash (n2.at p).hash = false) :
    diff n1 n2 res = Except.ok (FullyInconsistent,
      if d ≠ 0 ∧ n1.hasParent = false then res ++ [n1.range] else res) := by
  induction d generalizing n1 n2 res with
  | zero =>
    cases n1 with
    | null => exact absurd c (by simp [Node.Complete])
    | mk typ hash parent l r level rng =>
      cases n2 with
      | null => simp [Node.sameShape] at s
      | mk typ2 hash2 parent2 l2 r2 level2 rng2 =>
        simp only [Node.sameShape, Bool.and_eq_true, decide_eq_true_eq] at s
        obtain ⟨⟨⟨⟨a1, -⟩, a3⟩, -⟩, -⟩ := s
        subst a1 a3
        simp only [Node.Complete] at c
        subst c
        have h0 := hne [] (Nat.le_refl _)
        simp only [Node.at, Node.hash, byteEqual, beq_eq_false_iff_ne, ne_eq] at h0
        simp [diff, Range.Equal_self, h0]
  | succ k ih =>
    cases n1 with
    | null => exact absurd c (by simp [Node.Complete])
    | mk typ hash parent l r level rng =>
      cases n2 with
      | null => simp [Node.sameShape] at s
      | mk typ2 hash2 parent2 l2 r2 level2 rng2 =>
        simp only [Node.sameShape, Bool.and_eq_true, decide_eq_true_eq] at s
        obtain ⟨⟨⟨⟨a1, -⟩, a3⟩, a4⟩, a5⟩ := s
        subst a1 a3
        simp only [Node.Complete] at c
        obtain ⟨c1, c2, c3, c4, c5⟩ := c
        subst c1
        have h0 := hne [] (Nat.zero_le _)
        simp only [Node.at, Node.hash, byteEqual, beq_eq_false_iff_ne, ne_eq] at h0
        have hl := ih res c4 a4
          (fun q hq => by simpa [Node.at] using hne (false :: q) (by simp; omega))
        have hr := ih res c5 a5
          (fun q hq => by simpa [Node.at] using hne (true :: q) (by simp; omega))
        simp only [c2, c3, Bool.true_eq_false, and_false, if_false] at hl hr
        cases parent <;>
          simp [diff, Range.Equal_self, h0, hl, hr, Node.hasParent, Node.range]

/-! ## Trees in the states the constructor leads to -/

theorem MerkleTree.sameShape_spec {t t0 : MerkleTree} (s : t.sameShape t0 = true) :
    t.min = t0.min ∧ t.max = t0.max ∧ t.fullRange = t0.fullRange ∧ t.depth = t0.depth
      ∧ t.root.sameShape t0.root = true := by
  simp only [MerkleTree.sameShape, Bool.and_eq_true, decide_eq_true_eq] at s
  obtain ⟨⟨⟨⟨a1, a2⟩, a3⟩, a4⟩, a5⟩ := s
  exact ⟨a1, a2, a3, a4, a5⟩

theorem reachable_complete {depth : Nat} {min max left right : Bytes} {t0 t : MerkleTree}
    (h0 : NewMerkleTree depth min max left right = Except.ok t0)
    (s : t.sameShape t0 = true) :
    t.root.Complete depth ∧ t.root.hasParent = false ∧ t.root.range = ⟨left, right⟩ := by
  obtain ⟨-, -, -, -, -, -, c, hpar, hr⟩ := NewMerkleTree_spec h0
  have sr := (MerkleTree.sameShape_spec s).2.2.2.2
  exact ⟨Node.Complete_of_sameShape (Node.sameShape_symm sr) c,
    (Node.sameShape_hasParent sr).trans hpar, (Node.sameShape_range sr).trans hr⟩

/-- The method `Fill` returns on a tree with a complete root: the geometry
and the leaf hashes are kept; when the latch was open every internal hash is
the combination of the children's. -/
theorem Fill_complete (H : Bytes → Bytes) {d : Nat} {t : MerkleTree}
    (c : t.root.Complete d) :
    ∃ f, t.Fill H = Except.ok f ∧ t.root.sameShape f.root = true
      ∧ (∀ p : Path, p.length = d → (f.root.at p).hash = (t.root.at p).hash)
      ∧ (t.filled = false → ∀ p : Path, p.length < d → (f.root.at p).hash =
          combineHash H (f.root.at (p ++ [false])).hash (f.root.at (p ++ [true])).hash) := by
  by_cases hf : t.filled = true
  · exact ⟨t, by simp [MerkleTree.Fill, MerkleTree.fillInnerHash, hf],
      Node.sameShape_refl _, fun _ _ => rfl, fun h => by simp [hf] at h⟩
  · obtain ⟨n', h1, h2, h3, h4⟩ := fillInnerHash_complete H c
    exact ⟨{ t with root := n', filled := true },
      by simp [MerkleTree.Fill, MerkleTree.fillInnerHash, hf, h1], h2, h3, fun _ => h4⟩

theorem diff_self (n : Node) (h : n ≠ Node.null) (res : List Range) :
    diff n n res = Except.ok (FullyConsistent, res) := by
  cases n with
  | null => exact absurd rfl h
  | mk typ hash parent l r level rng =>
    simp [diff, Range.Equal_self, bytesCompare_self]

theorem Fill_idem (H : Bytes → Bytes) {t f : MerkleTree} (h : t.Fill H = Except.ok f) :
    f.Fill H = Except.ok f := by
  unfold MerkleTree.Fill MerkleTree.fillInnerHash at h ⊢
  by_cases hf : t.filled = true
  · simp only [hf, if_true, Except.ok.injEq] at h
    subst h
    simp [hf]
  · simp only [hf] at h
    cases hr : Merkle.fillInnerHash H t.root with
    | error e => simp [hr] at h
    | ok n =>
      simp only [hr, Bool.false_eq_true, if_false, Except.ok.injEq] at h
      subst h
      simp

theorem fillInnerHash_ne_null (H : Bytes → Bytes) {n n' : Node}
    (h : fillInnerHash H n = Except.ok n') : n' ≠ Node.null := by
  cases n with
  | null => simp [fillInnerHash] at h
  | mk typ hash parent l r level rng =>
    unfold fillInnerHash at h
    split at h
    · simp only [Except.ok.injEq] at h
      subst h
      simp
    · split at h
      · simp at h
      · simp at h
      · split at h
        · simp at h
        · simp at h
        · simp only [Except.ok.injEq] at h
          subst h
          simp

theorem Fill_root_ne_null (H : Bytes → Bytes) {t f : MerkleTree}
    (hroot : t.root ≠ Node.null) (h : t.Fill H = Except.ok f) : f.root ≠ Node.null := by
  unfold MerkleTree.Fill MerkleTree.fillInnerHash at h
  by_cases hf : t.filled = true
  · simp only [hf, if_true, Except.ok.injEq] at h
    subst h
    exact hroot
  · simp only [hf] at h
    cases hr : Merkle.fillInnerHash H t.root with
    | error e => simp [hr] at h
    | ok n =>
      simp only [hr, Bool.false_eq_true, if_false, Except.ok.injEq] at h
      subst h
      exact fillInnerHash_ne_null H hr

/-! ## Claims on Diff -/

/-- C1: two trees built by NewMerkleTree with the same depth, min, max, left
and right, whose leaf hashes are byte-equal at every leaf except the leaf at
`p`, and whose hashes after Fill differ at every ancestor of that leaf: both
Fills return and Diff returns exactly one Range, the Range of that leaf.
The statement does not need the trees to be unfilled: it holds in every
state of the `filled` latch, the never-filled one of the claim included. -/
theorem C1_diff_one_leaf (H : Bytes → Bytes) (depth : Nat) (min max left right : Bytes)
    (t0 t1 t2 : MerkleTree) (p : Path)
    (h0 : NewMerkleTree depth min max left right = Except.ok t0)
    (s1 : t1.sameShape t0 = true) (s2 : t2.sameShape t0 = true)
    (hp : p.length = depth)
    (hne : byteEqual (t1.root.at p).hash (t2.root.at p).hash = false)
    (heq : ∀ q : Path, q.length = depth → q ≠ p →
      byteEqual (t1.root.at q).hash (t2.root.at q).hash = true)
    (hanc : ∀ f1 f2, t1.Fill H = Except.ok f1 → t2.Fill H = Except.ok f2 →
      ∀ k, k < depth →
        byteEqual (f1.root.at (p.take k)).hash (f2.root.at (p.take k)).hash = false) :
    (t1.root.at p).isLeaf = Except.ok true
      ∧ ∃ f1 f2, t1.Fill H = Except.ok f1 ∧ t2.Fill H = Except.ok f2
        ∧ t1.Diff H t2 = Except.ok ([(t1.root.at p).range], f1, f2) := by
  obtain ⟨hd, -⟩ := NewMerkleTree_spec h0
  obtain ⟨c1, -, -⟩ := reachable_complete h0 s1
  obtain ⟨c2, -, -⟩ := reachable_complete h0 s2
  have s12 : t1.root.sameShape t2.root = true :=
    Node.sameShape_trans (MerkleTree.sameShape_spec s1).2.2.2.2
      (Node.sameShape_symm (MerkleTree.sameShape_spec s2).2.2.2.2)
  obtain ⟨f1, hf1, sf1, leaf1, -⟩ := Fill_complete H c1
  obtain ⟨f2, hf2, sf2, leaf2, -⟩ := Fill_complete H c2
  have cf1 := Node.Complete_of_sameShape sf1 c1
  have sf12 : f1.root.sameShape f2.root = true :=
    Node.sameShape_trans (Node.sameShape_symm sf1) (Node.sameShape_trans s12 sf2)
  have hd0 : depth ≠ 0 := by omega
  have key := diff_one_leaf [] p cf1 sf12 hp
    (by rw [leaf1 p hp, leaf2 p hp]; exact hne)
    (fun q hq hqp => by rw [leaf1 q hq, leaf2 q hq]; exact heq q hq hqp)
    (hanc f1 f2 hf1 hf2)
  simp only [hd0, if_false, List.nil_append] at key
  have hrange : (f1.root.at p).range = (t1.root.at p).range :=
    (Node.sameShape_range (Node.sameShape_at sf1 p)).symm
  refine ⟨?_, f1, f2, hf1, hf2, ?_⟩
  · exact isLeaf_complete c1 hp
  · simp [MerkleTree.Diff, hf1, hf2, key, hrange]

/-- C1 on the trees of `TestDiff`: the only Range returned is (27,31]. -/
theorem C1_diff_one_leaf_witness :
    (testTree1.root.at [true, true]).isLeaf = Except.ok true
      ∧ ∃ f1 f2, testTree1.Fill concatHash = Except.ok f1
        ∧ testTree2.Fill concatHash = Except.ok f2
        ∧ testTree1.Diff concatHash testTree2 = Except.ok ([⟨[27], [31]⟩], f1, f2) :=
  C1_diff_one_leaf concatHash 2 [0] [255] [16] [31] testBase testTree1 testTree2
    [true, true] rfl rfl rfl rfl rfl
    (fun q hq hne => by
      match q, hq, hne with
      | [false, false], _, _ => rfl
      | [false, true], _, _ => rfl
      | [true, false], _, _ => rfl
      | [true, true], _, h => exact absurd rfl h)
    (fun f1 f2 h1 h2 k hk => by
      have e1 : f1 = _ := (Except.ok.inj h1).symm
      have e2 : f2 = _ := (Except.ok.inj h2).symm
      subst e1 e2
      match k, hk with
      | 0, _ => rfl
      | 1, _ => rfl)


/-- C2 fails as stated for a tree that is not complete: Deserialize of the
flat tree of depth 2 that stops after two entries returns a tree whose unread
nodes have no children, and the Diff of that tree against itself fails in
Fill with a nil dereference, whatever the digest is. -/
theorem C2_counterexample :
    Deserialize shortFlat = Except.ok shortTree
      ∧ shortTree.root ≠ Node.null
      ∧ ∀ H : Bytes → Bytes,
          shortTree.Fill H = Except.error Panic.nilDereference
          ∧ shortTree.DiffSelf H = Except.error Panic.nilDereference :=
  ⟨rfl, by decide, fun _ => ⟨rfl, rfl⟩⟩

/-- C2, amended: a tree built by NewMerkleTree, in any state of its hashes and
of the `filled` latch, diffed against itself returns the empty sequence, and
so does any tree value with a root on which Fill returns; two trees built
with the same depth, min, max, left and right whose leaf hashes are
byte-equal at every leaf give the empty sequence, no assertion failing. -/
theorem C2_diff_equal_leaves (H : Bytes → Bytes) (depth : Nat) (min max left right : Bytes)
    (t0 t1 t2 : MerkleTree)
    (h0 : NewMerkleTree depth min max left right = Except.ok t0)
    (s1 : t1.sameShape t0 = true) (s2 : t2.sameShape t0 = true)
    (heq : ∀ q : Path, q.length = depth →
      byteEqual (t1.root.at q).hash (t2.root.at q).hash = true) :
    (∃ f1, t1.DiffSelf H = Except.ok ([], f1))
      ∧ (∀ t f : MerkleTree, t.root ≠ Node.null → t.Fill H = Except.ok f →
          t.DiffSelf H = Except.ok ([], f))
      ∧ ∃ f1 f2, t1.Diff H t2 = Except.ok ([], f1, f2) := by
  obtain ⟨c1, -, -⟩ := reachable_complete h0 s1
  obtain ⟨c2, -, -⟩ := reachable_complete h0 s2
  have s12 : t1.root.sameShape t2.root = true :=
    Node.sameShape_trans (MerkleTree.sameShape_spec s1).2.2.2.2
      (Node.sameShape_symm (MerkleTree.sameShape_spec s2).2.2.2.2)
  obtain ⟨f1, hf1, sf1, leaf1, -⟩ := Fill_complete H c1
  obtain ⟨f2, hf2, sf2, leaf2, -⟩ := Fill_complete H c2
  have general : ∀ t f : MerkleTree, t.root ≠ Node.null → t.Fill H = Except.ok f →
      t.DiffSelf H = Except.ok ([], f) := by
    intro t f hroot hf
    have hff : f.Fill H = Except.ok f := Fill_idem H hf
    have hfroot : f.root ≠ Node.null := Fill_root_ne_null H hroot hf
    simp [MerkleTree.DiffSelf, hf, hff, diff_self _ hfroot]
  refine ⟨⟨f1, general t1 f1 ?_ hf1⟩, general, f1, f2, ?_⟩
  · intro h
    rw [h] at c1
    exact absurd c1 (by simp [Node.Complete])
  · have cf1 := Node.Complete_of_sameShape sf1 c1
    have sf12 : f1.root.sameShape f2.root = true :=
      Node.sameShape_trans (Node.sameShape_symm sf1) (Node.sameShape_trans s12 sf2)
    obtain ⟨con, hcon, -⟩ := diff_leaves_equal [] cf1 sf12
      (fun q hq => by rw [leaf1 q hq, leaf2 q hq]; exact heq q hq)
    simp [MerkleTree.Diff, hf1, hf2, hcon]

/-- C2 on the first tree of `TestDiff`, against itself and against a second
tree with the same leaf hashes. -/
theorem C2_diff_equal_leaves_witness :
    (∃ f1, testTree1.DiffSelf concatHash = Except.ok ([], f1))
      ∧ (∀ t f : MerkleTree, t.root ≠ Node.null → t.Fill concatHash = Except.ok f →
          t.DiffSelf concatHash = Except.ok ([], f))
      ∧ ∃ f1 f2, testTree1.Diff concatHash testTree1 = Except.ok ([], f1, f2) :=
  C2_diff_equal_leaves concatHash 2 [0] [255] [16] [31] testBase testTree1 testTree1
    rfl rfl rfl (fun _ _ => byteEqual_self _)

/-- C3 fails as stated: the two leaves of `smallRight` and `smallLeft` differ
pairwise (absent against "a", "a" against absent), yet both roots receive "a"
by passthrough and Diff returns no Range, whatever the digest is. -/
theorem C3_counterexample :
    (NewMerkleTree 1 [0] [255] [16] [31] = Except.ok smallBase
      ∧ smallRight.sameShape smallBase = true ∧ smallLeft.sameShape smallBase = true
      ∧ byteEqual (smallRight.root.at [false]).hash (smallLeft.root.at [false]).hash = false
      ∧ byteEqual (smallRight.root.at [true]).hash (smallLeft.root.at [true]).hash = false)
      ∧ ∀ H : Bytes → Bytes, ∃ f1 f2,
          smallRight.Diff H smallLeft = Except.ok ([], f1, f2)
            ∧ ([] : List Range) ≠ [smallBase.fullRange] :=
  ⟨⟨rfl, rfl, rfl, rfl, rfl⟩, fun _ => ⟨_, _, rfl, by simp⟩⟩

/-- C3, amended: two trees built by NewMerkleTree with the same depth, min,
max, left and right, in which the hashes of every pair of corresponding
leaves differ and the hashes after Fill differ at every internal node: Diff
returns exactly one Range, equal to fullRange. -/
theorem C3_diff_all_leaves (H : Bytes → Bytes) (depth : Nat) (min max left right : Bytes)
    (t0 t1 t2 : MerkleTree)
    (h0 : NewMerkleTree depth min max left right = Except.ok t0)
    (s1 : t1.sameShape t0 = true) (s2 : t2.sameShape t0 = true)
    (hleaf : ∀ q : Path, q.length = depth →
      byteEqual (t1.root.at q).hash (t2.root.at q).hash = false)
    (hinner : ∀ f1 f2, t1.Fill H = Except.ok f1 → t2.Fill H = Except.ok f2 →
      ∀ q : Path, q.length < depth →
        byteEqual (f1.root.at q).hash (f2.root.at q).hash = false) :
    ∃ f1 f2, t1.Fill H = Except.ok f1 ∧ t2.Fill H = Except.ok f2
      ∧ t1.Diff H t2 = Except.ok ([t1.fullRange], f1, f2)
      ∧ t1.fullRange = ⟨left, right⟩ := by
  obtain ⟨hd, -, -, -, hfr, -⟩ := NewMerkleTree_spec h0
  obtain ⟨c1, par1, rng1⟩ := reachable_complete h0 s1
  obtain ⟨c2, -, -⟩ := reachable_complete h0 s2
  have s12 : t1.root.sameShape t2.root = true :=
    Node.sameShape_trans (MerkleTree.sameShape_spec s1).2.2.2.2
      (Node.sameShape_symm (MerkleTree.sameShape_spec s2).2.2.2.2)
  obtain ⟨f1, hf1, sf1, leaf1, -⟩ := Fill_complete H c1
  obtain ⟨f2, hf2, sf2, leaf2, -⟩ := Fill_complete H c2
  have cf1 := Node.Complete_of_sameShape sf1 c1
  have sf12 : f1.root.sameShape f2.root = true :=
    Node.sameShape_trans (Node.sameShape_symm sf1) (Node.sameShape_trans s12 sf2)
  have hd0 : depth ≠ 0 := by omega
  have hfull : t1.fullRange = ⟨left, right⟩ :=
    (MerkleTree.sameShape_spec s1).2.2.1.trans hfr
  have key := diff_all_differ [] cf1 sf12 (fun q hq => by
    rcases Nat.lt_or_eq_of_le hq with h | h
    · exact hinner f1 f2 hf1 hf2 q h
    · rw [leaf1 q h, leaf2 q h]; exact hleaf q h)
  have hpar : f1.root.hasParent = false := (Node.sameShape_hasParent sf1).symm.trans par1
  have hrng : f1.root.range = t1.fullRange :=
    ((Node.sameShape_range sf1).symm.trans rng1).trans hfull.symm
  simp only [hd0, hpar, ne_eq, not_false_eq_true, and_self, if_true, List.nil_append,
    hrng] at key
  exact ⟨f1, f2, hf1, hf2, by simp [MerkleTree.Diff, hf1, hf2, key], hfull⟩

/-- C3 amended, on a tree of depth 1 with leaves "a", "b" against one with
leaves "c", "d": the only Range returned is the full range (16,31]. -/
theorem C3_diff_all_leaves_witness :
    ∃ f1 f2, smallAB.Fill concatHash = Except.ok f1 ∧ smallCD.Fill concatHash = Except.ok f2
      ∧ smallAB.Diff concatHash smallCD = Except.ok ([⟨[16], [31]⟩], f1, f2)
      ∧ smallAB.fullRange = ⟨[16], [31]⟩ :=
  C3_diff_all_leaves concatHash 1 [0] [255] [16] [31] smallBase smallAB smallCD
    rfl rfl rfl
    (fun q hq => by
      match q, hq with
      | [false], _ => rfl
      | [true], _ => rfl)
    (fun f1 f2 h1 h2 q hq => by
      have e1 : f1 = _ := (Except.ok.inj h1).symm
      have e2 : f2 = _ := (Except.ok.inj h2).symm
      subst e1 e2
      match q, hq with
      | [], _ => rfl)

/-! ## Serialize -/

theorem levelPaths_length (k : Nat) : (levelPaths k).length = 2 ^ k := by
  induction k with
  | zero => rfl
  | succ k ih => simp [levelPaths, ih, pow_succ]; omega

theorem mem_levelPaths {k : Nat} {p : Path} : p ∈ levelPaths k ↔ p.length = k := by
  induction k generalizing p with
  | zero => simp [levelPaths]
  | succ k ih =>
    simp only [levelPaths, List.mem_append, List.mem_map]
    constructor
    · rintro (⟨q, hq, rfl⟩ | ⟨q, hq, rfl⟩) <;> simp [ih.mp hq]
    · intro hp
      cases p with
      | nil => simp at hp
      | cons b p =>
        simp only [List.length_cons, Nat.add_right_cancel_iff] at hp
        cases b
        · exact Or.inl ⟨p, ih.mpr hp, rfl⟩
        · exact Or.inr ⟨p, ih.mpr hp, rfl⟩

theorem Node.levelHashes_zero (n : Node) : n.levelHashes 0 = [n.hash] := by
  simp [Node.levelHashes, levelPaths, Node.at_nil]

theorem Node.levelHashes_succ (typ : NodeType) (hash : Option Bytes) (parent : Bool)
    (l r : Node) (level : Nat) (rng : Range) (k : Nat) :
    (Node.mk typ hash parent l r level rng).levelHashes (k + 1)
      = l.levelHashes k ++ r.levelHashes k := by
  simp [Node.levelHashes, levelPaths, Node.at, Function.comp_def]

theorem Node.levelHashes_length (n : Node) (k : Nat) : (n.levelHashes k).length = 2 ^ k := by
  simp [Node.levelHashes, levelPaths_length]

theorem levelHashes_children {ns : List Node} (hns : ∀ n ∈ ns, n ≠ Node.null) (j : Nat) :
    (ns.flatMap Node.children).flatMap (fun n => n.levelHashes j)
      = ns.flatMap (fun n => n.levelHashes (j + 1)) := by
  induction ns with
  | nil => rfl
  | cons n ns ih =>
    have ih' := ih (fun m hm => hns m (List.mem_cons_of_mem _ hm))
    cases n with
    | null => exact absurd rfl (hns _ (List.mem_cons_self _ _))
    | mk typ hash parent l r level rng =>
      simp only [List.flatMap_cons, List.flatMap_append, Node.children, List.flatMap_nil,
        List.append_nil, Node.levelHashes_succ, ih', List.append_assoc]

theorem levelsFrom_children {ns : List Node} (hns : ∀ n ∈ ns, n ≠ Node.null) (j m : Nat) :
    levelsFrom (ns.flatMap Node.children) j m = levelsFrom ns (j + 1) m := by
  induction m generalizing j with
  | zero => rfl
  | succ m ih => simp only [levelsFrom, levelHashes_children hns, ih]

theorem Node.Complete.ne_null {d : Nat} {n : Node} (c : n.Complete d) : n ≠ Node.null := by
  intro h
  subst h
  simp [Node.Complete] at c

theorem Node.Complete.children {d : Nat} {n : Node} (c : n.Complete (d + 1)) :
    ∀ m ∈ n.children, m.Complete d := by
  cases n with
  | null => exact absurd c (by simp [Node.Complete])
  | mk typ hash parent l r level rng =>
    simp only [Node.Complete] at c
    intro m hm
    simp only [Node.children, List.mem_cons, List.mem_singleton, List.not_mem_nil,
      or_false] at hm
    rcases hm with rfl | rfl
    · exact c.2.2.2.1
    · exact c.2.2.2.2

theorem serializeLoop_cons (fuel : Nat) (typ : NodeType) (hash : Option Bytes)
    (parent : Bool) (l r : Node) (level : Nat) (rng : Range) (q : List Node)
    (flat : List (Option Bytes)) :
    serializeLoop (fuel + 1) (Node.mk typ hash parent l r level rng :: q) flat
      = if typ = NodeInternal then serializeLoop fuel (q ++ [l, r]) (flat ++ [hash])
        else serializeLoop fuel q (flat ++ [hash]) := by
  simp [serializeLoop]

/-- A run of internal nodes at the head of the queue is popped in order, its
children being pushed behind. -/
theorem serializeLoop_internal {k : Nat} (ns cs : List Node) (flat : List (Option Bytes))
    (fuel : Nat) (hns : ∀ n ∈ ns, n.Complete (k + 1)) :
    serializeLoop (fuel + ns.length) (ns ++ cs) flat
      = serializeLoop fuel (cs ++ ns.flatMap Node.children) (flat ++ ns.map Node.hash) := by
  induction ns generalizing cs flat with
  | nil => simp
  | cons n ns ih =>
    have hn := hns n (List.mem_cons_self _ _)
    cases n with
    | null => exact absurd hn (by simp [Node.Complete])
    | mk typ hash parent l r level rng =>
      simp only [Node.Complete] at hn
      have := ih (cs ++ [l, r]) (flat ++ [hash])
        (fun m hm => hns m (List.mem_cons_of_mem _ hm))
      rw [List.length_cons, ← Nat.add_assoc, List.cons_append, serializeLoop_cons,
        if_pos hn.1, List.append_assoc, this]
      simp [Node.children, Node.hash]

/-- A run of leaves at the head of the queue is popped in order. -/
theorem serializeLoop_leaves (ns cs : List Node) (flat : List (Option Bytes))
    (fuel : Nat) (hns : ∀ n ∈ ns, n.Complete 0) :
    serializeLoop (fuel + ns.length) (ns ++ cs) flat
      = serializeLoop fuel cs (flat ++ ns.map Node.hash) := by
  induction ns generalizing flat with
  | nil => simp
  | cons n ns ih =>
    have hn := hns n (List.mem_cons_self _ _)
    cases n with
    | null => exact absurd hn (by simp [Node.Complete])
    | mk typ hash parent l r level rng =>
      simp only [Node.Complete] at hn
      have := ih (flat ++ [hash]) (fun m hm => hns m (List.mem_cons_of_mem _ hm))
      rw [List.length_cons, ← Nat.add_assoc, List.cons_append, serializeLoop_cons,
        if_neg (by rw [hn]; decide), this]
      simp [Node.hash]

theorem serializeLoop_nil (fuel : Nat) (flat : List (Option Bytes)) :
    serializeLoop fuel [] flat = Except.ok flat := by
  cases fuel <;> rfl

theorem map_hash_eq_level_zero (ns : List Node) :
    ns.map Node.hash = ns.flatMap (fun n => n.levelHashes 0) := by
  induction ns with
  | nil => rfl
  | cons n ns ih => simp [Node.levelHashes_zero, ih]

/-- The queue loop on complete trees of depth `k` returns their hashes level
by level, given one unit of fuel per node. -/
theorem serializeLoop_complete (k : Nat) (ns : List Node) (flat : List (Option Bytes))
    (fuel : Nat) (hns : ∀ n ∈ ns, n.Complete k) :
    serializeLoop (fuel + ns.length * (2 ^ (k + 1) - 1)) ns flat
      = Except.ok (flat ++ levelsFrom ns 0 (k + 1)) := by
  induction k generalizing ns flat fuel with
  | zero =>
    have := serializeLoop_leaves ns [] flat fuel hns
    simp only [List.append_nil] at this
    simp [this, serializeLoop_nil, levelsFrom, map_hash_eq_level_zero]
  | succ k ih =>
    have hnn : ∀ n ∈ ns, n ≠ Node.null := fun n hn => (hns n hn).ne_null
    have hlen : (ns.flatMap Node.children).length = 2 * ns.length := by
      clear ih
      induction ns with
      | nil => rfl
      | cons n ns ih2 =>
        have hn := hns n (List.mem_cons_self _ _)
        cases n with
        | null => exact absurd hn (by simp [Node.Complete])
        | mk typ hash parent l r level rng =>
          have := ih2 (fun m hm => hns m (List.mem_cons_of_mem _ hm))
            (fun m hm => hnn m (List.mem_cons_of_mem _ hm))
          simp only [List.flatMap_cons, List.length_append, this, Node.children,
            List.length_cons, List.length_nil]
          omega
    have hch : ∀ m ∈ ns.flatMap Node.children, m.Complete k := by
      intro m hm
      obtain ⟨n, hn, hmn⟩ := List.mem_flatMap.mp hm
      exact (hns n hn).children m hmn
    have hfuel : fuel + ns.length * (2 ^ (k + 1 + 1) - 1)
        = (fuel + (ns.flatMap Node.children).length * (2 ^ (k + 1) - 1)) + ns.length := by
      rw [hlen]
      have h1 : 1 ≤ 2 ^ (k + 1) := Nat.one_le_two_pow
      have h2 : 2 ^ (k + 1 + 1) = 2 * 2 ^ (k + 1) := by rw [pow_succ]; ring
      rw [h2]
      generalize 2 ^ (k + 1) = x at h1
      have h3 : 2 * x - 1 = 2 * (x - 1) + 1 := by omega
      rw [h3]
      ring
    have step := serializeLoop_internal ns [] flat
      (fuel + (ns.flatMap Node.children).length * (2 ^ (k + 1) - 1)) hns
    simp only [List.append_nil, List.nil_append] at step
    rw [hfuel, step, ih _ _ _ hch, levelsFrom_children hnn]
    simp [levelsFrom, map_hash_eq_level_zero]

theorem Node.Complete.count_ge {d : Nat} {n : Node} (c : n.Complete d) :
    2 ^ (d + 1) - 1 ≤ n.count := by
  induction d generalizing n with
  | zero =>
    cases n with
    | null => exact absurd c (by simp [Node.Complete])
    | mk typ hash parent l r level rng => simp [Node.count]; omega
  | succ k ih =>
    cases n with
    | null => exact absurd c (by simp [Node.Complete])
    | mk typ hash parent l r level rng =>
      simp only [Node.Complete] at c
      have h1 := ih c.2.2.2.1
      have h2 := ih c.2.2.2.2
      have h3 : 2 ^ (k + 1 + 1) = 2 * 2 ^ (k + 1) := by rw [pow_succ]; ring
      have h4 : 1 ≤ 2 ^ (k + 1) := Nat.one_le_two_pow
      simp only [Node.count]
      omega

/-- The bound `Serialize` gives its loop is never reached, on any tree. -/
theorem serializeLoop_fuel (fuel : Nat) (q : List Node) (flat : List (Option Bytes))
    (h : (q.map Node.count).sum ≤ fuel) :
    serializeLoop fuel q flat ≠ Except.error Panic.outOfFuel := by
  induction fuel generalizing q flat with
  | zero =>
    cases q with
    | nil => simp [serializeLoop]
    | cons n q =>
      cases n <;> simp [Node.count] at h
  | succ fuel ih =>
    cases q with
    | nil => simp [serializeLoop]
    | cons n q =>
      cases n with
      | null => simp [serializeLoop]
      | mk typ hash parent l r level rng =>
        simp only [List.map_cons, List.sum_cons, Node.count] at h
        simp only [serializeLoop]
        split
        · exact ih _ _ (by simp; omega)
        · exact ih _ _ (by omega)

/-- The loop bound of `Serialize` is never reached, whatever the tree. -/
theorem Serialize_fuel (t : MerkleTree) : Serialize t ≠ Except.error Panic.outOfFuel := by
  have h := serializeLoop_fuel t.root.count [t.root] [] (by simp)
  unfold Serialize
  cases hs : serializeLoop t.root.count [t.root] [] with
  | error e =>
    rw [hs] at h
    simpa using h
  | ok flat => simp

/-- On a tree with a complete root `Serialize` returns the metadata and the
hashes level by level. -/
theorem Serialize_complete {d : Nat} {t : MerkleTree} (c : t.root.Complete d) :
    Serialize t = Except.ok ⟨t.min, t.max, t.fullRange, t.depth,
      levelsFrom [t.root] 0 (d + 1)⟩ := by
  have hge := c.count_ge
  obtain ⟨x, he⟩ : ∃ x, t.root.count = x + [t.root].length * (2 ^ (d + 1) - 1) :=
    ⟨t.root.count - (2 ^ (d + 1) - 1), by simp; omega⟩
  have := serializeLoop_complete d [t.root] [] x
    (fun n hn => by simp at hn; subst hn; exact c)
  rw [← he] at this
  simp [Serialize, this]

theorem pathNum_lt (p : Path) : pathNum p < 2 ^ p.length := by
  induction p with
  | nil => simp [pathNum]
  | cons b p ih =>
    simp only [pathNum, List.length_cons, pow_succ]
    cases b <;> simp <;> omega

theorem levelPaths_getElem? {k : Nat} {p : Path} (hp : p.length = k) :
    (levelPaths k)[pathNum p]? = some p := by
  induction k generalizing p with
  | zero =>
    have hp0 : p = [] := List.length_eq_zero.mp hp
    subst hp0
    rfl
  | succ k ih =>
    cases p with
    | nil => simp at hp
    | cons b p =>
      simp only [List.length_cons, Nat.add_right_cancel_iff] at hp
      have hlt := pathNum_lt p
      rw [hp] at hlt
      cases b
      · simp only [levelPaths, pathNum, Bool.false_eq_true, if_false, Nat.zero_add]
        rw [List.getElem?_append_left (by simp [levelPaths_length]; exact hlt)]
        simp [List.getElem?_map, ih hp]
      · simp only [levelPaths, pathNum, if_true, hp]
        rw [List.getElem?_append_right (by simp [levelPaths_length])]
        simp [List.getElem?_map, levelPaths_length, ih hp]

theorem Node.levelHashes_getElem? (n : Node) {k : Nat} {p : Path} (hp : p.length = k) :
    (n.levelHashes k)[pathNum p]? = some (n.at p).hash := by
  simp [Node.levelHashes, List.getElem?_map, levelPaths_getElem? hp]

theorem levelsFrom_single_length (n : Node) (j m : Nat) :
    (levelsFrom [n] j m).length + 2 ^ j = 2 ^ (j + m) := by
  induction m generalizing j with
  | zero => simp [levelsFrom]
  | succ m ih =>
    have := ih (j + 1)
    simp only [levelsFrom, List.flatMap_cons, List.flatMap_nil, List.append_nil,
      List.length_append, Node.levelHashes_length]
    have e : j + 1 + m = j + (m + 1) := by omega
    rw [e] at this
    have h2 : 2 ^ (j + 1) = 2 * 2 ^ j := by rw [pow_succ]; ring
    omega

theorem levelsFrom_single_getElem? (n : Node) (j m : Nat) {p : Path}
    (h1 : j ≤ p.length) (h2 : p.length < j + m) :
    (levelsFrom [n] j m)[2 ^ p.length - 2 ^ j + pathNum p]? = some (n.at p).hash := by
  induction m generalizing j with
  | zero => omega
  | succ m ih =>
    simp only [levelsFrom, List.flatMap_cons, List.flatMap_nil, List.append_nil]
    rcases Nat.eq_or_lt_of_le h1 with h | h
    · have hlt := pathNum_lt p
      rw [← h] at hlt
      rw [← h, Nat.sub_self, Nat.zero_add,
        List.getElem?_append_left (by rw [Node.levelHashes_length]; exact hlt)]
      exact n.levelHashes_getElem? h.symm
    · have hpow : 2 ^ (j + 1) ≤ 2 ^ p.length := Nat.pow_le_pow_right (by decide) h
      have h2j : 2 ^ (j + 1) = 2 * 2 ^ j := by rw [pow_succ]; ring
      rw [List.getElem?_append_right (by rw [Node.levelHashes_length]; omega),
        Node.levelHashes_length]
      have e : 2 ^ p.length - 2 ^ j + pathNum p - 2 ^ j
          = 2 ^ p.length - 2 ^ (j + 1) + pathNum p := by omega
      rw [e]
      exact ih (j + 1) h (by omega)

theorem bfsIndex_snoc (p : Path) (b : Bool) :
    bfsIndex (p ++ [b]) = 2 * bfsIndex p + (if b then 2 else 1) := by
  simp [bfsIndex, List.foldl_append]

theorem pathNum_cons (b : Bool) (p : Path) :
    pathNum (b :: p) = (if b then 2 ^ p.length else 0) + pathNum p := rfl

theorem pathNum_snoc (p : Path) (b : Bool) :
    pathNum (p ++ [b]) = 2 * pathNum p + (if b then 1 else 0) := by
  induction p with
  | nil => cases b <;> simp [pathNum]
  | cons c p ih =>
    rw [List.cons_append, pathNum_cons, pathNum_cons, ih, List.length_append,
      List.length_singleton, pow_succ]
    cases c
    · simp
    · simp; ring

theorem bfsIndex_eq (p : Path) : bfsIndex p + 1 = 2 ^ p.length + pathNum p := by
  induction p using List.reverseRecOn with
  | nil => simp [bfsIndex, pathNum]
  | append_singleton p b ih =>
    rw [bfsIndex_snoc, pathNum_snoc, List.length_append, List.length_singleton, pow_succ]
    cases b
    · simp; omega
    · simp; omega

/-- The flat tree of a complete tree holds, at the breadth-first index of
every position, the hash of the node there. -/
theorem levelsFrom_bfsIndex (n : Node) (d : Nat) {p : Path} (hp : p.length ≤ d) :
    (levelsFrom [n] 0 (d + 1))[bfsIndex p]? = some (n.at p).hash := by
  have h := levelsFrom_single_getElem? n 0 (d + 1) (Nat.zero_le _) (by omega : p.length < 0 + (d + 1))
  have e := bfsIndex_eq p
  have h1 : 1 ≤ 2 ^ p.length := Nat.one_le_two_pow
  have e2 : 2 ^ p.length - 2 ^ 0 + pathNum p = bfsIndex p := by
    simp only [pow_zero]; omega
  rw [e2] at h
  exact h

/-! ## Claims on Serialize -/

/-- C5: for a tree built by NewMerkleTree with depth d, in any state of its
hashes, Serialize returns; Min, Max, FullRange and Depth are the tree's;
FlatTree has exactly 2^(d+1) - 1 entries; entry 0 is the root's hash; and for
every internal node, at position `p` with breadth-first index `i`, entry `i`
is its hash and entries `2i+1` and `2i+2` are the hashes of its left and
right child, whose breadth-first indices these are. -/
theorem C5_serialize_layout (depth : Nat) (min max left right : Bytes)
    (t0 t : MerkleTree)
    (h0 : NewMerkleTree depth min max left right = Except.ok t0)
    (s : t.sameShape t0 = true) :
    ∃ ser, Serialize t = Except.ok ser
      ∧ ser.Min = t.min ∧ ser.Max = t.max ∧ ser.FullRange = t.fullRange
      ∧ ser.Depth = t.depth ∧ t.depth = depth
      ∧ ser.FlatTree.length = 2 ^ (depth + 1) - 1
      ∧ ser.FlatTree[0]? = some t.root.hash
      ∧ ∀ p : Path, p.length < depth →
          ser.FlatTree[bfsIndex p]? = some (t.root.at p).hash
          ∧ ser.FlatTree[2 * bfsIndex p + 1]? = some (t.root.at (p ++ [false])).hash
          ∧ ser.FlatTree[2 * bfsIndex p + 2]? = some (t.root.at (p ++ [true])).hash
          ∧ bfsIndex (p ++ [false]) = 2 * bfsIndex p + 1
          ∧ bfsIndex (p ++ [true]) = 2 * bfsIndex p + 2 := by
  obtain ⟨c, -, -⟩ := reachable_complete h0 s
  obtain ⟨-, -, -, -, -, hd, -⟩ := NewMerkleTree_spec h0
  refine ⟨_, Serialize_complete c, rfl, rfl, rfl, rfl,
    (MerkleTree.sameShape_spec s).2.2.2.1.trans hd, ?_, ?_, ?_⟩
  · have := levelsFrom_single_length t.root 0 (depth + 1)
    simp only [pow_zero, Nat.zero_add] at this
    simp only
    omega
  · have := levelsFrom_bfsIndex t.root depth (p := []) (Nat.zero_le _)
    simpa [bfsIndex, Node.at_nil] using this
  · intro p hp
    have hl := levelsFrom_bfsIndex t.root depth (p := p ++ [false]) (by simp; omega)
    have hr := levelsFrom_bfsIndex t.root depth (p := p ++ [true]) (by simp; omega)
    rw [bfsIndex_snoc] at hl hr
    exact ⟨levelsFrom_bfsIndex t.root depth (by omega), by simpa using hl,
      by simpa using hr, by simp [bfsIndex_snoc], by simp [bfsIndex_snoc]⟩

/-- C5 on the first tree of `TestDiff`, before Fill: seven entries, the
leaves "test" and "foo" at indices 3 and 6. -/
theorem C5_serialize_layout_witness :
    ∃ ser, Serialize testTree1 = Except.ok ser
      ∧ ser.Min = [0] ∧ ser.Max = [255] ∧ ser.FullRange = ⟨[16], [31]⟩
      ∧ ser.Depth = 2 ∧ testTree1.depth = 2
      ∧ ser.FlatTree.length = 7
      ∧ ser.FlatTree[0]? = some testTree1.root.hash
      ∧ ∀ p : Path, p.length < 2 →
          ser.FlatTree[bfsIndex p]? = some (testTree1.root.at p).hash
          ∧ ser.FlatTree[2 * bfsIndex p + 1]? = some (testTree1.root.at (p ++ [false])).hash
          ∧ ser.FlatTree[2 * bfsIndex p + 2]? = some (testTree1.root.at (p ++ [true])).hash
          ∧ bfsIndex (p ++ [false]) = 2 * bfsIndex p + 1
          ∧ bfsIndex (p ++ [true]) = 2 * bfsIndex p + 2 :=
  C5_serialize_layout 2 [0] [255] [16] [31] testBase testTree1 rfl rfl

/-! ## Deserialize -/

theorem buildTree_built (t : MerkleTree) (k : Nat) (parent : Bool) (rng : Range) :
    (t.buildTree (Node.new parent rng) k).Built t k := by
  induction k generalizing parent rng with
  | zero => simp [MerkleTree.buildTree, Node.new, Node.Built]
  | succ k ih =>
    simp only [MerkleTree.buildTree, Node.new, Node.Built, true_and]
    exact ⟨(buildTree_shape t k true _).2.1, (buildTree_shape t k true _).2.1,
      (buildTree_shape t k true _).2.2, (buildTree_shape t k true _).2.2, ih _ _, ih _ _⟩

theorem midpoint_congr {t t' : MerkleTree} (h1 : t'.min = t.min) (h2 : t'.max = t.max)
    (rng : Range) : t'.midpoint rng = t.midpoint rng := by
  simp [MerkleTree.midpoint, h1, h2]

theorem Node.Built.congr (t t' : MerkleTree) (h1 : t'.min = t.min) (h2 : t'.max = t.max)
    {k : Nat} {n : Node} (b : n.Built t k) : n.Built t' k := by
  induction k generalizing n with
  | zero =>
    cases n with
    | null => exact absurd b (by simp [Node.Built])
    | mk typ hash parent l r level rng => simpa [Node.Built] using b
  | succ k ih =>
    cases n with
    | null => exact absurd b (by simp [Node.Built])
    | mk typ hash parent l r level rng =>
      simp only [Node.Built, midpoint_congr h1 h2] at b ⊢
      exact ⟨b.1, b.2.1, b.2.2.1, b.2.2.2.1, b.2.2.2.2.1, ih b.2.2.2.2.2.1, ih b.2.2.2.2.2.2⟩

theorem Node.sameShape_null {n : Node} (h : n.sameShape Node.null = true) : n = Node.null := by
  cases n with
  | null => rfl
  | mk typ hash parent l r level rng => simp [Node.sameShape] at h

theorem Node.Built.of_sameShape {t : MerkleTree} {k : Nat} {n m : Node}
    (h : n.sameShape m = true) (b : n.Built t k) : m.Built t k := by
  induction k generalizing n m with
  | zero =>
    cases n with
    | null => exact absurd b (by simp [Node.Built])
    | mk typ hash parent l r level rng =>
      cases m with
      | null => simp [Node.sameShape] at h
      | mk typ2 hash2 parent2 l2 r2 level2 rng2 =>
        simp only [Node.sameShape, Bool.and_eq_true, decide_eq_true_eq] at h
        simp only [Node.Built] at b ⊢
        obtain ⟨⟨⟨⟨a1, -⟩, -⟩, a4⟩, a5⟩ := h
        obtain ⟨b1, b2, b3⟩ := b
        subst b2 b3
        exact ⟨a1 ▸ b1, Node.sameShape_null (Node.sameShape_symm a4),
          Node.sameShape_null (Node.sameShape_symm a5)⟩
  | succ k ih =>
    cases n with
    | null => exact absurd b (by simp [Node.Built])
    | mk typ hash parent l r level rng =>
      cases m with
      | null => simp [Node.sameShape] at h
      | mk typ2 hash2 parent2 l2 r2 level2 rng2 =>
        simp only [Node.sameShape, Bool.and_eq_true, decide_eq_true_eq] at h
        simp only [Node.Built] at b ⊢
        obtain ⟨⟨⟨⟨a1, -⟩, a3⟩, a4⟩, a5⟩ := h
        obtain ⟨b1, b2, b3, b4, b5, b6, b7⟩ := b
        subst a3
        exact ⟨a1 ▸ b1, (Node.sameShape_hasParent a4) ▸ b2, (Node.sameShape_hasParent a5) ▸ b3,
          (Node.sameShape_range a4) ▸ b4, (Node.sameShape_range a5) ▸ b5, ih a4 b6, ih a5 b7⟩

theorem Node.Built.built_ne_null {t : MerkleTree} {k : Nat} {n : Node} (b : n.Built t k) :
    n ≠ Node.null := by
  intro h
  subst h
  simp [Node.Built] at b

theorem Node.put_nil (R m : Node) : R.put [] m = m := by
  cases R <;> rfl

theorem Node.at_put {R : Node} {p : Path} (h : R.at p ≠ Node.null) (m : Node) :
    (R.put p m).at p = m := by
  induction p generalizing R with
  | nil => simp [Node.put_nil, Node.at_nil]
  | cons b p ih =>
    cases R with
    | null => simp [Node.at] at h
    | mk typ hash parent l r level rng =>
      cases b
      · simp only [Node.at, Bool.false_eq_true, if_false] at h
        simp [Node.put, Node.at, ih h]
      · simp only [Node.at, if_true] at h
        simp [Node.put, Node.at, ih h]

theorem Node.put_append (R : Node) (p q : Path) (m : Node) :
    R.put (p ++ q) m = R.put p ((R.at p).put q m) := by
  induction p generalizing R with
  | nil => simp [Node.put_nil, Node.at_nil]
  | cons b p ih =>
    cases R with
    | null =>
      cases q <;> simp [Node.put, Node.at]
    | mk typ hash parent l r level rng =>
      cases b <;> simp [Node.put, Node.at, ih]

theorem Node.put_put (R : Node) (p : Path) (a b : Node) :
    (R.put p a).put p b = R.put p b := by
  induction p generalizing R with
  | nil => simp [Node.put_nil]
  | cons c p ih =>
    cases R with
    | null => simp [Node.put]
    | mk typ hash parent l r level rng =>
      cases c <;> simp [Node.put, ih]

theorem Node.cut_eq_relevel {t : MerkleTree} {k : Nat} {n : Node} (b : n.Built t k)
    {j : Nat} (hj : k < j) (lv : Nat) : n.cut j lv = n.relevel lv := by
  induction k generalizing n j lv with
  | zero =>
    cases n with
    | null => exact absurd b (by simp [Node.Built])
    | mk typ hash parent l r level rng =>
      simp only [Node.Built] at b
      obtain ⟨-, b2, b3⟩ := b
      subst b2 b3
      obtain ⟨i, rfl⟩ : ∃ i, j = i + 1 := ⟨j - 1, by omega⟩
      cases i <;> simp [Node.cut, Node.relevel]
  | succ k ih =>
    cases n with
    | null => exact absurd b (by simp [Node.Built])
    | mk typ hash parent l r level rng =>
      simp only [Node.Built] at b
      obtain ⟨i, rfl⟩ : ∃ i, j = i + 1 := ⟨j - 1, by omega⟩
      simp [Node.cut, Node.relevel, ih b.2.2.2.2.2.1 (by omega : k < i),
        ih b.2.2.2.2.2.2 (by omega : k < i)]

theorem deserializeLoop_cons (t : MerkleTree) (st : Node × List Path)
    (hash : Option Bytes) (rest : List (Option Bytes)) :
    deserializeLoop t st (hash :: rest)
      = match deserializeStep t st hash with
        | Except.error e => Except.error e
        | Except.ok st1 => deserializeLoop t st1 rest := rfl

theorem Node.Built.complete {t : MerkleTree} {k : Nat} {n : Node} (b : n.Built t k) :
    n.Complete k := by
  induction k generalizing n with
  | zero =>
    cases n with
    | null => exact absurd b (by simp [Node.Built])
    | mk typ hash parent l r level rng =>
      simp only [Node.Built] at b
      simp [Node.Complete, b.1]
  | succ k ih =>
    cases n with
    | null => exact absurd b (by simp [Node.Built])
    | mk typ hash parent l r level rng =>
      simp only [Node.Built] at b
      exact ⟨b.1, b.2.1, b.2.2.1, ih b.2.2.2.2.2.1, ih b.2.2.2.2.2.2⟩

/-- One level of `Deserialize`: with the subtree at `pre` built down to
depth `j`, reading the hashes of depth `j` builds it down to depth `j + 1`
and queues the positions of the next level behind the queue. -/
theorem deserializeLoop_level (t : MerkleTree) (j : Nat) {k : Nat} {n : Node} (lv : Nat)
    (pre : Path) (R : Node) (B : List Path) (rest : List (Option Bytes))
    (hb : n.Built t k) (hj : j ≤ k) (hdepth : lv + k = t.depth)
    (hR : R.at pre = n.cut j lv) :
    deserializeLoop t (R, (levelPaths j).map (fun q => pre ++ q) ++ B)
        (n.levelHashes j ++ rest)
      = deserializeLoop t (R.put pre (n.cut (j + 1) lv),
          B ++ (if j < k then (levelPaths (j + 1)).map (fun q => pre ++ q) else [])) rest := by
  induction j generalizing k n lv pre R B rest with
  | zero =>
    cases n with
    | null => exact absurd hb (by simp [Node.Built])
    | mk typ hash parent l r level rng =>
      simp only [Node.cut] at hR
      simp only [levelPaths, List.map_cons, List.map_nil, List.append_nil, List.cons_append,
        List.nil_append, Node.levelHashes_zero, Node.hash, deserializeLoop_cons,
        deserializeStep, hR]
      cases k with
      | zero =>
        simp only [Node.Built] at hb
        obtain ⟨b1, b2, b3⟩ := hb
        subst b1 b2 b3
        have hlv : ¬ lv < t.depth := by omega
        simp [hlv, Node.cut]
      | succ k =>
        simp only [Node.Built] at hb
        obtain ⟨b1, b2, b3, b4, b5, b6, b7⟩ := hb
        subst b1
        have hlv : lv < t.depth := by omega
        cases l with
        | null => exact absurd b6 (by simp [Node.Built])
        | mk lt lh lp ll lr llv lrng =>
          cases r with
          | null => exact absurd b7 (by simp [Node.Built])
          | mk rt rh rp rl rr rlv rrng =>
            simp only [Node.hasParent, Node.range] at b2 b3 b4 b5
            subst b2 b3 b4 b5
            simp [hlv, Node.cut]
  | succ j ih =>
    cases k with
    | zero => omega
    | succ k =>
      cases n with
      | null => exact absurd hb (by simp [Node.Built])
      | mk typ hash parent l r level rng =>
        simp only [Node.Built] at hb
        obtain ⟨-, -, -, -, -, b6, b7⟩ := hb
        simp only [Node.cut] at hR
        have hne : R.at pre ≠ Node.null := by rw [hR]; simp
        -- lchild
        have hRl : R.at (pre ++ [false]) = l.cut j (lv + 1) := by
          rw [Node.at_append, hR]; simp [Node.at]
        have stepl := ih (lv + 1) (pre ++ [false]) R
          ((levelPaths j).map (fun q => pre ++ true :: q) ++ B)
          (r.levelHashes j ++ rest) b6 (by omega) (by omega) hRl
        -- rchild
        have hR1 : R.put (pre ++ [false]) (l.cut (j + 1) (lv + 1))
            = R.put pre (Node.mk typ hash parent (l.cut (j + 1) (lv + 1))
                (r.cut j (lv + 1)) lv rng) := by
          rw [Node.put_append, hR]; simp [Node.put, Node.put_nil]
        have hRr : (R.put (pre ++ [false]) (l.cut (j + 1) (lv + 1))).at (pre ++ [true])
            = r.cut j (lv + 1) := by
          rw [hR1, Node.at_append, Node.at_put hne]; simp [Node.at]
        have stepr := ih (lv + 1) (pre ++ [true])
          (R.put (pre ++ [false]) (l.cut (j + 1) (lv + 1)))
          (B ++ (if j < k then (levelPaths (j + 1)).map (fun q => (pre ++ [false]) ++ q)
            else []))
          rest b7 (by omega) (by omega) hRr
        have hfin : (R.put (pre ++ [false]) (l.cut (j + 1) (lv + 1))).put (pre ++ [true])
              (r.cut (j + 1) (lv + 1))
            = R.put pre (Node.mk typ hash parent (l.cut (j + 1) (lv + 1))
                (r.cut (j + 1) (lv + 1)) lv rng) := by
          rw [Node.put_append, hR1, Node.at_put hne, Node.put_put]
          simp [Node.put, Node.put_nil]
        simp only [List.append_assoc, List.singleton_append] at stepl stepr
        rw [Node.levelHashes_succ]
        simp only [levelPaths, List.map_append, List.map_map, Function.comp_def,
          List.append_assoc, Node.cut]
        rw [stepl, stepr, hfin]
        by_cases hjk : j < k
        · have : j + 1 < k + 1 := by omega
          simp [hjk, this, levelPaths, Function.comp_def]
        · have : ¬ j + 1 < k + 1 := by omega
          simp [hjk, this]


/-- All levels of `Deserialize`: from the tree built down to depth `j`, the
hashes of the levels `j` to `d` complete the tree and empty the queue. -/
theorem deserializeLoop_levels (t : MerkleTree) {d : Nat} {n : Node} (hb : n.Built t d)
    (hd : t.depth = d) (m j : Nat) (hm : j + m = d + 1) :
    deserializeLoop t (n.cut j 0, if j ≤ d then levelPaths j else [])
        (levelsFrom [n] j m)
      = Except.ok (n.relevel 0, []) := by
  induction m generalizing j with
  | zero =>
    have hj : ¬ j ≤ d := by omega
    simp [levelsFrom, deserializeLoop, hj, Node.cut_eq_relevel hb (by omega : d < j)]
  | succ m ih =>
    have hj : j ≤ d := by omega
    have step := deserializeLoop_level t j 0 [] (n.cut j 0) []
      (levelsFrom [n] (j + 1) m) hb hj (by omega) (Node.at_nil _)
    simp only [List.nil_append, List.map_id', List.append_nil, Node.put_nil] at step
    simp only [levelsFrom, List.flatMap_cons, List.flatMap_nil, List.append_nil, hj, if_true]
    rw [step]
    exact ih (j + 1) (by omega)

/-- On the flat tree of a tree with the geometry of `buildTree`,
`Deserialize` returns that tree with its level numbers written in. -/
theorem Deserialize_Serialize {d : Nat} {t : MerkleTree} (hb : t.root.Built t d)
    (hd : t.depth = d) (hpar : t.root.hasParent = false)
    (hrng : t.root.range = t.fullRange) :
    ∃ ser, Serialize t = Except.ok ser
      ∧ Deserialize ser = Except.ok
          { filled := false, min := t.min, max := t.max, fullRange := t.fullRange,
            depth := t.depth, root := t.root.relevel 0 } := by
  have c : t.root.Complete d := hb.complete
  refine ⟨_, Serialize_complete c, ?_⟩
  have hb' : t.root.Built
      { filled := false, min := t.min, max := t.max, fullRange := t.fullRange,
        depth := t.depth, root := Node.null } d := Node.Built.congr t ⟨false, t.min, t.max, t.fullRange, t.depth, Node.null⟩ rfl rfl hb
  have key := deserializeLoop_levels _ hb' hd (d + 1) 0 (by omega)
  have hcut : t.root.cut 0 0
      = Node.mk NodeInternal none false Node.null Node.null 0 t.fullRange := by
    cases hr : t.root with
    | null => rw [hr] at c; exact absurd c (by simp [Node.Complete])
    | mk typ hash parent l r level rng =>
      rw [hr] at hpar hrng
      simp only [Node.hasParent, Node.range] at hpar hrng
      simp [Node.cut, hpar, hrng]
  simp only [Nat.zero_le, if_true, levelPaths, hcut] at key
  simp [Deserialize, key]

theorem NewMerkleTree_built {depth : Nat} {min max left right : Bytes} {t0 : MerkleTree}
    (h : NewMerkleTree depth min max left right = Except.ok t0) :
    t0.root.Built t0 depth := by
  unfold NewMerkleTree at h
  by_cases hd : depth = 0
  · simp [hd] at h
  · simp only [hd, if_false, Except.ok.injEq] at h
    subst h
    refine Node.Built.congr ⟨false, min, max, ⟨left, right⟩, depth, Node.null⟩ _ ?_ ?_
      (buildTree_built _ depth false _)
    · rfl
    · rfl

theorem reachable_built {depth : Nat} {min max left right : Bytes} {t0 t : MerkleTree}
    (h0 : NewMerkleTree depth min max left right = Except.ok t0)
    (s : t.sameShape t0 = true) : t.root.Built t depth := by
  obtain ⟨e1, e2, -, -, sr⟩ := MerkleTree.sameShape_spec s
  exact Node.Built.congr _ _ e1 e2
    (Node.Built.of_sameShape (Node.sameShape_symm sr) (NewMerkleTree_built h0))

theorem Node.relevel_sameShape (n : Node) (lv : Nat) : (n.relevel lv).sameShape n = true := by
  induction n generalizing lv with
  | null => rfl
  | mk typ hash parent l r level rng ihl ihr => simp [Node.relevel, Node.sameShape, ihl, ihr]

theorem Node.relevel_at_hash (n : Node) (lv : Nat) (p : Path) :
    ((n.relevel lv).at p).hash = (n.at p).hash := by
  induction p generalizing n lv with
  | nil => cases n <;> simp [Node.relevel, Node.at, Node.hash]
  | cons b p ih =>
    cases n with
    | null => simp [Node.relevel, Node.at]
    | mk typ hash parent l r level rng =>
      cases b <;> simp [Node.relevel, Node.at, ih]

/-! ## Claims on the round trip -/

/-- C4: for every tree built by NewMerkleTree, in any state of its hashes and
of the `filled` latch, Serialize and then Deserialize return a tree that has
the Range and the hash of `t` at every position, and whose Diff against `t`
fails no assertion and returns the empty sequence. -/
theorem C4_roundtrip (H : Bytes → Bytes) (depth : Nat) (min max left right : Bytes)
    (t0 t : MerkleTree)
    (h0 : NewMerkleTree depth min max left right = Except.ok t0)
    (s : t.sameShape t0 = true) :
    ∃ ser t2, Serialize t = Except.ok ser ∧ Deserialize ser = Except.ok t2
      ∧ (∀ p : Path, (t2.root.at p).range = (t.root.at p).range)
      ∧ (∀ p : Path, (t2.root.at p).hash = (t.root.at p).hash)
      ∧ ∃ f2 f, t2.Diff H t = Except.ok ([], f2, f) := by
  obtain ⟨c, hpar, hrng⟩ := reachable_complete h0 s
  obtain ⟨-, -, -, -, hfr, hd, -⟩ := NewMerkleTree_spec h0
  obtain ⟨-, -, e3, e4, -⟩ := MerkleTree.sameShape_spec s
  have hb := reachable_built h0 s
  obtain ⟨ser, hser, hdes⟩ := Deserialize_Serialize hb (e4.trans hd) hpar
    (hrng.trans (e3.trans hfr).symm)
  have s2 : (t.root.relevel 0).sameShape t.root = true := Node.relevel_sameShape _ _
  have c2 : (t.root.relevel 0).Complete depth :=
    Node.Complete_of_sameShape (Node.sameShape_symm s2) c
  obtain ⟨f2, hf2, sf2, leaf2, -⟩ := Fill_complete H
    (t := { filled := false, min := t.min, max := t.max, fullRange := t.fullRange,
            depth := t.depth, root := t.root.relevel 0 }) c2
  obtain ⟨f, hf, sf, leaf, -⟩ := Fill_complete H c
  have cf2 := Node.Complete_of_sameShape sf2 c2
  have sff : f2.root.sameShape f.root = true :=
    Node.sameShape_trans (Node.sameShape_symm sf2) (Node.sameShape_trans s2 sf)
  obtain ⟨con, hcon, -⟩ := diff_leaves_equal [] cf2 sff (fun q hq => by
    rw [leaf2 q hq, leaf q hq, Node.relevel_at_hash]; exact byteEqual_self _)
  refine ⟨ser, _, hser, hdes, ?_, ?_, f2, f, ?_⟩
  · intro p
    exact Node.sameShape_range (Node.sameShape_at s2 p)
  · intro p
    exact Node.relevel_at_hash _ _ p
  · simp [MerkleTree.Diff, hf2, hf, hcon]

/-- C4 on the tree of `TestDeserialize`, with leaves "test" and "foo". -/
theorem C4_roundtrip_witness :
    ∃ ser t2, Serialize testTree1 = Except.ok ser ∧ Deserialize ser = Except.ok t2
      ∧ (∀ p : Path, (t2.root.at p).range = (testTree1.root.at p).range)
      ∧ (∀ p : Path, (t2.root.at p).hash = (testTree1.root.at p).hash)
      ∧ ∃ f2 f, t2.Diff concatHash testTree1 = Except.ok ([], f2, f) :=
  C4_roundtrip concatHash 2 [0] [255] [16] [31] testBase testTree1 rfl rfl

/-! ## Cursor: First and Next -/

theorem leftmost_complete {k : Nat} {n : Node} (c : n.Complete k) :
    leftmost n = Except.ok (List.replicate k false) := by
  induction k generalizing n with
  | zero =>
    cases n with
    | null => exact absurd c (by simp [Node.Complete])
    | mk typ hash parent l r level rng =>
      simp only [Node.Complete] at c
      simp [leftmost, c]
  | succ k ih =>
    cases n with
    | null => exact absurd c (by simp [Node.Complete])
    | mk typ hash parent l r level rng =>
      simp only [Node.Complete] at c
      simp [leftmost, c.1, ih c.2.2.2.1, List.replicate_succ]

theorem nextUp_replicate (k : Nat) (rest : List Bool) :
    nextUp (List.replicate k true ++ false :: rest) = false :: rest := by
  induction k with
  | zero => simp [nextUp]
  | succ k ih => simp [List.replicate_succ, nextUp, ih]

theorem nextUp_replicate_all (k : Nat) : nextUp (List.replicate k true) = [] := by
  induction k with
  | zero => simp [nextUp]
  | succ k ih => simp [List.replicate_succ, nextUp, ih]

/-- From the rightmost leaf below the left child of the node at `a`, `Next`
moves to the leftmost leaf below its right child. -/
theorem Next_step {d : Nat} {t : MerkleTree} (c : t.root.Complete d) (a : Path) (k : Nat)
    (hd : a.length + 1 + k = d) :
    Cursor.Next t ⟨some (a ++ false :: List.replicate k true)⟩
      = (Except.ok (some (a ++ true :: List.replicate k false)),
          ⟨some (a ++ true :: List.replicate k false)⟩) := by
  have hleaf := isLeaf_complete c (p := a ++ false :: List.replicate k true)
    (by simp; omega)
  have hsub := c.at (q := a ++ [true]) (by simp; omega)
  have hk : d - (a ++ [true]).length = k := by simp; omega
  rw [hk] at hsub
  have hrev : (a ++ false :: List.replicate k true).reverse
      = List.replicate k true ++ false :: a.reverse := by
    simp [List.reverse_append, List.reverse_replicate]
  simp [Cursor.Next, hleaf, hrev, nextUp_replicate, leftmost_complete hsub]

/-- At the last leaf `Next` returns none and leaves the cursor in place. -/
theorem Next_last {d : Nat} {t : MerkleTree} (c : t.root.Complete d) :
    Cursor.Next t ⟨some (List.replicate d true)⟩
      = (Except.ok none, ⟨some (List.replicate d true)⟩) := by
  have hleaf := isLeaf_complete c (p := List.replicate d true) (by simp)
  simp [Cursor.Next, hleaf, List.reverse_replicate, nextUp_replicate_all]

theorem levelPaths_head? (k : Nat) :
    (levelPaths k).head? = some (List.replicate k false) := by
  induction k with
  | zero => rfl
  | succ k ih => simp [levelPaths, ih, List.replicate_succ]

theorem levelPaths_head (k : Nat) :
    levelPaths k = List.replicate k false :: (levelPaths k).tail := by
  have h := levelPaths_head? k
  cases hl : levelPaths k with
  | nil => rw [hl] at h; simp at h
  | cons x xs =>
    rw [hl] at h
    simp only [List.head?_cons, Option.some.injEq] at h
    simp [h]

theorem levelPaths_getLast? (k : Nat) :
    (levelPaths k).getLast? = some (List.replicate k true) := by
  induction k with
  | zero => rfl
  | succ k ih => simp [levelPaths, ih, List.replicate_succ]

/-- Walking from the leftmost leaf below the node at `a` visits the leaves
below that node from left to right and stops at the rightmost. -/
theorem walkNext_subtree {d : Nat} {t : MerkleTree} (c : t.root.Complete d) (k : Nat)
    (a : Path) (hd : a.length + k = d) (fuel : Nat) (acc : List Path) :
    walkNext t (fuel + (2 ^ k - 1)) ⟨some (a ++ List.replicate k false)⟩ acc
      = walkNext t fuel ⟨some (a ++ List.replicate k true)⟩
          (acc ++ ((levelPaths k).map (fun q => a ++ q)).tail) := by
  induction k generalizing a fuel acc with
  | zero => simp [levelPaths]
  | succ k ih =>
    have h1 : 1 ≤ 2 ^ k := Nat.one_le_two_pow
    have hf : fuel + (2 ^ (k + 1) - 1) = ((fuel + (2 ^ k - 1)) + 1) + (2 ^ k - 1) := by
      rw [pow_succ]; omega
    have e1 : a ++ List.replicate (k + 1) false = (a ++ [false]) ++ List.replicate k false := by
      simp [List.replicate_succ]
    have e2 : (a ++ [false]) ++ List.replicate k true = a ++ false :: List.replicate k true := by
      simp
    have e3 : a ++ true :: List.replicate k false = (a ++ [true]) ++ List.replicate k false := by
      simp
    have e4 : (a ++ [true]) ++ List.replicate k true = a ++ List.replicate (k + 1) true := by
      simp [List.replicate_succ]
    rw [hf, e1, ih (a ++ [false]) (by simp; omega), e2]
    rw [walkNext, Next_step c a k (by omega)]
    simp only
    rw [e3, ih (a ++ [true]) (by simp; omega), e4]
    congr 1
    have hh := levelPaths_head k
    have : (List.map (fun q => a ++ q) (levelPaths (k + 1))).tail
        = (List.map (fun q => (a ++ [false]) ++ q) (levelPaths k)).tail
          ++ ((a ++ [true]) ++ List.replicate k false)
            :: (List.map (fun q => (a ++ [true]) ++ q) (levelPaths k)).tail := by
      simp only [levelPaths, List.map_append, List.map_map, Function.comp_def]
      nth_rewrite 1 [hh]
      nth_rewrite 2 [hh]
      nth_rewrite 4 [hh]
      simp
    rw [this]
    simp

/-- Given one unit of fuel for each leaf, the walk with `First` and `Next`
visits the leaves from left to right and ends. -/
theorem walk_complete {d : Nat} {t : MerkleTree} (c : t.root.Complete d) (fuel : Nat)
    (hfuel : 2 ^ d ≤ fuel) : walk t fuel = Except.ok (levelPaths d) := by
  have h1 : 1 ≤ 2 ^ d := Nat.one_le_two_pow
  obtain ⟨x, rfl⟩ : ∃ x, fuel = (x + 1) + (2 ^ d - 1) := ⟨fuel - 2 ^ d, by omega⟩
  have key := walkNext_subtree c d [] (by simp) (x + 1) [List.replicate d false]
  simp only [List.nil_append, List.map_id'] at key
  simp only [walk, Cursor.First, MerkleTree.Cursor, leftmost_complete c, key]
  rw [walkNext, Next_last c]
  simp only
  rw [List.singleton_append, ← levelPaths_head]

theorem Node.Built.leftmost_left {t : MerkleTree} {k : Nat} {n : Node} (b : n.Built t k) :
    (n.at (List.replicate k false)).range.Left = n.range.Left := by
  induction k generalizing n with
  | zero => simp [Node.at_nil]
  | succ k ih =>
    cases n with
    | null => exact absurd b (by simp [Node.Built])
    | mk typ hash parent l r level rng =>
      simp only [Node.Built] at b
      simp only [List.replicate_succ, Node.at_cons_mk, Bool.false_eq_true, if_false]
      rw [ih b.2.2.2.2.2.1, b.2.2.2.1]
      rfl

theorem Node.Built.rightmost_right {t : MerkleTree} {k : Nat} {n : Node} (b : n.Built t k) :
    (n.at (List.replicate k true)).range.Right = n.range.Right := by
  induction k generalizing n with
  | zero => simp [Node.at_nil]
  | succ k ih =>
    cases n with
    | null => exact absurd b (by simp [Node.Built])
    | mk typ hash parent l r level rng =>
      simp only [Node.Built] at b
      simp only [List.replicate_succ, Node.at_cons_mk, if_true]
      rw [ih b.2.2.2.2.2.2, b.2.2.2.2.1]
      rfl

/-- The Ranges of the leaves, from left to right, link up: the Right of each
is the Left of the next. -/
theorem Node.Built.chain {t : MerkleTree} {k : Nat} {n : Node} (b : n.Built t k) :
    List.Chain' (fun p q => (n.at p).range.Right = (n.at q).range.Left) (levelPaths k) := by
  induction k generalizing n with
  | zero => simp [levelPaths]
  | succ k ih =>
    cases n with
    | null => exact absurd b (by simp [Node.Built])
    | mk typ hash parent l r level rng =>
      simp only [Node.Built] at b
      obtain ⟨-, -, -, b4, b5, b6, b7⟩ := b
      rw [levelPaths, List.chain'_append]
      refine ⟨?_, ?_, ?_⟩
      · rw [List.chain'_map]
        simpa [Node.at] using ih b6
      · rw [List.chain'_map]
        simpa [Node.at] using ih b7
      · intro x hx y hy
        simp only [List.getLast?_map, levelPaths_getLast?, Option.map_some', Option.mem_def,
          Option.some.injEq, List.head?_map, levelPaths_head?] at hx hy
        subst hx hy
        simp [Node.at, b6.rightmost_right, b7.leftmost_left, b4, b5]

theorem levelPaths_nodup (k : Nat) : (levelPaths k).Nodup := by
  induction k with
  | zero => simp [levelPaths]
  | succ k ih =>
    rw [levelPaths, List.nodup_append]
    refine ⟨ih.map (List.cons_injective), ih.map (List.cons_injective), ?_⟩
    intro p hp hq
    simp only [List.mem_map] at hp hq
    obtain ⟨a, -, rfl⟩ := hp
    obtain ⟨b, -, hb⟩ := hq
    simp at hb

/-! ## Claims on the cursor -/

/-- C6: for a tree of depth D built by NewMerkleTree, the loop of a fresh
cursor's First followed by Next until none, given fuel for 2^D calls, visits
exactly 2^D distinct nodes, all leaves, from left to right; Next at the last
of them returns none; the first leaf's Left is fullRange.Left, the Right of
each visited leaf is the Left of the next, and the last leaf's Right is
fullRange.Right. -/
theorem C6_cursor_walk (depth : Nat) (min max left right : Bytes) (t0 t : MerkleTree)
    (fuel : Nat)
    (h0 : NewMerkleTree depth min max left right = Except.ok t0)
    (s : t.sameShape t0 = true) (hfuel : 2 ^ depth ≤ fuel) :
    ∃ visited, walk t fuel = Except.ok visited
      ∧ visited = levelPaths depth
      ∧ visited.length = 2 ^ depth ∧ visited.Nodup
      ∧ (∀ p ∈ visited, (t.root.at p).isLeaf = Except.ok true)
      ∧ (∃ first last, visited.head? = some first ∧ visited.getLast? = some last
          ∧ (t.root.at first).range.Left = left
          ∧ (t.root.at last).range.Right = right
          ∧ Cursor.Next t ⟨some last⟩ = (Except.ok none, ⟨some last⟩))
      ∧ List.Chain' (fun p q => (t.root.at p).range.Right = (t.root.at q).range.Left)
          visited := by
  obtain ⟨c, -, hrng⟩ := reachable_complete h0 s
  have hb := reachable_built h0 s
  refine ⟨levelPaths depth, walk_complete c fuel hfuel, rfl, levelPaths_length depth,
    levelPaths_nodup depth, ?_, ?_, hb.chain⟩
  · intro p hp
    exact isLeaf_complete c (mem_levelPaths.mp hp)
  · refine ⟨_, _, levelPaths_head? depth, levelPaths_getLast? depth, ?_, ?_, Next_last c⟩
    · rw [hb.leftmost_left, hrng]
    · rw [hb.rightmost_right, hrng]

/-- C6 on the tree of `TestIteration`: depth 1 over the wrapping range
(255,3] yields (255,1] and then (1,3]. -/
theorem C6_cursor_walk_witness :
    (∃ visited, walk wrapBase 2 = Except.ok visited
      ∧ visited = levelPaths 1
      ∧ visited.length = 2 ^ 1 ∧ visited.Nodup
      ∧ (∀ p ∈ visited, (wrapBase.root.at p).isLeaf = Except.ok true)
      ∧ (∃ first last, visited.head? = some first ∧ visited.getLast? = some last
          ∧ (wrapBase.root.at first).range.Left = [255]
          ∧ (wrapBase.root.at last).range.Right = [3]
          ∧ Cursor.Next wrapBase ⟨some last⟩ = (Except.ok none, ⟨some last⟩))
      ∧ List.Chain' (fun p q =>
          (wrapBase.root.at p).range.Right = (wrapBase.root.at q).range.Left) visited)
      ∧ (levelPaths 1).map (fun p => (wrapBase.root.at p).range)
          = [⟨[255], [1]⟩, ⟨[1], [3]⟩] :=
  ⟨C6_cursor_walk 1 [0] [255] [255] [3] wrapBase wrapBase 2 rfl rfl (by decide), rfl⟩

/-! ## Claims on Fill -/

/-- C9: after Fill on a tree built by NewMerkleTree and never filled before,
the latch is set, the geometry is unchanged, every leaf's hash is unchanged,
and every internal node's hash is determined by the hashes of its two
children after the Fill: absent if both are absent, the present one if
exactly one is present, and the digest of the left hash followed by the right
hash if both are present. -/
theorem C9_fill (H : Bytes → Bytes) (depth : Nat) (min max left right : Bytes)
    (t0 t : MerkleTree)
    (h0 : NewMerkleTree depth min max left right = Except.ok t0)
    (s : t.sameShape t0 = true) (nf : t.filled = false) :
    ∃ f, t.Fill H = Except.ok f ∧ f.filled = true ∧ f.sameShape t0 = true
      ∧ (∀ p : Path, p.length = depth →
          (f.root.at p).isLeaf = Except.ok true ∧ (f.root.at p).hash = (t.root.at p).hash)
      ∧ (∀ p : Path, p.length < depth →
          (f.root.at p).isLeaf = Except.ok false
          ∧ ((f.root.at (p ++ [false])).hash = none → (f.root.at (p ++ [true])).hash = none →
              (f.root.at p).hash = none)
          ∧ (∀ r, (f.root.at (p ++ [false])).hash = none →
              (f.root.at (p ++ [true])).hash = some r → (f.root.at p).hash = some r)
          ∧ (∀ l, (f.root.at (p ++ [false])).hash = some l →
              (f.root.at (p ++ [true])).hash = none → (f.root.at p).hash = some l)
          ∧ (∀ l r, (f.root.at (p ++ [false])).hash = some l →
              (f.root.at (p ++ [true])).hash = some r →
              (f.root.at p).hash = some (H (l ++ r)))) := by
  obtain ⟨c, -, -⟩ := reachable_complete h0 s
  obtain ⟨e1, e2, e3, e4, sr⟩ := MerkleTree.sameShape_spec s
  obtain ⟨n', h1, h2, h3, h4⟩ := fillInnerHash_complete H c
  have cf : n'.Complete depth := Node.Complete_of_sameShape h2 c
  refine ⟨{ t with root := n', filled := true },
    by simp [MerkleTree.Fill, MerkleTree.fillInnerHash, nf, h1], rfl, ?_, ?_, ?_⟩
  · simp [MerkleTree.sameShape, e1, e2, e3, e4,
      Node.sameShape_trans (Node.sameShape_symm h2) sr]
  · intro p hp
    exact ⟨isLeaf_complete cf hp, h3 p hp⟩
  · intro p hp
    have hc := h4 p hp
    refine ⟨isLeaf_internal cf hp, ?_, ?_, ?_, ?_⟩
    · intro hl hr; simpa [hl, hr, combineHash] using hc
    · intro r hl hr; simpa [hl, hr, combineHash] using hc
    · intro l hl hr; simpa [hl, hr, combineHash] using hc
    · intro l r hl hr; simpa [hl, hr, combineHash] using hc

/-- C9 on the first tree of `TestDiff`: "test" and "foo" pass through to the
two internal nodes and the root receives the digest of "testfoo". -/
theorem C9_fill_witness :
    (∃ f, testTree1.Fill concatHash = Except.ok f ∧ f.filled = true
      ∧ f.sameShape testBase = true
      ∧ (∀ p : Path, p.length = 2 →
          (f.root.at p).isLeaf = Except.ok true
          ∧ (f.root.at p).hash = (testTree1.root.at p).hash)
      ∧ (∀ p : Path, p.length < 2 →
          (f.root.at p).isLeaf = Except.ok false
          ∧ ((f.root.at (p ++ [false])).hash = none → (f.root.at (p ++ [true])).hash = none →
              (f.root.at p).hash = none)
          ∧ (∀ r, (f.root.at (p ++ [false])).hash = none →
              (f.root.at (p ++ [true])).hash = some r → (f.root.at p).hash = some r)
          ∧ (∀ l, (f.root.at (p ++ [false])).hash = some l →
              (f.root.at (p ++ [true])).hash = none → (f.root.at p).hash = some l)
          ∧ (∀ l r, (f.root.at (p ++ [false])).hash = some l →
              (f.root.at (p ++ [true])).hash = some r →
              (f.root.at p).hash = some (concatHash (l ++ r)))))
      ∧ (testTree1.Fill concatHash).map (fun f =>
            [(f.root.at []).hash, (f.root.at [false]).hash, (f.root.at [true]).hash])
          = Except.ok [some [116, 101, 115, 116, 102, 111, 111], some [116, 101, 115, 116],
              some [102, 111, 111]] :=
  ⟨C9_fill concatHash 2 [0] [255] [16] [31] testBase testTree1 rfl rfl rfl, rfl⟩

/-! ## Big-integer arithmetic of the midpoint -/

theorem foldl_bytes (b : Bytes) (init : Nat) :
    b.foldl (fun acc x => acc * 256 + x) init
      = init * 256 ^ b.length + b.foldl (fun acc x => acc * 256 + x) 0 := by
  induction b generalizing init with
  | nil => simp
  | cons x xs ih =>
    simp only [List.foldl_cons, List.length_cons]
    rw [ih (init * 256 + x), ih (0 * 256 + x)]
    ring

theorem setBytes_append (a b : Bytes) :
    setBytes (a ++ b) = setBytes a * 256 ^ b.length + setBytes b := by
  simp only [setBytes, List.foldl_append]
  exact foldl_bytes b _

theorem setBytes_replicate_zero (k : Nat) : setBytes (List.replicate k 0) = 0 := by
  induction k with
  | zero => rfl
  | succ k ih =>
    have : List.replicate (k + 1) 0 = [0] ++ List.replicate k 0 := by
      simp [List.replicate_succ]
    rw [this, setBytes_append, ih]
    simp [setBytes]

theorem setBytes_natBytesAux (fuel n : Nat) (acc : Bytes) (h : n ≤ fuel) :
    setBytes (natBytesAux fuel n acc) = n * 256 ^ acc.length + setBytes acc := by
  induction fuel generalizing n acc with
  | zero =>
    have : n = 0 := by omega
    simp [natBytesAux, this]
  | succ fuel ih =>
    by_cases hn : n = 0
    · simp [natBytesAux, hn]
    · simp only [natBytesAux, hn, if_false]
      rw [ih (n / 256) (n % 256 :: acc) (by omega)]
      have e : setBytes (n % 256 :: acc) = (n % 256) * 256 ^ acc.length + setBytes acc := by
        have := setBytes_append [n % 256] acc
        simpa [setBytes] using this
      rw [e, List.length_cons, pow_succ]
      have hdiv := Nat.div_add_mod n 256
      calc n / 256 * (256 ^ acc.length * 256) + (n % 256 * 256 ^ acc.length + setBytes acc)
          = (256 * (n / 256) + n % 256) * 256 ^ acc.length + setBytes acc := by ring
        _ = n * 256 ^ acc.length + setBytes acc := by rw [hdiv]

theorem setBytes_natBytes (n : Nat) : setBytes (natBytes n) = n := by
  unfold natBytes
  rw [setBytes_natBytesAux n n [] (Nat.le_refl _)]
  simp [setBytes]

/-- On a Range that does not wrap the midpoint is the rounded-down mean of the
two ends. -/
theorem midpoint_nonwrap (t : MerkleTree) (rng : Range)
    (h : setBytes rng.Left ≤ setBytes rng.Right) :
    setBytes (t.midpoint rng) = (setBytes rng.Left + setBytes rng.Right) / 2 := by
  have hle : ((setBytes rng.Left : Nat) : Int) ≤ ((setBytes rng.Right : Nat) : Int) := by
    exact_mod_cast h
  have habs : ((((setBytes rng.Left : Nat) : Int) + ((setBytes rng.Right : Nat) : Int)) >>> (1 : Nat)).natAbs
      = (setBytes rng.Left + setBytes rng.Right) / 2 := by
    rw [Int.shiftRight_eq_div_pow]
    omega
  simp only [MerkleTree.midpoint, hle, if_true, habs]
  split
  · rw [setBytes_append, setBytes_replicate_zero, setBytes_natBytes]
    simp
  · exact setBytes_natBytes _

/-! ## Cursor: Seek -/

theorem Node.inRange_eq {n : Node} (h : n ≠ Node.null) (key : Bytes) :
    n.inRange key = Except.ok (n.inRangeB key) := by
  cases n with
  | null => exact absurd rfl h
  | mk typ hash parent l r level rng => rfl

theorem Node.Built.built_at {t : MerkleTree} {k : Nat} {n : Node} (b : n.Built t k) {q : Path}
    (hq : q.length ≤ k) : (n.at q).Built t (k - q.length) := by
  induction q generalizing k n with
  | nil => simpa [Node.at_nil] using b
  | cons c q ih =>
    cases k with
    | zero => simp at hq
    | succ k =>
      cases n with
      | null => exact absurd b (by simp [Node.Built])
      | mk typ hash parent l r level rng =>
        simp only [Node.Built] at b
        simp only [List.length_cons, Nat.add_le_add_iff_right] at hq
        cases c
        · simpa [Node.at] using ih b.2.2.2.2.2.1 hq
        · simpa [Node.at] using ih b.2.2.2.2.2.2 hq

/-- An internal node whose Range does not wrap is split in two Ranges that
do not wrap, and a key is in its Range exactly when it is in the Range of
one child, never of both. -/
theorem Node.Built.split {t : MerkleTree} {k : Nat} {typ : NodeType} {hash : Option Bytes}
    {parent : Bool} {l r : Node} {level : Nat} {rng : Range}
    (b : (Node.mk typ hash parent l r level rng).Built t (k + 1))
    (nw : (Node.mk typ hash parent l r level rng).NonWrap) :
    l.NonWrap ∧ r.NonWrap ∧ ∀ key,
      ((Node.mk typ hash parent l r level rng).inRangeB key
          = (l.inRangeB key || r.inRangeB key))
        ∧ ¬ (l.inRangeB key = true ∧ r.inRangeB key = true) := by
  simp only [Node.Built] at b
  obtain ⟨-, -, -, b4, b5, -, -⟩ := b
  have nw' : setBytes rng.Left ≤ setBytes rng.Right := nw
  have hm := midpoint_nonwrap t rng nw'
  have hrng : (Node.mk typ hash parent l r level rng).range = rng := rfl
  simp only [Node.NonWrap, Node.inRangeB, b4, b5, hrng, hm]
  refine ⟨by omega, by omega, fun key => ⟨?_, ?_⟩⟩
  · rw [Bool.eq_iff_iff]
    simp only [Bool.and_eq_true, Bool.or_eq_true, decide_eq_true_eq]
    omega
  · simp only [Bool.and_eq_true, decide_eq_true_eq]
    omega

theorem Node.Built.nonWrap_at {t : MerkleTree} {k : Nat} {n : Node} (b : n.Built t k)
    (nw : n.NonWrap) {q : Path} (hq : q.length ≤ k) : (n.at q).NonWrap := by
  induction q generalizing k n with
  | nil => simpa [Node.at_nil] using nw
  | cons c q ih =>
    cases k with
    | zero => simp at hq
    | succ k =>
      cases n with
      | null => exact absurd b (by simp [Node.Built])
      | mk typ hash parent l r level rng =>
        obtain ⟨nl, nr, -⟩ := b.split nw
        simp only [Node.Built] at b
        simp only [List.length_cons, Nat.add_le_add_iff_right] at hq
        cases c
        · simpa [Node.at] using ih b.2.2.2.2.2.1 nl hq
        · simpa [Node.at] using ih b.2.2.2.2.2.2 nr hq

/-- A key outside the Range of a node that does not wrap is outside the Range
of every node below it. -/
theorem Node.Built.notin_below {t : MerkleTree} {k : Nat} {n : Node} (b : n.Built t k)
    (nw : n.NonWrap) {key : Bytes} (hk : n.inRangeB key = false) {q : Path}
    (hq : q.length ≤ k) : (n.at q).inRangeB key = false := by
  induction q generalizing k n with
  | nil => simpa [Node.at_nil] using hk
  | cons c q ih =>
    cases k with
    | zero => simp at hq
    | succ k =>
      cases n with
      | null => exact absurd b (by simp [Node.Built])
      | mk typ hash parent l r level rng =>
        obtain ⟨nl, nr, hs⟩ := b.split nw
        have h1 := (hs key).1
        rw [hk] at h1
        have h2 : l.inRangeB key = false ∧ r.inRangeB key = false := by
          have h3 : (l.inRangeB key || r.inRangeB key) = false := h1.symm
          rw [Bool.or_eq_false_iff] at h3
          exact h3
        simp only [Node.Built] at b
        simp only [List.length_cons, Nat.add_le_add_iff_right] at hq
        cases c
        · simpa [Node.at] using ih b.2.2.2.2.2.1 nl h2.1 hq
        · simpa [Node.at] using ih b.2.2.2.2.2.2 nr h2.2 hq

/-- From a node that does not wrap and contains the key, the descent of
`Seek` returns the one leaf below it whose Range contains the key. -/
theorem seekDown_nonwrap {t : MerkleTree} {k : Nat} {n : Node} (b : n.Built t k)
    (nw : n.NonWrap) {key : Bytes} (hk : n.inRangeB key = true) :
    ∃ q, seekDown key n = Except.ok q ∧ q.length = k ∧ (n.at q).inRangeB key = true
      ∧ ∀ p : Path, p.length = k → (n.at p).inRangeB key = true → p = q := by
  induction k generalizing n with
  | zero =>
    cases n with
    | null => exact absurd b (by simp [Node.Built])
    | mk typ hash parent l r level rng =>
      simp only [Node.Built] at b
      obtain ⟨b1, -, -⟩ := b
      subst b1
      refine ⟨[], ?_, rfl, by simpa [Node.at_nil] using hk, ?_⟩
      · have := Node.inRange_eq (n := Node.mk NodeLeaf hash parent l r level rng) (by simp) key
        simp [seekDown, this, hk]
      · intro p hp _
        exact List.length_eq_zero.mp hp
  | succ k ih =>
    cases n with
    | null => exact absurd b (by simp [Node.Built])
    | mk typ hash parent l r level rng =>
      obtain ⟨nl, nr, hs⟩ := b.split nw
      have h1 := (hs key).1
      have h2 := (hs key).2
      rw [hk] at h1
      simp only [Node.Built] at b
      obtain ⟨b1, -, -, -, -, b6, b7⟩ := b
      have il := Node.inRange_eq b6.built_ne_null key
      have ir := Node.inRange_eq b7.built_ne_null key
      cases hl : l.inRangeB key with
      | true =>
        have hr : r.inRangeB key = false := by
          cases hr : r.inRangeB key
          · rfl
          · exact absurd ⟨hl, hr⟩ h2
        obtain ⟨q, hq1, hq2, hq3, hq4⟩ := ih b6 nl hl
        refine ⟨false :: q, ?_, by simp [hq2], by simpa [Node.at] using hq3, ?_⟩
        · simp [seekDown, b1, il, hl, hq1]
        · intro p hp hin
          cases p with
          | nil => simp at hp
          | cons c p =>
            simp only [List.length_cons, Nat.add_right_cancel_iff] at hp
            cases c
            · simp only [Node.at, Bool.false_eq_true, if_false] at hin
              rw [hq4 p hp hin]
            · simp only [Node.at, if_true] at hin
              rw [b7.notin_below nr hr (Nat.le_of_eq hp)] at hin
              exact absurd hin (by simp)
      | false =>
        have hr : r.inRangeB key = true := by
          rw [hl] at h1
          simpa using h1.symm
        obtain ⟨q, hq1, hq2, hq3, hq4⟩ := ih b7 nr hr
        refine ⟨true :: q, ?_, by simp [hq2], by simpa [Node.at] using hq3, ?_⟩
        · simp [seekDown, b1, il, ir, hl, hr, hq1]
        · intro p hp hin
          cases p with
          | nil => simp at hp
          | cons c p =>
            simp only [List.length_cons, Nat.add_right_cancel_iff] at hp
            cases c
            · simp only [Node.at, Bool.false_eq_true, if_false] at hin
              rw [b6.notin_below nl hl (Nat.le_of_eq hp)] at hin
              exact absurd hin (by simp)
            · simp only [Node.at, if_true] at hin
              rw [hq4 p hp hin]

/-- The ascent of `Seek` in a complete tree returns: it stops at a node that
contains the key, or at the root. -/
theorem seekUp_complete {d : Nat} {root : Node} (c : root.Complete d) (key : Bytes)
    (rev : List Bool) (hrev : rev.length ≤ d) :
    ∃ up, seekUp root key rev = Except.ok up ∧ up.length ≤ rev.length
      ∧ (up = [] ∨ (root.at up.reverse).inRangeB key = true) := by
  induction rev with
  | nil => exact ⟨[], rfl, Nat.le_refl _, Or.inl rfl⟩
  | cons b rev ih =>
    have hne : root.at (b :: rev).reverse ≠ Node.null :=
      (c.at (q := (b :: rev).reverse) (by simpa using hrev)).ne_null
    have hin := Node.inRange_eq hne key
    cases hb : (root.at (b :: rev).reverse).inRangeB key with
    | true =>
      exact ⟨b :: rev, by rw [seekUp, hin, hb], Nat.le_refl _, Or.inr hb⟩
    | false =>
      obtain ⟨up, h1, h2, h3⟩ := ih (by simp at hrev; omega)
      exact ⟨up, by rw [seekUp, hin, hb]; exact h1, by simp; omega, h3⟩

/-- In a tree whose full Range does not wrap and contains the key, `Seek`
returns the one leaf whose Range contains the key, from every position at
depth at most `d`. -/
theorem Seek_nonwrap {t : MerkleTree} {d : Nat} (b : t.root.Built t d)
    (nw : t.root.NonWrap) {key : Bytes} (hk : t.root.inRangeB key = true) {leaf : Path}
    (huniq : ∀ p : Path, p.length = d → (t.root.at p).inRangeB key = true → p = leaf)
    (c : Cursor) (hc : ∀ p, c.pos = some p → p.length ≤ d) :
    c.Seek t key = (Except.ok leaf, ⟨some leaf⟩) := by
  have hstart : ∃ start : Path, start.length ≤ d ∧
      (match c.pos with
        | none => []
        | some p => p) = start := by
    cases hp : c.pos with
    | none => exact ⟨[], Nat.zero_le _, rfl⟩
    | some p => exact ⟨p, hc p hp, rfl⟩
  obtain ⟨start, hlen, hst⟩ := hstart
  obtain ⟨up, hup, hul, hin⟩ := seekUp_complete b.complete key start.reverse (by simpa using hlen)
  have hal : up.reverse.length ≤ d := by
    simp only [List.length_reverse] at hul ⊢
    omega
  have hin' : (t.root.at up.reverse).inRangeB key = true := by
    rcases hin with h | h
    · subst h
      simpa [Node.at_nil] using hk
    · exact h
  have hne : t.root.at up.reverse ≠ Node.null := (b.built_at hal).built_ne_null
  obtain ⟨q, hq1, hq2, hq3, -⟩ := seekDown_nonwrap (b.built_at hal) (b.nonWrap_at nw hal) hin'
  have hres : up.reverse ++ q = leaf := by
    apply huniq
    · rw [List.length_append, hq2]
      omega
    · rw [Node.at_append]
      exact hq3
  simp only [Cursor.Seek, hst, hup, Node.inRange_eq hne key, hin', hq1, hres]

/-- C7: in a tree built by NewMerkleTree whose fullRange does not wrap, for
every key with Left < key <= Right, there is one leaf whose Range contains
the key, and Seek returns it from the unset cursor and from a cursor
positioned at any leaf; the cursor's position becomes that leaf. -/
theorem C7_seek_nonwrapping (depth : Nat) (min max left right : Bytes)
    (t0 t : MerkleTree) (key : Bytes)
    (h0 : NewMerkleTree depth min max left right = Except.ok t0)
    (s : t.sameShape t0 = true)
    (hkey : setBytes left < setBytes key ∧ setBytes key ≤ setBytes right) :
    ∃ leaf : Path, leaf.length = depth
      ∧ (t.root.at leaf).isLeaf = Except.ok true
      ∧ (t.root.at leaf).inRange key = Except.ok true
      ∧ (∀ p : Path, p.length = depth → (t.root.at p).inRange key = Except.ok true →
          p = leaf)
      ∧ t.Cursor.Seek t key = (Except.ok leaf, ⟨some leaf⟩)
      ∧ ∀ p : Path, p.length = depth →
          Cursor.Seek t ⟨some p⟩ key = (Except.ok leaf, ⟨some leaf⟩) := by
  obtain ⟨c, -, hrng⟩ := reachable_complete h0 s
  have hb := reachable_built h0 s
  have nw : t.root.NonWrap := by
    simp only [Node.NonWrap, hrng]
    omega
  have hk : t.root.inRangeB key = true := by
    simp [Node.inRangeB, hrng, hkey.1, hkey.2]
  obtain ⟨leaf, -, h2, h3, h4⟩ := seekDown_nonwrap hb nw hk
  have hne : ∀ p : Path, p.length = depth → t.root.at p ≠ Node.null := fun p hp =>
    (c.at (Nat.le_of_eq hp)).ne_null
  have huniq : ∀ p : Path, p.length = depth → (t.root.at p).inRangeB key = true → p = leaf :=
    h4
  refine ⟨leaf, h2, isLeaf_complete c h2, ?_, ?_, ?_, ?_⟩
  · rw [Node.inRange_eq (hne leaf h2), h3]
  · intro p hp hin
    rw [Node.inRange_eq (hne p hp)] at hin
    exact huniq p hp (by simpa using hin)
  · exact Seek_nonwrap hb nw hk huniq _ (fun p hp => by simp [MerkleTree.Cursor] at hp)
  · intro p hp
    exact Seek_nonwrap hb nw hk huniq _ (fun p' hp' => by
      simp only [Option.some.injEq] at hp'
      subst hp'
      exact Nat.le_of_eq hp)

/-- C7 on the tree of the tests, for the keys 17 and 31 used there: the
leaves (16,19] and (27,31], from the unset cursor and from every leaf. -/
theorem C7_seek_nonwrapping_witness :
    (∃ leaf : Path, leaf.length = 2
      ∧ (testBase.root.at leaf).isLeaf = Except.ok true
      ∧ (testBase.root.at leaf).inRange [31] = Except.ok true
      ∧ (∀ p : Path, p.length = 2 → (testBase.root.at p).inRange [31] = Except.ok true →
          p = leaf)
      ∧ testBase.Cursor.Seek testBase [31] = (Except.ok leaf, ⟨some leaf⟩)
      ∧ ∀ p : Path, p.length = 2 →
          Cursor.Seek testBase ⟨some p⟩ [31] = (Except.ok leaf, ⟨some leaf⟩))
      ∧ testBase.Cursor.Seek testBase [31] = (Except.ok [true, true], ⟨some [true, true]⟩)
      ∧ testBase.Cursor.Seek testBase [17] = (Except.ok [false, false], ⟨some [false, false]⟩) :=
  ⟨C7_seek_nonwrapping 2 [0] [255] [16] [31] testBase testBase [31] rfl rfl
    (by decide), rfl, rfl⟩

/-- C8 fails on the code: on the tree of `TestIteration`, over the wrapping
range (255,3], the keys 1 and 2 are in the full range under the cyclic rule,
yet Seek from the unset cursor fails with the key-not-in-tree error, and so
it does for key 1 from the leaf (255,1] that contains it. -/
theorem C8_seek_wrapping_fails :
    NewMerkleTree 1 [0] [255] [255] [3] = Except.ok wrapBase
      ∧ wrapBase.fullRange.cyclicContains [1] = true
      ∧ wrapBase.fullRange.cyclicContains [2] = true
      ∧ wrapBase.Cursor.Seek wrapBase [1] = (Except.error Panic.keyNotInTree, ⟨none⟩)
      ∧ wrapBase.Cursor.Seek wrapBase [2] = (Except.error Panic.keyNotInTree, ⟨none⟩)
      ∧ (wrapBase.root.at [false]).range = ⟨[255], [1]⟩
      ∧ Cursor.Seek wrapBase ⟨some [false]⟩ [1]
          = (Except.error Panic.keyNotInTree, ⟨some [false]⟩) :=
  ⟨rfl, rfl, rfl, rfl, rfl, rfl, rfl⟩

/-- C10 fails on the code: in the tree of depth 2 over the wrapping range
(200,10] the midpoint of the full range comes out as 23 (the absolute value of
200 + 32 - 255), so the second leaf is (16,23]; with the cursor on that leaf,
reached by First and Next, Seek of the key 20, which is outside the full
range under the cyclic rule, returns that leaf. -/
theorem C10_seek_outside_returns :
    NewMerkleTree 2 [0] [255] [200] [10] = Except.ok wrapDeep
      ∧ wrapDeep.fullRange.cyclicContains [20] = false
      ∧ wrapDeep.midpoint wrapDeep.fullRange = [23]
      ∧ (wrapDeep.Cursor.First wrapDeep).2.Next wrapDeep
          = (Except.ok (some [false, true]), ⟨some [false, true]⟩)
      ∧ (wrapDeep.root.at [false, true]).range = ⟨[16], [23]⟩
      ∧ Cursor.Seek wrapDeep ⟨some [false, true]⟩ [20]
          = (Except.ok [false, true], ⟨some [false, true]⟩) :=
  ⟨rfl, rfl, rfl, rfl, rfl, rfl⟩

/-! ## Claims on failures of Seek -/

/-- Where the descent of `Seek` returns, it has reached a leaf. -/
theorem seekDown_isLeaf (key : Bytes) {n : Node} {q : Path}
    (h : seekDown key n = Except.ok q) : (n.at q).isLeaf = Except.ok true := by
  induction n generalizing q with
  | null => simp [seekDown] at h
  | mk typ hash parent l r level rng ihl ihr =>
    unfold seekDown at h
    split at h
    · rename_i hleaf
      split at h
      · simp at h
      · simp only [Except.ok.injEq] at h
        subst h
        simp [Node.at, Node.isLeaf, hleaf]
      · simp at h
    · split at h
      · simp at h
      · split at h
        · simp at h
        · rename_i p hp
          simp only [Except.ok.injEq] at h
          subst h
          simpa [Node.at] using ihl hp
      · split at h
        · simp at h
        · split at h
          · simp at h
          · rename_i p hp
            simp only [Except.ok.injEq] at h
            subst h
            simpa [Node.at] using ihr hp
        · simp at h

/-- C11: on any tree, from any cursor and for any key, a Seek that fails
leaves the cursor's position exactly as it was; the position is updated only
when Seek returns, and then to the returned node, which is a leaf. -/
theorem C11_seek_failure_keeps_position (t : MerkleTree) (c : Cursor) (key : Bytes) :
    (∀ e, (c.Seek t key).1 = Except.error e → (c.Seek t key).2 = c)
      ∧ (∀ p, (c.Seek t key).1 = Except.ok p →
          (c.Seek t key).2 = ⟨some p⟩ ∧ (t.root.at p).isLeaf = Except.ok true) := by
  unfold Cursor.Seek
  simp only
  split
  · exact ⟨fun _ _ => rfl, fun p h => by simp at h⟩
  · rename_i up hup
    split
    · exact ⟨fun _ _ => rfl, fun p h => by simp at h⟩
    · exact ⟨fun _ _ => rfl, fun p h => by simp at h⟩
    · split
      · exact ⟨fun _ _ => rfl, fun p h => by simp at h⟩
      · rename_i q hq
        refine ⟨fun e h => by simp at h, fun p h => ?_⟩
        simp only [Except.ok.injEq] at h
        subst h
        refine ⟨rfl, ?_⟩
        rw [Node.at_append]
        exact seekDown_isLeaf key hq

/-- C11 on the tree of `TestIteration`, where Seek of key 2 from the first
leaf fails, and on the tree of the tests, where Seek of key 100 from the last
leaf fails: the cursor stays where it was. -/
theorem C11_seek_failure_keeps_position_witness :
    (Cursor.Seek wrapBase ⟨some [false]⟩ [2]).1 = Except.error Panic.keyNotInTree
      ∧ (Cursor.Seek wrapBase ⟨some [false]⟩ [2]).2 = ⟨some [false]⟩
      ∧ (Cursor.Seek testBase ⟨some [true, true]⟩ [100]).1 = Except.error Panic.keyNotInTree
      ∧ (Cursor.Seek testBase ⟨some [true, true]⟩ [100]).2 = ⟨some [true, true]⟩ :=
  ⟨rfl,
    (C11_seek_failure_keeps_position wrapBase ⟨some [false]⟩ [2]).1 Panic.keyNotInTree rfl,
    rfl,
    (C11_seek_failure_keeps_position testBase ⟨some [true, true]⟩ [100]).1
      Panic.keyNotInTree rfl⟩

/-! ## Claims on shape mismatches -/

theorem Range.Equal_iff (r s : Range) : r.Equal s = true ↔ r = s := by
  cases r with
  | mk a b =>
    cases s with
    | mk c d => simp [Range.Equal, bytesCompare_eq_zero_iff]

theorem Reached_succ {k : Nat} {typ1 typ2 : NodeType} {h1 h2 : Option Bytes}
    {p1 p2 : Bool} {l1 r1 l2 r2 : Node} {v1 v2 : Nat} {g1 g2 : Range} :
    Reached (k + 1) (Node.mk typ1 h1 p1 l1 r1 v1 g1) (Node.mk typ2 h2 p2 l2 r2 v2 g2)
      ↔ byteEqual h1 h2 = false ∧ (Reached k l1 l2 ∨ Reached k r1 r2) := by
  constructor
  · rintro ⟨p, hp, hd⟩
    have h0 := hd 0 (Nat.succ_pos k)
    simp only [List.take_zero, Node.at, Node.hash] at h0
    refine ⟨h0, ?_⟩
    cases p with
    | nil => simp at hp
    | cons b p =>
      simp only [List.length_cons, Nat.add_right_cancel_iff] at hp
      have hd' : ∀ j, j < k → byteEqual
          (((Node.mk typ1 h1 p1 l1 r1 v1 g1).at (b :: p.take j)).hash)
          (((Node.mk typ2 h2 p2 l2 r2 v2 g2).at (b :: p.take j)).hash) = false := by
        intro j hj
        simpa using hd (j + 1) (by omega)
      cases b
      · exact Or.inl ⟨p, hp, fun j hj => by simpa [Node.at] using hd' j hj⟩
      · exact Or.inr ⟨p, hp, fun j hj => by simpa [Node.at] using hd' j hj⟩
  · rintro ⟨h0, hl | hr⟩
    · obtain ⟨p, hp, hd⟩ := hl
      refine ⟨false :: p, by simp [hp], fun j hj => ?_⟩
      cases j with
      | zero => simpa [Node.at, Node.hash] using h0
      | succ j => simpa [Node.at] using hd j (by omega)
    · obtain ⟨p, hp, hd⟩ := hr
      refine ⟨true :: p, by simp [hp], fun j hj => ?_⟩
      cases j with
      | zero => simpa [Node.at, Node.hash] using h0
      | succ j => simpa [Node.at] using hd j (by omega)

/-- Two trees with the geometry of `buildTree` over the same Range and the
same ring, one `k` levels deep and the other deeper: `diff` fails with the
type assertion exactly when it reaches depth `k`, and returns otherwise. -/
theorem diff_depth_mismatch (t : MerkleTree) (k a b : Nat) {n1 n2 : Node}
    (res : List Range) (b1 : n1.Built t (k + a)) (b2 : n2.Built t (k + b))
    (hr : n1.range = n2.range) (hab : (a = 0 ∧ b ≠ 0) ∨ (a ≠ 0 ∧ b = 0)) :
    (Reached k n1 n2 ∧ diff n1 n2 res = Except.error Panic.nodeTypeMismatch)
      ∨ (¬ Reached k n1 n2 ∧ ∃ con res', diff n1 n2 res = Except.ok (con, res')) := by
  induction k generalizing n1 n2 res with
  | zero =>
    left
    refine ⟨⟨[], rfl, fun j hj => by omega⟩, ?_⟩
    cases n1 with
    | null => exact absurd b1 (by simp [Node.Built])
    | mk typ1 h1 p1 l1 r1 v1 g1 =>
      cases n2 with
      | null => exact absurd b2 (by simp [Node.Built])
      | mk typ2 h2 p2 l2 r2 v2 g2 =>
        rcases hab with ⟨ha, hb⟩ | ⟨ha, hb⟩
        · subst ha
          obtain ⟨b', rfl⟩ : ∃ b', b = b' + 1 := ⟨b - 1, by omega⟩
          simp only [Nat.zero_add, Node.Built] at b1 b2
          simp [diff, b1.1, b2.1]
        · subst hb
          obtain ⟨a', rfl⟩ : ∃ a', a = a' + 1 := ⟨a - 1, by omega⟩
          simp only [Nat.zero_add, Node.Built] at b1 b2
          simp [diff, b1.1, b2.1]
  | succ k ih =>
    cases n1 with
    | null => exact absurd b1 (by simp [Node.Built])
    | mk typ1 h1 p1 l1 r1 v1 g1 =>
      cases n2 with
      | null => exact absurd b2 (by simp [Node.Built])
      | mk typ2 h2 p2 l2 r2 v2 g2 =>
        have e1 : k + 1 + a = (k + a) + 1 := by omega
        have e2 : k + 1 + b = (k + b) + 1 := by omega
        rw [e1] at b1
        rw [e2] at b2
        simp only [Node.Built] at b1 b2
        obtain ⟨t1, -, -, lr1, rr1, lb1, rb1⟩ := b1
        obtain ⟨t2, -, -, lr2, rr2, lb2, rb2⟩ := b2
        subst t1 t2
        have hg : g1 = g2 := hr
        subst hg
        rw [Reached_succ]
        by_cases h0 : bytesCompare (hashBytes h1) (hashBytes h2) = 0
        · right
          refine ⟨?_, FullyConsistent, res, by simp [diff, Range.Equal_self, h0]⟩
          rintro ⟨hne, -⟩
          simp [byteEqual, h0] at hne
        · have hne : byteEqual h1 h2 = false := by simp [byteEqual, h0]
          rcases ih res lb1 lb2 (lr1.trans lr2.symm) with ⟨hl, el⟩ | ⟨hl, lcon, res1, el⟩
          · left
            exact ⟨⟨hne, Or.inl hl⟩, by simp [diff, Range.Equal_self, h0, el]⟩
          · rcases ih res1 rb1 rb2 (rr1.trans rr2.symm) with ⟨hr', er⟩ | ⟨hr', rcon, res2, er⟩
            · left
              exact ⟨⟨hne, Or.inr hr'⟩, by simp [diff, Range.Equal_self, h0, el, er]⟩
            · right
              refine ⟨fun h => h.2.elim hl hr', ?_⟩
              cases l1 with
              | null => exact absurd lb1 (by simp [Node.Built])
              | mk lt lh lp ll lr lv lg =>
                cases r1 with
                | null => exact absurd rb1 (by simp [Node.Built])
                | mk rt rh rp rl rr rv rg =>
                  simp only [diff, Range.Equal_self, h0, el, er, ne_eq, not_true_eq_false,
                    if_false, NodeType.noConfusion, false_and, reduceCtorEq]
                  split
                  · split
                    · exact ⟨_, _, rfl⟩
                    · exact ⟨_, _, rfl⟩
                  · split
                    · exact ⟨_, _, rfl⟩
                    · split
                      · exact ⟨_, _, rfl⟩
                      · exact ⟨_, _, rfl⟩

theorem Node.Complete.root_internal {d : Nat} {n : Node} (c : n.Complete d) (hd : 1 ≤ d) :
    ∃ hash parent l r level rng, n = Node.mk NodeInternal hash parent l r level rng := by
  obtain ⟨k, rfl⟩ : ∃ k, d = k + 1 := ⟨d - 1, by omega⟩
  cases n with
  | null => exact absurd c (by simp [Node.Complete])
  | mk typ hash parent l r level rng =>
    simp only [Node.Complete] at c
    exact ⟨hash, parent, l, r, level, rng, by rw [c.1]⟩

/-- C12, amended: for two trees built by NewMerkleTree, in any state of their
hashes, both Fills return; if the trees differ in fullRange, Diff fails with
the range assertion, whatever the hashes; if they agree in min, max and
fullRange and differ in depth, Diff fails with the type assertion when the
hashes after Fill differ at every node above some position at the depth of
the shallower tree, and otherwise returns a sequence of Ranges, the empty one
when the hashes of the roots are byte-equal. -/
theorem C12_diff_shape_mismatch (H : Bytes → Bytes) (d1 d2 : Nat)
    (min max left right min2 max2 left2 right2 : Bytes) (t01 t02 t1 t2 : MerkleTree)
    (h01 : NewMerkleTree d1 min max left right = Except.ok t01)
    (h02 : NewMerkleTree d2 min2 max2 left2 right2 = Except.ok t02)
    (s1 : t1.sameShape t01 = true) (s2 : t2.sameShape t02 = true) :
    ∃ f1 f2, t1.Fill H = Except.ok f1 ∧ t2.Fill H = Except.ok f2
      ∧ ((left ≠ left2 ∨ right ≠ right2) →
          t1.Diff H t2 = Except.error Panic.nodeRangeMismatch)
      ∧ (min = min2 → max = max2 → left = left2 → right = right2 → d1 ≠ d2 →
          (Reached (Nat.min d1 d2) f1.root f2.root →
            t1.Diff H t2 = Except.error Panic.nodeTypeMismatch)
          ∧ (¬ Reached (Nat.min d1 d2) f1.root f2.root →
            ∃ d, t1.Diff H t2 = Except.ok (d, f1, f2))
          ∧ (byteEqual f1.root.hash f2.root.hash = true →
            t1.Diff H t2 = Except.ok ([], f1, f2))) := by
  obtain ⟨hd1, -⟩ := NewMerkleTree_spec h01
  obtain ⟨hd2, -⟩ := NewMerkleTree_spec h02
  obtain ⟨c1, -, rng1⟩ := reachable_complete h01 s1
  obtain ⟨c2, -, rng2⟩ := reachable_complete h02 s2
  obtain ⟨f1, hf1, sf1, -, -⟩ := Fill_complete H c1
  obtain ⟨f2, hf2, sf2, -, -⟩ := Fill_complete H c2
  have cf1 := Node.Complete_of_sameShape sf1 c1
  have cf2 := Node.Complete_of_sameShape sf2 c2
  have rf1 : f1.root.range = ⟨left, right⟩ := (Node.sameShape_range sf1).symm.trans rng1
  have rf2 : f2.root.range = ⟨left2, right2⟩ := (Node.sameShape_range sf2).symm.trans rng2
  obtain ⟨a1, a2, a3, a4, a5, a6, e1⟩ := cf1.root_internal hd1
  obtain ⟨b1, b2, b3, b4, b5, b6, e2⟩ := cf2.root_internal hd2
  refine ⟨f1, f2, hf1, hf2, ?_, ?_⟩
  · intro hne
    rw [e1] at rf1
    rw [e2] at rf2
    simp only [Node.range] at rf1 rf2
    subst rf1 rf2
    have hneq : Range.Equal ⟨left, right⟩ ⟨left2, right2⟩ = false := by
      rw [Bool.eq_false_iff, ne_eq, Range.Equal_iff]
      intro h
      injection h with h1 h2
      rcases hne with h | h
      · exact h h1
      · exact h h2
    simp [MerkleTree.Diff, hf1, hf2, e1, e2, diff, hneq]
  · intro hmin hmax hl hr hd
    subst hmin hmax hl hr
    have bt1 : f1.root.Built t1 d1 := Node.Built.of_sameShape sf1 (reachable_built h01 s1)
    have bt2 : f2.root.Built t1 d2 :=
      Node.Built.congr t2 t1
        ((MerkleTree.sameShape_spec s1).1.trans
          ((NewMerkleTree_spec h01).2.2.1.trans
            ((NewMerkleTree_spec h02).2.2.1.symm.trans (MerkleTree.sameShape_spec s2).1.symm)))
        ((MerkleTree.sameShape_spec s1).2.1.trans
          ((NewMerkleTree_spec h01).2.2.2.1.trans
            ((NewMerkleTree_spec h02).2.2.2.1.symm.trans
              (MerkleTree.sameShape_spec s2).2.1.symm)))
        (Node.Built.of_sameShape sf2 (reachable_built h02 s2))
    obtain ⟨k, a, b, hk, ha, hb, hab⟩ : ∃ k a b, Nat.min d1 d2 = k ∧ d1 = k + a ∧ d2 = k + b
        ∧ ((a = 0 ∧ b ≠ 0) ∨ (a ≠ 0 ∧ b = 0)) := by
      rcases Nat.lt_or_gt_of_ne hd with h | h
      · exact ⟨d1, 0, d2 - d1, Nat.min_eq_left (Nat.le_of_lt h), rfl, by omega,
          Or.inl ⟨rfl, by omega⟩⟩
      · exact ⟨d2, d1 - d2, 0, Nat.min_eq_right (Nat.le_of_lt h), by omega, rfl,
          Or.inr ⟨by omega, rfl⟩⟩
    rw [hk]
    rw [ha] at bt1
    rw [hb] at bt2
    have key := diff_depth_mismatch t1 k a b [] bt1 bt2 (rf1.trans rf2.symm) hab
    refine ⟨?_, ?_, ?_⟩
    · intro hreach
      rcases key with ⟨-, e⟩ | ⟨hn, -⟩
      · simp [MerkleTree.Diff, hf1, hf2, e]
      · exact absurd hreach hn
    · intro hreach
      rcases key with ⟨h, -⟩ | ⟨-, con, res', e⟩
      · exact absurd h hreach
      · exact ⟨res', by simp [MerkleTree.Diff, hf1, hf2, e]⟩
    · intro heq
      rw [e1, e2] at heq
      rw [e1] at rf1
      rw [e2] at rf2
      simp only [Node.range] at rf1 rf2
      simp only [Node.hash, byteEqual, beq_iff_eq] at heq
      simp [MerkleTree.Diff, hf1, hf2, e1, e2, diff, rf1, rf2, Range.Equal_self, heq]

/-- C12 fails as stated: the fresh trees of depth 1 and of depth 2 over
(16,31] differ in depth, yet every hash is absent, the roots compare equal
and Diff returns the empty sequence, whatever the digest is. -/
theorem C12_counterexample :
    (NewMerkleTree 1 [0] [255] [16] [31] = Except.ok smallBase
      ∧ NewMerkleTree 2 [0] [255] [16] [31] = Except.ok testBase
      ∧ smallBase.depth ≠ testBase.depth)
      ∧ ∀ H : Bytes → Bytes, ∃ f1 f2, smallBase.Diff H testBase = Except.ok ([], f1, f2) :=
  ⟨⟨rfl, rfl, by decide⟩, fun _ => ⟨_, _, rfl⟩⟩

/-- C12 amended, on trees of depth 1 and depth 2 over (16,31]: with all
hashes absent Diff returns the empty sequence; with a leaf set in one of
them the roots differ, the leaf of the shallow tree meets an internal node
and Diff fails with the type assertion; against a tree over (16,30] Diff
fails with the range assertion. -/
theorem C12_diff_shape_mismatch_witness :
    smallBase.Diff concatHash testBase
        = Except.ok ([], { smallBase with filled := true }, { testBase with filled := true })
      ∧ smallLeft.Diff concatHash testBase = Except.error Panic.nodeTypeMismatch
      ∧ smallBase.Diff concatHash shortBase = Except.error Panic.nodeRangeMismatch := by
  obtain ⟨f1, f2, hf1, hf2, -, h⟩ := C12_diff_shape_mismatch concatHash 1 2
    [0] [255] [16] [31] [0] [255] [16] [31] smallBase testBase smallBase testBase
    rfl rfl rfl rfl
  obtain ⟨g1, g2, hg1, hg2, -, h'⟩ := C12_diff_shape_mismatch concatHash 1 2
    [0] [255] [16] [31] [0] [255] [16] [31] smallBase testBase smallLeft testBase
    rfl rfl rfl rfl
  have e1 : f1 = _ := (Except.ok.inj hf1).symm
  have e2 : f2 = _ := (Except.ok.inj hf2).symm
  have e3 : g1 = _ := (Except.ok.inj hg1).symm
  have e4 : g2 = _ := (Except.ok.inj hg2).symm
  subst e1 e2 e3 e4
  refine ⟨(h rfl rfl rfl rfl (by decide)).2.2 rfl, ?_, ?_⟩
  · exact (h' rfl rfl rfl rfl (by decide)).1
      ⟨[false], rfl, fun j hj => by
        have : j = 0 := by
          have : j < 1 := hj
          omega
        subst this
        rfl⟩
  · obtain ⟨-, -, -, -, hr, -⟩ := C12_diff_shape_mismatch concatHash 1 2
      [0] [255] [16] [31] [0] [255] [16] [30] smallBase shortBase smallBase shortBase
      rfl rfl rfl rfl
    exact hr (Or.inr (by decide))

/-! ## Deserialize on flat trees of any length -/

theorem deserializeLoop_append (t : MerkleTree) (st : Node × List Path)
    (a b : List (Option Bytes)) :
    deserializeLoop t st (a ++ b)
      = match deserializeLoop t st a with
        | Except.error e => Except.error e
        | Except.ok st1 => deserializeLoop t st1 b := by
  induction a generalizing st with
  | nil => simp [deserializeLoop]
  | cons x a ih =>
    rw [List.cons_append, deserializeLoop_cons, deserializeLoop_cons]
    cases deserializeStep t st x with
    | error e => rfl
    | ok st1 => exact ih st1

theorem Node.withFlat_sameShape (flat : List (Option Bytes)) (n : Node) (i : Nat) :
    n.sameShape (n.withFlat flat i) = true := by
  induction n generalizing i with
  | null => rfl
  | mk typ hash parent l r level rng ihl ihr =>
    simp [Node.withFlat, Node.sameShape, ihl, ihr]

theorem Node.withFlat_at_hash (flat : List (Option Bytes)) {n : Node} {p : Path} (i : Nat)
    (h : n.at p ≠ Node.null) :
    ((n.withFlat flat i).at p).hash
      = flat.getD (p.foldl (fun i b => 2 * i + (if b then 2 else 1)) i) none := by
  induction p generalizing n i with
  | nil =>
    cases n with
    | null => exact absurd (Node.at_nil _) h
    | mk typ hash parent l r level rng => rfl
  | cons b p ih =>
    cases n with
    | null => simp [Node.at] at h
    | mk typ hash parent l r level rng =>
      cases b
      · simp only [Node.at, Bool.false_eq_true, if_false] at h
        simpa [Node.withFlat, Node.at] using ih (2 * i + 1) h
      · simp only [Node.at, if_true] at h
        simpa [Node.withFlat, Node.at] using ih (2 * i + 2) h

theorem map_pathNum_levelPaths (k : Nat) : (levelPaths k).map pathNum = List.range (2 ^ k) := by
  induction k with
  | zero => rfl
  | succ k ih =>
    have h1 : ((levelPaths k).map (List.cons false)).map pathNum = List.range (2 ^ k) := by
      rw [List.map_map, ← ih]
      exact List.map_congr_left (fun p _ => by simp [pathNum])
    have h2 : ((levelPaths k).map (List.cons true)).map pathNum
        = (List.range (2 ^ k)).map (fun j => 2 ^ k + j) := by
      rw [List.map_map, ← ih, List.map_map]
      exact List.map_congr_left (fun p hp => by simp [pathNum, mem_levelPaths.mp hp])
    rw [levelPaths, List.map_append, h1, h2, pow_succ, Nat.mul_two, List.range_add]

theorem Node.levelHashes_withFlat (flat : List (Option Bytes)) {d : Nat} {n : Node}
    (c : n.Complete d) {k : Nat} (hk : k ≤ d) :
    (n.withFlat flat 0).levelHashes k
      = (List.range' (2 ^ k - 1) (2 ^ k)).map (fun i => flat.getD i none) := by
  have h1 : 1 ≤ 2 ^ k := Nat.one_le_two_pow
  rw [List.range'_eq_map_range, ← map_pathNum_levelPaths, List.map_map, List.map_map]
  unfold Node.levelHashes
  apply List.map_congr_left
  intro p hp
  have hlen := mem_levelPaths.mp hp
  have hne : n.at p ≠ Node.null := (c.at (q := p) (by omega)).ne_null
  have hb := bfsIndex_eq p
  rw [hlen] at hb
  have e : 2 ^ k - 1 + pathNum p = bfsIndex p := by omega
  simp only [Function.comp, e]
  exact Node.withFlat_at_hash flat 0 hne

theorem levelsFrom_withFlat (flat : List (Option Bytes)) {d : Nat} {n : Node}
    (c : n.Complete d) (j m : Nat) (hjm : j + m ≤ d + 1) :
    levelsFrom [n.withFlat flat 0] j m
      = (List.range' (2 ^ j - 1) (2 ^ (j + m) - 2 ^ j)).map (fun i => flat.getD i none) := by
  induction m generalizing j with
  | zero => simp [levelsFrom]
  | succ m ih =>
    have h1 : 1 ≤ 2 ^ j := Nat.one_le_two_pow
    have h2 : 2 ^ (j + 1) = 2 ^ j + 2 ^ j := by rw [pow_succ]; omega
    have h3 : 2 ^ (j + 1) ≤ 2 ^ (j + 1 + m) := Nat.pow_le_pow_right (by decide) (by omega)
    have e1 : 2 ^ (j + 1) - 1 = (2 ^ j - 1) + 2 ^ j := by omega
    have e2 : 2 ^ (j + (m + 1)) - 2 ^ j = (2 ^ (j + 1 + m) - 2 ^ (j + 1)) + 2 ^ j := by
      have : j + (m + 1) = j + 1 + m := by omega
      rw [this]
      omega
    simp only [levelsFrom, List.flatMap_cons, List.flatMap_nil, List.append_nil]
    rw [Node.levelHashes_withFlat flat c (by omega : j ≤ d), ih (j + 1) (by omega), e1, e2,
      ← List.range'_append_1, List.map_append]

theorem map_getD_range' (l : List (Option Bytes)) :
    (List.range' 0 l.length).map (fun i => l.getD i none) = l := by
  induction l with
  | nil => rfl
  | cons x xs ih =>
    rw [List.length_cons, List.range'_succ, List.map_cons]
    have : List.range' (0 + 1) xs.length = (List.range' 0 xs.length).map (fun i => 1 + i) := by
      rw [List.map_add_range']
    rw [this, List.map_map]
    have e : ((fun i => (x :: xs).getD i none) ∘ fun i => 1 + i) = fun i => xs.getD i none := by
      funext i
      simp [Nat.add_comm 1 i]
    rw [e, ih]
    simp

/-- On a flat tree of the full length the loop of `Deserialize` builds the
complete tree, entry `i` at the node of breadth-first index `i`, and leaves
the queue empty. -/
theorem deserializeLoop_full (t : MerkleTree) (rng : Range) (flat : List (Option Bytes))
    (hlen : flat.length = 2 ^ (t.depth + 1) - 1) :
    deserializeLoop t (Node.mk NodeInternal none false Node.null Node.null 0 rng, [[]]) flat
      = Except.ok
          (((t.buildTree (Node.new false rng) t.depth).withFlat flat 0).relevel 0, []) := by
  have hb0 := buildTree_built t t.depth false rng
  have hs := buildTree_shape t t.depth false rng
  have ss := Node.withFlat_sameShape flat (t.buildTree (Node.new false rng) t.depth) 0
  have hb := Node.Built.of_sameShape ss hb0
  have key := deserializeLoop_levels t hb rfl (t.depth + 1) 0 (by omega)
  have hflat := levelsFrom_withFlat flat hs.1 0 (t.depth + 1) (by omega)
  simp only [pow_zero, Nat.sub_self, Nat.zero_add] at hflat
  rw [← hlen, map_getD_range'] at hflat
  rw [hflat] at key
  have hcut : ((t.buildTree (Node.new false rng) t.depth).withFlat flat 0).cut 0 0
      = Node.mk NodeInternal none false Node.null Node.null 0 rng := by
    have hp := (Node.sameShape_hasParent ss).symm.trans hs.2.1
    have hr := (Node.sameShape_range ss).symm.trans hs.2.2
    cases hn : (t.buildTree (Node.new false rng) t.depth).withFlat flat 0 with
    | null => rw [hn] at hb; exact absurd hb (by simp [Node.Built])
    | mk typ hash parent l r level g =>
      rw [hn] at hp hr
      simp only [Node.hasParent, Node.range] at hp hr
      simp [Node.cut, hp, hr]
  simp only [Nat.zero_le, if_true, levelPaths, hcut] at key
  exact key

theorem bfsFrom_nil (i : Nat) : bfsFrom i [] = i := rfl

theorem bfsFrom_cons (i : Nat) (b : Bool) (p : Path) :
    bfsFrom i (b :: p) = bfsFrom (2 * i + (if b then 2 else 1)) p := rfl

theorem bfsFrom_zero (p : Path) : bfsFrom 0 p = bfsIndex p := rfl

theorem le_bfsFrom (i : Nat) (p : Path) : i ≤ bfsFrom i p := by
  induction p generalizing i with
  | nil => exact Nat.le_refl _
  | cons b p ih =>
    rw [bfsFrom_cons]
    have := ih (2 * i + (if b then 2 else 1))
    cases b <;> simp at this ⊢ <;> omega

theorem lt_bfsFrom_cons (i : Nat) (b : Bool) (p : Path) : i < bfsFrom i (b :: p) := by
  rw [bfsFrom_cons]
  have := le_bfsFrom (2 * i + (if b then 2 else 1)) p
  cases b <;> simp at this ⊢ <;> omega

theorem bfsFrom_eq (i : Nat) (p : Path) :
    bfsFrom i p + 1 = (i + 1) * 2 ^ p.length + pathNum p := by
  induction p generalizing i with
  | nil => simp [bfsFrom, pathNum]
  | cons b p ih =>
    rw [bfsFrom_cons, ih, pathNum_cons, List.length_cons, pow_succ]
    cases b
    · simp
      ring
    · simp
      ring

/-- The breadth-first indices below the left child of a node and those below
its right child are different. -/
theorem bfsFrom_left_ne_right (i : Nat) (p q : Path) :
    bfsFrom (2 * i + 1) p ≠ bfsFrom (2 * i + 2) q := by
  intro h
  have hp := bfsFrom_eq (2 * i + 1) p
  have hq := bfsFrom_eq (2 * i + 2) q
  have xp := pathNum_lt p
  have xq := pathNum_lt q
  rw [h] at hp
  rw [hp] at hq
  have e1 : (2 * i + 1 + 1) * 2 ^ p.length = 2 * (i * 2 ^ p.length) + 2 * 2 ^ p.length := by
    ring
  have e2 : (2 * i + 2 + 1) * 2 ^ q.length = 2 * (i * 2 ^ q.length) + 3 * 2 ^ q.length := by
    ring
  rw [e1, e2] at hq
  rcases Nat.lt_trichotomy p.length q.length with hlt | heq | hgt
  · have hpow : 2 ^ (p.length + 1) ≤ 2 ^ q.length := Nat.pow_le_pow_right (by decide) hlt
    rw [pow_succ] at hpow
    have hmul : i * (2 ^ p.length * 2) ≤ i * 2 ^ q.length := Nat.mul_le_mul_left i hpow
    have e3 : i * (2 ^ p.length * 2) = 2 * (i * 2 ^ p.length) := by ring
    rw [e3] at hmul
    omega
  · rw [heq] at hq xp
    omega
  · have hpow : 2 ^ (q.length + 1) ≤ 2 ^ p.length := Nat.pow_le_pow_right (by decide) hgt
    rw [pow_succ] at hpow
    have hmul : i * (2 ^ q.length * 2) ≤ i * 2 ^ p.length := Nat.mul_le_mul_left i hpow
    have e3 : i * (2 ^ q.length * 2) = 2 * (i * 2 ^ q.length) := by ring
    rw [e3] at hmul
    omega

theorem Node.at_null (p : Path) : Node.null.at p = Node.null := by
  cases p <;> rfl

theorem Node.readTo_null (n i : Nat) : Node.null.readTo n i = Node.null := rfl

/-- Reading one more entry changes nothing in a subtree that does not hold
the node of that index. -/
theorem Node.readTo_skip (n : Nat) (F : Node) (j : Nat) (h : ∀ q : Path, bfsFrom j q ≠ n) :
    F.readTo n j = F.readTo (n + 1) j := by
  induction F generalizing j with
  | null => rfl
  | mk typ hash parent l r level rng ihl ihr =>
    have hj : j ≠ n := h []
    have hl := ihl (2 * j + 1) (fun q => by simpa [bfsFrom_cons] using h (false :: q))
    have hr := ihr (2 * j + 2) (fun q => by simpa [bfsFrom_cons] using h (true :: q))
    by_cases hlt : j < n
    · have hlt' : j < n + 1 := by omega
      simp [Node.readTo, hlt, hlt', hl, hr]
    · have hlt' : ¬ j < n + 1 := by omega
      simp [Node.readTo, hlt, hlt']

/-- The node at a position of index at most `n`, when `n` entries are
read. -/
theorem Node.readTo_at (n : Nat) (F : Node) (i : Nat) (p : Path) (h : bfsFrom i p ≤ n) :
    (F.readTo n i).at p = (F.at p).readTo n (bfsFrom i p) := by
  induction p generalizing F i with
  | nil => simp [Node.at_nil, bfsFrom_nil]
  | cons b p ih =>
    cases F with
    | null => simp [Node.readTo, Node.at]
    | mk typ hash parent l r level rng =>
      have hi : i < n := Nat.lt_of_lt_of_le (lt_bfsFrom_cons i b p) h
      rw [bfsFrom_cons] at h
      cases b
      · simp only [Bool.false_eq_true, if_false] at h
        simp [Node.readTo, hi, Node.at, bfsFrom_cons, ih l (2 * i + 1) h]
      · simp only [if_true] at h
        simp [Node.readTo, hi, Node.at, bfsFrom_cons, ih r (2 * i + 2) h]

/-- Reading the entry of index `n` replaces the node of that index. -/
theorem Node.readTo_put (n : Nat) (F : Node) (i : Nat) (p : Path) (h : bfsFrom i p = n) :
    (F.readTo n i).put p ((F.at p).readTo (n + 1) n) = F.readTo (n + 1) i := by
  induction p generalizing F i with
  | nil =>
    rw [bfsFrom_nil] at h
    subst h
    simp [Node.put_nil, Node.at_nil]
  | cons b p ih =>
    cases F with
    | null => simp [Node.readTo, Node.put]
    | mk typ hash parent l r level rng =>
      have hi : i < n := by
        have := lt_bfsFrom_cons i b p
        omega
      have hi' : i < n + 1 := by omega
      rw [bfsFrom_cons] at h
      cases b
      · simp only [Bool.false_eq_true, if_false] at h
        have hr := Node.readTo_skip n r (2 * i + 2) (fun q hq => by
          rw [← h] at hq
          exact bfsFrom_left_ne_right i p q hq.symm)
        simp [Node.readTo, hi, hi', Node.put, Node.at, ih l (2 * i + 1) h, hr]
      · simp only [if_true] at h
        have hl := Node.readTo_skip n l (2 * i + 1) (fun q hq => by
          rw [← h] at hq
          exact bfsFrom_left_ne_right i q p hq)
        simp [Node.readTo, hi, hi', Node.put, Node.at, ih r (2 * i + 2) h, hl]

theorem allPaths_length (d : Nat) : (allPaths d).length = 2 ^ (d + 1) - 1 := by
  induction d with
  | zero => rfl
  | succ d ih =>
    have h1 : 1 ≤ 2 ^ (d + 1) := Nat.one_le_two_pow
    rw [allPaths, List.length_append, ih, levelPaths_length, pow_succ 2 (d + 1)]
    omega

theorem bfsIndex_lt (p : Path) : bfsIndex p + 1 < 2 ^ (p.length + 1) := by
  have h := bfsIndex_eq p
  have hx := pathNum_lt p
  rw [pow_succ]
  omega

theorem allPaths_getElem? {d : Nat} {p : Path} (hp : p.length ≤ d) :
    (allPaths d)[bfsIndex p]? = some p := by
  induction d with
  | zero =>
    have hp0 : p = [] := List.length_eq_zero.mp (Nat.le_zero.mp hp)
    subst hp0
    rfl
  | succ d ih =>
    have hlt := bfsIndex_lt p
    have heq := bfsIndex_eq p
    rcases Nat.lt_or_ge p.length (d + 1) with h | h
    · have hpow : 2 ^ (p.length + 1) ≤ 2 ^ (d + 1) := Nat.pow_le_pow_right (by decide) h
      rw [allPaths, List.getElem?_append_left (by rw [allPaths_length]; omega)]
      exact ih (by omega)
    · have hlen : p.length = d + 1 := by omega
      have h1 : 1 ≤ 2 ^ (d + 1) := Nat.one_le_two_pow
      rw [hlen] at heq
      rw [allPaths, List.getElem?_append_right (by rw [allPaths_length]; omega),
        allPaths_length]
      have e : bfsIndex p - (2 ^ (d + 1) - 1) = pathNum p := by omega
      rw [e]
      exact levelPaths_getElem? hlen

/-- Every index below the number of positions is the breadth-first index of a
position. -/
theorem exists_bfsIndex (d n : Nat) (hn : n < 2 ^ (d + 1) - 1) :
    ∃ p : Path, p.length ≤ d ∧ bfsIndex p = n := by
  induction d with
  | zero =>
    refine ⟨[], Nat.le_refl _, ?_⟩
    simp at hn
    simp [bfsIndex, hn]
  | succ d ih =>
    rcases Nat.lt_or_ge n (2 ^ (d + 1) - 1) with h | h
    · obtain ⟨p, hp, hb⟩ := ih h
      exact ⟨p, by omega, hb⟩
    · have h1 : 1 ≤ 2 ^ (d + 1) := Nat.one_le_two_pow
      have h2 : 2 ^ (d + 1 + 1) = 2 * 2 ^ (d + 1) := by rw [pow_succ]; ring
      have hm : n - (2 ^ (d + 1) - 1) < (levelPaths (d + 1)).length := by
        rw [levelPaths_length]
        omega
      have hnum : pathNum ((levelPaths (d + 1)).get ⟨n - (2 ^ (d + 1) - 1), hm⟩)
          = n - (2 ^ (d + 1) - 1) := by
        have hmap := map_pathNum_levelPaths (d + 1)
        have := congrArg (fun l => l[n - (2 ^ (d + 1) - 1)]?) hmap
        simp only [List.getElem?_map, List.getElem?_eq_getElem hm, Option.map_some'] at this
        rw [List.getElem?_range (by rw [levelPaths_length] at hm; exact hm)] at this
        simpa using this
      have hlen : ((levelPaths (d + 1)).get ⟨n - (2 ^ (d + 1) - 1), hm⟩).length = d + 1 :=
        mem_levelPaths.mp (List.get_mem _ _ _)
      refine ⟨_, Nat.le_of_eq hlen, ?_⟩
      have heq := bfsIndex_eq ((levelPaths (d + 1)).get ⟨n - (2 ^ (d + 1) - 1), hm⟩)
      rw [hlen, hnum] at heq
      omega

theorem Node.relevel_at (n : Node) (lv : Nat) (p : Path) :
    (n.relevel lv).at p = (n.at p).relevel (lv + p.length) := by
  induction p generalizing n lv with
  | nil => simp [Node.at_nil]
  | cons b p ih =>
    cases n with
    | null => simp [Node.relevel, Node.at]
    | mk typ hash parent l r level rng =>
      have e : lv + 1 + p.length = lv + (p.length + 1) := by omega
      cases b <;> simp [Node.relevel, Node.at, ih, e]

/-- One round of the loop of `Deserialize` when `n` entries are read: the
entry is written to the node of breadth-first index `n`, which gets its two
fresh children or its leaf mark. -/
theorem deserializeStep_readTo (t : MerkleTree) {d : Nat} {G : Node} (hb : G.Built t d)
    (hd : t.depth = d) (n : Nat) (hn : n < 2 ^ (d + 1) - 1) (h : Option Bytes)
    (hh : ∀ p : Path, p.length ≤ d → bfsIndex p = n → (G.at p).hash = h) :
    deserializeStep t ((G.relevel 0).readTo n 0, ((allPaths d).drop n).take (n + 1)) h
      = Except.ok ((G.relevel 0).readTo (n + 1) 0,
          ((allPaths d).drop (n + 1)).take (n + 1 + 1)) := by
  obtain ⟨p, hp, hpn⟩ := exists_bfsIndex d n hn
  have hA : (allPaths d)[n]? = some p := by
    rw [← hpn]
    exact allPaths_getElem? hp
  have hnl : n < (allPaths d).length := by
    rw [allPaths_length]
    exact hn
  have hAn : (allPaths d)[n] = p := by
    rw [List.getElem?_eq_getElem hnl] at hA
    exact Option.some.inj hA
  have hQ : ((allPaths d).drop n).take (n + 1)
      = p :: ((allPaths d).drop (n + 1)).take n := by
    rw [List.drop_eq_getElem_cons hnl, List.take_succ_cons, hAn]
  have hat : ((G.relevel 0).readTo n 0).at p = ((G.at p).relevel p.length).readTo n n := by
    rw [Node.readTo_at n _ 0 p (by rw [bfsFrom_zero, hpn]), bfsFrom_zero, hpn,
      Node.relevel_at, Nat.zero_add]
  have hput := Node.readTo_put n (G.relevel 0) 0 p (by rw [bfsFrom_zero, hpn])
  rw [Node.relevel_at, Nat.zero_add] at hput
  have hbp := hb.built_at hp
  have hhp := hh p hp hpn
  have heq := bfsIndex_eq p
  rw [hpn] at heq
  have hx := pathNum_lt p
  cases hG : G.at p with
  | null =>
    rw [hG] at hbp
    exact absurd hbp (by simp [Node.Built])
  | mk typ hash parent l r level rng =>
    rw [hG] at hbp hat hput hhp
    simp only [Node.hash] at hhp
    subst hhp
    cases hk : d - p.length with
    | zero =>
      have hpd : p.length = d := by omega
      rw [hk] at hbp
      simp only [Node.Built] at hbp
      obtain ⟨b1, b2, b3⟩ := hbp
      subst b1 b2 b3
      have hlv : ¬ p.length < t.depth := by omega
      have hlen : ((allPaths d).drop (n + 1)).length ≤ n := by
        rw [List.length_drop, allPaths_length, ← hpd, pow_succ]
        omega
      have hq : ((allPaths d).drop (n + 1)).take (n + 1 + 1)
          = ((allPaths d).drop (n + 1)).take n := by
        rw [List.take_of_length_le hlen, List.take_of_length_le (by omega)]
      simp only [Node.relevel, Node.readTo, Nat.lt_irrefl, if_false, Nat.lt_succ_self,
        if_true] at hat hput
      rw [hq, ← hput]
      simp only [deserializeStep, hQ, hat, hlv, if_false]
    | succ k =>
      have hpd : p.length < d := by omega
      rw [hk] at hbp
      simp only [Node.Built] at hbp
      obtain ⟨b1, b2, b3, b4, b5, b6, b7⟩ := hbp
      subst b1
      have hlv : p.length < t.depth := by omega
      cases l with
      | null => exact absurd b6 (by simp [Node.Built])
      | mk lt lh lp ll lr llv lrng =>
        cases r with
        | null => exact absurd b7 (by simp [Node.Built])
        | mk rt rh rp rl rr rlv rrng =>
          simp only [Node.hasParent, Node.range] at b2 b3 b4 b5
          subst b2 b3 b4 b5
          have hpow : 2 ^ (p.length + 1) ≤ 2 ^ d := Nat.pow_le_pow_right (by decide) hpd
          have h2 : 2 ^ (p.length + 1) = 2 * 2 ^ p.length := by rw [pow_succ]; ring
          have h3 : 2 ^ (d + 1) = 2 * 2 ^ d := by rw [pow_succ]; ring
          have hl : (allPaths d)[n + 1 + n]? = some (p ++ [false]) := by
            have := allPaths_getElem? (d := d) (p := p ++ [false]) (by simp; omega)
            rw [bfsIndex_snoc, hpn] at this
            simp only [Bool.false_eq_true, if_false] at this
            have e : n + 1 + n = 2 * n + 1 := by omega
            rw [e]
            exact this
          have hr : (allPaths d)[n + 1 + (n + 1)]? = some (p ++ [true]) := by
            have := allPaths_getElem? (d := d) (p := p ++ [true]) (by simp; omega)
            rw [bfsIndex_snoc, hpn] at this
            simp only [if_true] at this
            have e : n + 1 + (n + 1) = 2 * n + 2 := by omega
            rw [e]
            exact this
          have hq : ((allPaths d).drop (n + 1)).take (n + 1 + 1)
              = ((allPaths d).drop (n + 1)).take n ++ [p ++ [false], p ++ [true]] := by
            rw [List.take_succ, List.take_succ, List.getElem?_drop, List.getElem?_drop, hl, hr]
            simp
          have hn1 : ¬ 2 * n + 1 < n + 1 := by omega
          have hn2 : ¬ 2 * n + 2 < n + 1 := by omega
          simp only [Node.relevel, Node.readTo, Nat.lt_irrefl, if_false, Nat.lt_succ_self,
            if_true, hn1, hn2] at hat hput
          rw [hq, ← hput]
          simp only [deserializeStep, hQ, hat, hlv, if_true]

/-- The loop of `Deserialize` on the `n` first entries of a flat tree that is
not too long: the tree it holds then, and its queue. -/
theorem deserializeLoop_readTo (t : MerkleTree) {d : Nat} (hd : t.depth = d) (rng : Range)
    (flat : List (Option Bytes)) (hlen : flat.length ≤ 2 ^ (d + 1) - 1) (n : Nat)
    (hn : n ≤ flat.length) :
    deserializeLoop t (Node.mk NodeInternal none false Node.null Node.null 0 rng, [[]])
        (flat.take n)
      = Except.ok
          ((((t.buildTree (Node.new false rng) d).withFlat flat 0).relevel 0).readTo n 0,
            ((allPaths d).drop n).take (n + 1)) := by
  have hb0 := buildTree_built t d false rng
  have hs := buildTree_shape t d false rng
  have ss := Node.withFlat_sameShape flat (t.buildTree (Node.new false rng) d) 0
  have hb := Node.Built.of_sameShape ss hb0
  induction n with
  | zero =>
    have hp := (Node.sameShape_hasParent ss).symm.trans hs.2.1
    have hr := (Node.sameShape_range ss).symm.trans hs.2.2
    have hq : ((allPaths d).drop 0).take (0 + 1) = [[]] := by
      have h0 := allPaths_getElem? (d := d) (p := []) (Nat.zero_le _)
      cases hA : allPaths d with
      | nil => rw [hA] at h0; simp [bfsIndex] at h0
      | cons a as =>
        rw [hA] at h0
        simp only [bfsIndex, List.foldl_nil, List.getElem?_cons_zero, Option.some.injEq] at h0
        simp [h0]
    rw [hq]
    cases hn : (t.buildTree (Node.new false rng) d).withFlat flat 0 with
    | null => rw [hn] at hb; exact absurd hb (by simp [Node.Built])
    | mk typ hash parent l r level g =>
      rw [hn] at hp hr
      simp only [Node.hasParent, Node.range] at hp hr
      simp [deserializeLoop, Node.relevel, Node.readTo, hp, hr]
  | succ n ih =>
    have hlt : n < flat.length := hn
    have htake : flat.take (n + 1) = flat.take n ++ [flat.get ⟨n, hlt⟩] := by
      rw [List.take_succ, List.getElem?_eq_getElem hlt]
      rfl
    have hh : ∀ p : Path, p.length ≤ d → bfsIndex p = n →
        (((t.buildTree (Node.new false rng) d).withFlat flat 0).at p).hash
          = flat.get ⟨n, hlt⟩ := by
      intro p hp hpn
      have hne : (t.buildTree (Node.new false rng) d).at p ≠ Node.null :=
        (hs.1.at hp).ne_null
      have := Node.withFlat_at_hash flat 0 hne
      rw [this]
      have e : List.foldl (fun i b => 2 * i + if b = true then 2 else 1) 0 p = n := hpn
      rw [e, List.getD_eq_getElem?_getD, List.getElem?_eq_getElem hlt]
      rfl
    rw [htake, deserializeLoop_append, ih (by omega)]
    simp only
    rw [deserializeLoop_cons, deserializeStep_readTo t hb hd n (by omega) _ hh]
    rfl

/-- A node whose entry is not read is absent or the record its parent
allocated: no hash, no children, no leaf mark. -/
theorem Node.readTo_unread (n : Nat) (F : Node) (i : Nat) (p : Path) (h : n ≤ bfsFrom i p) :
    (F.readTo n i).at p = Node.null
      ∨ ∃ par lv rng, (F.readTo n i).at p
          = Node.mk NodeInternal none par Node.null Node.null lv rng := by
  induction p generalizing F i with
  | nil =>
    rw [bfsFrom_nil] at h
    cases F with
    | null => exact Or.inl rfl
    | mk typ hash parent l r level rng =>
      have hi : ¬ i < n := by omega
      exact Or.inr ⟨parent, level, rng, by simp [Node.readTo, hi, Node.at]⟩
  | cons b p ih =>
    cases F with
    | null => exact Or.inl (by simp [Node.readTo, Node.at])
    | mk typ hash parent l r level rng =>
      by_cases hi : i < n
      · rw [bfsFrom_cons] at h
        cases b
        · simp only [Bool.false_eq_true, if_false] at h
          simpa [Node.readTo, hi, Node.at] using ih l (2 * i + 1) h
        · simp only [if_true] at h
          simpa [Node.readTo, hi, Node.at] using ih r (2 * i + 2) h
      · exact Or.inl (by cases b <;> simp [Node.readTo, hi, Node.at, Node.at_null])

/-- A node whose entry is read has the hash and the leaf mark of the complete
tree. -/
theorem Node.readTo_read (n : Nat) (F : Node) (i : Nat) (p : Path) (h : bfsFrom i p < n) :
    ((F.readTo n i).at p).hash = (F.at p).hash
      ∧ ((F.readTo n i).at p).isLeaf = (F.at p).isLeaf := by
  rw [Node.readTo_at n F i p (Nat.le_of_lt h)]
  cases F.at p with
  | null => exact ⟨rfl, rfl⟩
  | mk typ hash parent l r level rng => simp [Node.readTo, h, Node.hash, Node.isLeaf]

/-- C13, amended: Deserialize fails, with an index out of range on the empty
queue, for every input whose FlatTree is longer than 2^(Depth+1) - 1; for
every input whose FlatTree is not longer than that, too short ones included,
it does not fail and returns a tree with the metadata of the input.  With
`n` entries, the root of that tree is the complete tree of that depth cut
after its `n` first nodes in breadth-first order: a node of index below `n`
carries its entry, and the leaf mark at depth Depth; a node of index `n` or
more is absent or is left as its parent allocated it, without hash, without
children and without leaf mark. -/
theorem C13_deserialize_length (s : MerkleTreeSerializable) :
    (2 ^ (s.Depth + 1) - 1 < s.FlatTree.length →
        Deserialize s = Except.error Panic.indexOutOfRange)
      ∧ (s.FlatTree.length ≤ 2 ^ (s.Depth + 1) - 1 →
          ∃ t, Deserialize s = Except.ok t ∧ t.filled = false ∧ t.min = s.Min
            ∧ t.max = s.Max ∧ t.fullRange = s.FullRange ∧ t.depth = s.Depth
            ∧ t.root = (((MerkleTree.buildTree
                    ⟨false, s.Min, s.Max, s.FullRange, s.Depth, Node.null⟩
                    (Node.new false s.FullRange) s.Depth).withFlat s.FlatTree 0).relevel
                  0).readTo s.FlatTree.length 0
            ∧ (∀ p : Path, p.length ≤ s.Depth → bfsIndex p < s.FlatTree.length →
                s.FlatTree[bfsIndex p]? = some (t.root.at p).hash
                ∧ (t.root.at p).isLeaf = Except.ok (decide (p.length = s.Depth)))
            ∧ (∀ p : Path, s.FlatTree.length ≤ bfsIndex p →
                t.root.at p = Node.null
                ∨ ∃ par lv rng, t.root.at p
                    = Node.mk NodeInternal none par Node.null Node.null lv rng)) := by
  constructor
  · intro hlong
    have hsplit := (List.take_append_drop (2 ^ (s.Depth + 1) - 1) s.FlatTree).symm
    have htake : (s.FlatTree.take (2 ^ (s.Depth + 1) - 1)).length = 2 ^ (s.Depth + 1) - 1 := by
      rw [List.length_take]
      omega
    have hfull := deserializeLoop_full
      ⟨false, s.Min, s.Max, s.FullRange, s.Depth, Node.null⟩ s.FullRange _ htake
    cases hdrop : s.FlatTree.drop (2 ^ (s.Depth + 1) - 1) with
    | nil =>
      have := congrArg List.length hdrop
      simp only [List.length_drop, List.length_nil] at this
      omega
    | cons x rest =>
      rw [hdrop] at hsplit
      unfold Deserialize
      simp only
      rw [hsplit, deserializeLoop_append, hfull]
      simp [deserializeLoop_cons, deserializeStep]
  · intro hshort
    have key := deserializeLoop_readTo
      ⟨false, s.Min, s.Max, s.FullRange, s.Depth, Node.null⟩ rfl s.FullRange s.FlatTree
      hshort s.FlatTree.length (Nat.le_refl _)
    rw [List.take_length] at key
    have hs := buildTree_shape ⟨false, s.Min, s.Max, s.FullRange, s.Depth, Node.null⟩
      s.Depth false s.FullRange
    refine ⟨⟨false, s.Min, s.Max, s.FullRange, s.Depth,
        (((MerkleTree.buildTree ⟨false, s.Min, s.Max, s.FullRange, s.Depth, Node.null⟩
          (Node.new false s.FullRange) s.Depth).withFlat s.FlatTree 0).relevel 0).readTo
            s.FlatTree.length 0⟩,
      by simp only [Deserialize, key], rfl, rfl, rfl, rfl, rfl, rfl, ?_, ?_⟩
    · intro p hp hlt
      have hne : (MerkleTree.buildTree ⟨false, s.Min, s.Max, s.FullRange, s.Depth, Node.null⟩
          (Node.new false s.FullRange) s.Depth).at p ≠ Node.null := (hs.1.at hp).ne_null
      have hc : ((MerkleTree.buildTree ⟨false, s.Min, s.Max, s.FullRange, s.Depth, Node.null⟩
          (Node.new false s.FullRange) s.Depth).withFlat s.FlatTree 0).relevel 0 |>.Complete
            s.Depth :=
        Node.Complete_of_sameShape (Node.sameShape_symm (Node.relevel_sameShape _ _))
          (Node.Complete_of_sameShape (Node.withFlat_sameShape _ _ _) hs.1)
      obtain ⟨h1, h2⟩ := Node.readTo_read s.FlatTree.length
        (((MerkleTree.buildTree ⟨false, s.Min, s.Max, s.FullRange, s.Depth, Node.null⟩
          (Node.new false s.FullRange) s.Depth).withFlat s.FlatTree 0).relevel 0) 0 p hlt
      constructor
      · rw [h1, Node.relevel_at_hash, Node.withFlat_at_hash s.FlatTree 0 hne]
        show s.FlatTree[bfsIndex p]? = some (s.FlatTree.getD (bfsIndex p) none)
        rw [List.getD_eq_getElem?_getD, List.getElem?_eq_getElem hlt]
        rfl
      · rw [h2]
        rcases Nat.lt_or_ge p.length s.Depth with h | h
        · rw [isLeaf_internal hc h]
          simp [Nat.ne_of_lt h]
        · have e : p.length = s.Depth := by omega
          rw [isLeaf_complete hc e]
          simp [e]
    · intro p hp
      exact Node.readTo_unread _ _ 0 p hp

/-- C13 fails as stated: on the flat tree of depth 2 that stops after two
entries instead of seven, Deserialize returns a tree; its unread nodes have
no children, so that Fill on it dereferences nil. -/
theorem C13_counterexample :
    shortFlat.FlatTree.length < 2 ^ (shortFlat.Depth + 1) - 1
      ∧ ∃ t, Deserialize shortFlat = Except.ok t
          ∧ ∀ H : Bytes → Bytes, t.Fill H = Except.error Panic.nilDereference :=
  ⟨by decide, _, rfl, fun _ => rfl⟩

/-- C13 amended, on a flat tree of depth 2 with two entries, which is read,
and on the same with eight entries, which fails. -/
theorem C13_deserialize_length_witness :
    (∃ t, Deserialize shortFlat = Except.ok t ∧ t.filled = false ∧ t.min = [0]
        ∧ t.max = [255] ∧ t.fullRange = ⟨[16], [31]⟩ ∧ t.depth = 2
        ∧ t.root = (((MerkleTree.buildTree
                ⟨false, shortFlat.Min, shortFlat.Max, shortFlat.FullRange, shortFlat.Depth,
                  Node.null⟩
                (Node.new false shortFlat.FullRange) shortFlat.Depth).withFlat
                  shortFlat.FlatTree 0).relevel 0).readTo shortFlat.FlatTree.length 0
        ∧ (∀ p : Path, p.length ≤ shortFlat.Depth →
            bfsIndex p < shortFlat.FlatTree.length →
            shortFlat.FlatTree[bfsIndex p]? = some (t.root.at p).hash
            ∧ (t.root.at p).isLeaf = Except.ok (decide (p.length = shortFlat.Depth)))
        ∧ (∀ p : Path, shortFlat.FlatTree.length ≤ bfsIndex p →
            t.root.at p = Node.null
            ∨ ∃ par lv rng, t.root.at p
                = Node.mk NodeInternal none par Node.null Node.null lv rng))
      ∧ Deserialize { shortFlat with FlatTree := List.replicate 8 none }
          = Except.error Panic.indexOutOfRange :=
  ⟨(C13_deserialize_length shortFlat).2 (by decide),
    (C13_deserialize_length { shortFlat with FlatTree := List.replicate 8 none }).1
      (by decide)⟩

/-! ## Characterisation of Diff -/

theorem Differ_cons (n1 n2 : Node) (c : Bool) (p : Path) :
    Differ n1 n2 (c :: p) ↔ Differ (n1.at [c]) (n2.at [c]) p := by
  unfold Differ
  rw [show c :: p = [c] ++ p from rfl, Node.at_append, Node.at_append]

theorem Divergent_cons (k : Nat) (n1 n2 : Node) (c : Bool) (p : Path) :
    Divergent (k + 1) n1 n2 (c :: p) ↔ Divergent k (n1.at [c]) (n2.at [c]) p := by
  unfold Divergent
  constructor
  · intro h r hr
    exact (Differ_cons n1 n2 c (p ++ r)).mp (h r (by simpa using hr))
  · intro h r hr
    exact (Differ_cons n1 n2 c (p ++ r)).mpr (h r (by simpa using hr))

theorem Divergent_nil_succ (k : Nat) (n1 n2 : Node) :
    Divergent (k + 1) n1 n2 [] ↔ Differ n1 n2 []
      ∧ Divergent k (n1.at [false]) (n2.at [false]) []
      ∧ Divergent k (n1.at [true]) (n2.at [true]) [] := by
  constructor
  · intro h
    refine ⟨h [] (by simp), ?_, ?_⟩
    · exact (Divergent_cons k n1 n2 false []).mp (fun r hr => h (false :: r) (by simpa using hr))
    · exact (Divergent_cons k n1 n2 true []).mp (fun r hr => h (true :: r) (by simpa using hr))
  · rintro ⟨h0, hl, hr⟩ r hlen
    cases r with
    | nil => exact h0
    | cons c r =>
      cases c
      · exact (Divergent_cons k n1 n2 false []).mpr hl r (by simpa using hlen)
      · exact (Divergent_cons k n1 n2 true []).mpr hr r (by simpa using hlen)

theorem Divergent_nil_zero (n1 n2 : Node) : Divergent 0 n1 n2 [] ↔ Differ n1 n2 [] := by
  constructor
  · intro h
    exact h [] (by simp)
  · intro h r hr
    have : r = [] := by simpa using hr
    subst this
    exact h

theorem AncestorsDiffer_cons (n1 n2 : Node) (c : Bool) (p : Path) :
    AncestorsDiffer n1 n2 (c :: p)
      ↔ Differ n1 n2 [] ∧ AncestorsDiffer (n1.at [c]) (n2.at [c]) p := by
  unfold AncestorsDiffer
  constructor
  · intro h
    refine ⟨h 0 (by simp), fun j hj => ?_⟩
    have := h (j + 1) (by simpa using hj)
    rw [List.take_succ_cons] at this
    exact (Differ_cons n1 n2 c _).mp this
  · rintro ⟨h0, h⟩ j hj
    cases j with
    | zero => exact h0
    | succ j =>
      rw [List.take_succ_cons]
      exact (Differ_cons n1 n2 c _).mpr (h j (by simpa using hj))

theorem AncestorsDiffer_nil (n1 n2 : Node) : AncestorsDiffer n1 n2 [] :=
  fun j hj => absurd hj (by simp)

theorem sibling_snoc (q : Path) (b : Bool) : sibling (q ++ [b]) = q ++ [!b] := by
  induction q with
  | nil => rfl
  | cons c q ih =>
    cases q with
    | nil => rfl
    | cons d q => simpa [sibling] using ih

theorem sibling_length (p : Path) : (sibling p).length = p.length := by
  induction p with
  | nil => rfl
  | cons c p ih =>
    cases p with
    | nil => rfl
    | cons d p => simpa [sibling] using ih

/-- One level of `diff` at two internal nodes whose hashes differ, given what
the two recursive calls return. -/
theorem diff_step (h1 h2 : Option Bytes) (par par2 : Bool) (l1 r1 l2 r2 : Node)
    (v1 v2 : Nat) (g : Range) (res res1 res2 : List Range) (lcon rcon : consistency)
    (h0 : ¬ bytesCompare (hashBytes h1) (hashBytes h2) = 0)
    (nl : l1 ≠ Node.null) (nr : r1 ≠ Node.null)
    (hl : diff l1 l2 res = Except.ok (lcon, res1))
    (hr : diff r1 r2 res1 = Except.ok (rcon, res2)) :
    diff (Node.mk NodeInternal h1 par l1 r1 v1 g) (Node.mk NodeInternal h2 par2 l2 r2 v2 g) res
      = Except.ok
        (if lcon = FullyInconsistent ∧ rcon = FullyInconsistent then
          (FullyInconsistent, if par = false then res2 ++ [g] else res2)
        else if rcon = FullyInconsistent then (PartiallyInconsistent, res2 ++ [r1.range])
        else if lcon = FullyInconsistent then (PartiallyInconsistent, res2 ++ [l1.range])
        else (PartiallyInconsistent, res2)) := by
  cases l1 with
  | null => exact absurd rfl nl
  | mk lt lh lp ll lr lv lg =>
    cases r1 with
    | null => exact absurd rfl nr
    | mk rt rh rp rl rr rv rg =>
      rw [diff]
      simp only [ne_eq, not_true_eq_false, if_false, Range.Equal_self, Bool.true_eq_false,
        h0, reduceCtorEq, false_and, and_self, hl, hr, Node.range]
      by_cases hL : lcon = FullyInconsistent <;> by_cases hR : rcon = FullyInconsistent
        <;> by_cases hp : par = false <;> simp [hL, hR, hp]

/-- What `diff` does on two same-shaped complete trees: it returns; it
reports full inconsistency exactly when the hashes differ at every node; and
the Ranges it adds are those of the positions `p`, each once, such that the
hashes differ at the node at `p`, at all nodes below it and at all its
ancestors, and such that the sibling of `p` is not in that case, or `p` is
the top node, internal and without parent. -/
theorem diff_reported {k : Nat} {m1 m2 : Node} (res : List Range)
    (c : m1.Complete k) (s : m1.sameShape m2 = true) :
    ∃ (con : consistency) (ps : List Path), diff m1 m2 res = Except.ok (con, res ++ ps.map (fun p => (m1.at p).range))
      ∧ (con = FullyInconsistent ↔ Divergent k m1 m2 [])
      ∧ ps.Nodup
      ∧ ∀ p : Path, p ∈ ps ↔
          (p.length ≤ k ∧ Divergent k m1 m2 p ∧ AncestorsDiffer m1 m2 p
            ∧ (p = [] → m1.hasParent = false ∧ 0 < k)
            ∧ (p ≠ [] → ¬ Divergent k m1 m2 (sibling p))) := by
  induction k generalizing m1 m2 res with
  | zero =>
    cases m1 with
    | null => exact absurd c (by simp [Node.Complete])
    | mk typ h1 par l1 r1 v1 g =>
      cases m2 with
      | null => simp [Node.sameShape] at s
      | mk typ2 h2 par2 l2 r2 v2 g2 =>
        simp only [Node.sameShape, Bool.and_eq_true, decide_eq_true_eq] at s
        obtain ⟨⟨⟨⟨a1, -⟩, a3⟩, -⟩, -⟩ := s
        subst a1 a3
        simp only [Node.Complete] at c
        subst c
        have hmem : ∀ p : Path, ¬ (p.length ≤ 0 ∧
            Divergent 0 (Node.mk NodeLeaf h1 par l1 r1 v1 g)
              (Node.mk NodeLeaf h2 par2 l2 r2 v2 g) p
            ∧ AncestorsDiffer (Node.mk NodeLeaf h1 par l1 r1 v1 g)
              (Node.mk NodeLeaf h2 par2 l2 r2 v2 g) p
            ∧ (p = [] → (Node.mk NodeLeaf h1 par l1 r1 v1 g).hasParent = false ∧ 0 < 0)
            ∧ (p ≠ [] → ¬ Divergent 0 (Node.mk NodeLeaf h1 par l1 r1 v1 g)
              (Node.mk NodeLeaf h2 par2 l2 r2 v2 g) (sibling p))) := by
          rintro p ⟨hp, -, -, h, -⟩
          have : p = [] := List.length_eq_zero.mp (Nat.le_zero.mp hp)
          exact absurd (h this).2 (Nat.lt_irrefl 0)
        by_cases h0 : bytesCompare (hashBytes h1) (hashBytes h2) = 0
        · refine ⟨FullyConsistent, [], by simp [diff, Range.Equal_self, h0], ?_,
            List.nodup_nil, fun p => ⟨fun h => by simp at h, fun h => absurd h (hmem p)⟩⟩
          rw [Divergent_nil_zero]
          simp [Differ, Node.at, Node.hash, byteEqual, h0]
        · refine ⟨FullyInconsistent, [], by simp [diff, Range.Equal_self, h0], ?_,
            List.nodup_nil, fun p => ⟨fun h => by simp at h, fun h => absurd h (hmem p)⟩⟩
          rw [Divergent_nil_zero]
          simp [Differ, Node.at, Node.hash, byteEqual, h0]
  | succ k ih =>
    cases m1 with
    | null => exact absurd c (by simp [Node.Complete])
    | mk typ h1 par l1 r1 v1 g =>
      cases m2 with
      | null => simp [Node.sameShape] at s
      | mk typ2 h2 par2 l2 r2 v2 g2 =>
        simp only [Node.sameShape, Bool.and_eq_true, decide_eq_true_eq] at s
        obtain ⟨⟨⟨⟨a1, -⟩, a3⟩, a4⟩, a5⟩ := s
        subst a1 a3
        simp only [Node.Complete] at c
        obtain ⟨c1, c2, c3, c4, c5⟩ := c
        subst c1
        -- the two trees, unfolded one level
        have eL1 : (Node.mk NodeInternal h1 par l1 r1 v1 g).at [false] = l1 := by
          simp [Node.at, Node.at_nil]
        have eR1 : (Node.mk NodeInternal h1 par l1 r1 v1 g).at [true] = r1 := by
          simp [Node.at, Node.at_nil]
        have eL2 : (Node.mk NodeInternal h2 par2 l2 r2 v2 g).at [false] = l2 := by
          simp [Node.at, Node.at_nil]
        have eR2 : (Node.mk NodeInternal h2 par2 l2 r2 v2 g).at [true] = r2 := by
          simp [Node.at, Node.at_nil]
        have dvl := fun p => Divergent_cons k (Node.mk NodeInternal h1 par l1 r1 v1 g)
          (Node.mk NodeInternal h2 par2 l2 r2 v2 g) false p
        have dvr := fun p => Divergent_cons k (Node.mk NodeInternal h1 par l1 r1 v1 g)
          (Node.mk NodeInternal h2 par2 l2 r2 v2 g) true p
        have dv0 := Divergent_nil_succ k (Node.mk NodeInternal h1 par l1 r1 v1 g)
          (Node.mk NodeInternal h2 par2 l2 r2 v2 g)
        have anl := fun p => AncestorsDiffer_cons (Node.mk NodeInternal h1 par l1 r1 v1 g)
          (Node.mk NodeInternal h2 par2 l2 r2 v2 g) false p
        have anr := fun p => AncestorsDiffer_cons (Node.mk NodeInternal h1 par l1 r1 v1 g)
          (Node.mk NodeInternal h2 par2 l2 r2 v2 g) true p
        simp only [eL1, eL2] at dvl anl
        simp only [eR1, eR2] at dvr anr
        simp only [eL1, eL2, eR1, eR2] at dv0
        have d0 : Differ (Node.mk NodeInternal h1 par l1 r1 v1 g)
            (Node.mk NodeInternal h2 par2 l2 r2 v2 g) []
            ↔ ¬ bytesCompare (hashBytes h1) (hashBytes h2) = 0 := by
          simp [Differ, Node.at, Node.hash, byteEqual]
        by_cases h0 : bytesCompare (hashBytes h1) (hashBytes h2) = 0
        · have nd0 : ¬ Differ (Node.mk NodeInternal h1 par l1 r1 v1 g)
              (Node.mk NodeInternal h2 par2 l2 r2 v2 g) [] := fun h => d0.mp h h0
          refine ⟨FullyConsistent, [], by simp [diff, Range.Equal_self, h0], ?_,
            List.nodup_nil, fun p => ⟨fun h => by simp at h, ?_⟩⟩
          · rw [dv0]
            exact ⟨fun h => by simp at h, fun h => absurd h.1 nd0⟩
          · rintro ⟨-, hdv, han, -, -⟩
            cases p with
            | nil => exact absurd (dv0.mp hdv).1 nd0
            | cons b p =>
              cases b
              · exact absurd ((anl p).mp han).1 nd0
              · exact absurd ((anr p).mp han).1 nd0
        · have hd0 : Differ (Node.mk NodeInternal h1 par l1 r1 v1 g)
              (Node.mk NodeInternal h2 par2 l2 r2 v2 g) [] := d0.mpr h0
          obtain ⟨lcon, psl, hl, hlFI, ndl, meml⟩ := ih res c4 a4
          obtain ⟨rcon, psr, hr, hrFI, ndr, memr⟩ :=
            ih (res ++ psl.map (fun p => (l1.at p).range)) c5 a5
          have nil_l : [] ∉ psl := fun h => by
            have := ((meml []).mp h).2.2.2.1 rfl
            rw [c2] at this
            exact absurd this.1 (by simp)
          have nil_r : [] ∉ psr := fun h => by
            have := ((memr []).mp h).2.2.2.1 rfl
            rw [c3] at this
            exact absurd this.1 (by simp)
          have gen : ∀ (con : consistency) (own : List Path),
              diff (Node.mk NodeInternal h1 par l1 r1 v1 g)
                  (Node.mk NodeInternal h2 par2 l2 r2 v2 g) res
                = Except.ok (con, res ++ (psl.map (List.cons false) ++ psr.map (List.cons true)
                    ++ own).map
                    (fun p => ((Node.mk NodeInternal h1 par l1 r1 v1 g).at p).range)) →
              (con = FullyInconsistent ↔ lcon = FullyInconsistent ∧ rcon = FullyInconsistent) →
              own.Nodup →
              (∀ p, p ∈ own ↔
                (p = [] ∧ lcon = FullyInconsistent ∧ rcon = FullyInconsistent ∧ par = false)
                ∨ (p = [true] ∧ rcon = FullyInconsistent ∧ lcon ≠ FullyInconsistent)
                ∨ (p = [false] ∧ lcon = FullyInconsistent ∧ rcon ≠ FullyInconsistent)) →
              ∃ (con : consistency) (ps : List Path), diff (Node.mk NodeInternal h1 par l1 r1 v1 g)
                  (Node.mk NodeInternal h2 par2 l2 r2 v2 g) res
                = Except.ok (con, res ++ ps.map
                    (fun p => ((Node.mk NodeInternal h1 par l1 r1 v1 g).at p).range))
                ∧ (con = FullyInconsistent ↔ Divergent (k + 1)
                    (Node.mk NodeInternal h1 par l1 r1 v1 g)
                    (Node.mk NodeInternal h2 par2 l2 r2 v2 g) [])
                ∧ ps.Nodup
                ∧ ∀ p : Path, p ∈ ps ↔
                    (p.length ≤ k + 1
                      ∧ Divergent (k + 1) (Node.mk NodeInternal h1 par l1 r1 v1 g)
                        (Node.mk NodeInternal h2 par2 l2 r2 v2 g) p
                      ∧ AncestorsDiffer (Node.mk NodeInternal h1 par l1 r1 v1 g)
                        (Node.mk NodeInternal h2 par2 l2 r2 v2 g) p
                      ∧ (p = [] → (Node.mk NodeInternal h1 par l1 r1 v1 g).hasParent = false
                          ∧ 0 < k + 1)
                      ∧ (p ≠ [] → ¬ Divergent (k + 1) (Node.mk NodeInternal h1 par l1 r1 v1 g)
                        (Node.mk NodeInternal h2 par2 l2 r2 v2 g) (sibling p))) := by
            intro con own hdiff hcon hnd hown
            refine ⟨con, _, hdiff, ?_, ?_, ?_⟩
            · rw [hcon, dv0, hlFI, hrFI]
              exact ⟨fun h => ⟨hd0, h.1, h.2⟩, fun h => ⟨h.2.1, h.2.2⟩⟩
            · rw [List.nodup_append, List.nodup_append]
              refine ⟨⟨ndl.map (List.cons_injective), ndr.map (List.cons_injective), ?_⟩,
                hnd, ?_⟩
              · intro p hp hq
                simp only [List.mem_map] at hp hq
                obtain ⟨a, -, rfl⟩ := hp
                obtain ⟨b, -, hb⟩ := hq
                simp at hb
              · intro p hp hq
                simp only [List.mem_append, List.mem_map] at hp
                rcases (hown p).mp hq with ⟨rfl, -⟩ | ⟨rfl, -⟩ | ⟨rfl, -⟩
                · rcases hp with ⟨a, -, ha⟩ | ⟨a, -, ha⟩ <;> simp at ha
                · rcases hp with ⟨a, -, ha⟩ | ⟨a, ha1, ha⟩
                  · simp at ha
                  · simp only [List.cons.injEq, true_and] at ha
                    subst ha
                    exact nil_r ha1
                · rcases hp with ⟨a, ha1, ha⟩ | ⟨a, -, ha⟩
                  · simp only [List.cons.injEq, true_and] at ha
                    subst ha
                    exact nil_l ha1
                  · simp at ha
            · intro p
              simp only [List.mem_append, List.mem_map, hown]
              cases p with
              | nil =>
                simp only [List.length_nil, Nat.zero_le, true_and, ne_eq, not_true_eq_false,
                  false_implies, and_true, Node.hasParent, Nat.succ_pos, forall_const,
                  reduceCtorEq, false_and, or_false, and_false, exists_false, false_or, dv0,
                  hlFI, hrFI]
                constructor
                · rintro ⟨hL, hR, hp⟩
                  exact ⟨⟨hd0, hL, hR⟩, AncestorsDiffer_nil _ _, hp⟩
                · rintro ⟨⟨-, hL, hR⟩, -, hp⟩
                  exact ⟨hL, hR, hp⟩
              | cons b p =>
                cases p with
                | nil =>
                  cases b
                  · simp only [List.cons.injEq, and_true, exists_eq_right, reduceCtorEq,
                      false_and, exists_false, false_or, and_false, or_false, true_and,
                      List.length_singleton, Nat.le_add_left, ne_eq, not_false_eq_true,
                      true_implies, false_implies, sibling, Bool.not_false, dvl, dvr, anl,
                      hlFI, hrFI, Bool.false_eq_true]
                    constructor
                    · rintro (h | ⟨hL, hR⟩)
                      · exact absurd h nil_l
                      · exact ⟨hL, ⟨hd0, AncestorsDiffer_nil _ _⟩, hR⟩
                    · rintro ⟨hL, -, hR⟩
                      exact Or.inr ⟨hL, hR⟩
                  · simp only [List.cons.injEq, and_true, exists_eq_right, reduceCtorEq,
                      false_and, exists_false, false_or, and_false, or_false, true_and,
                      List.length_singleton, Nat.le_add_left, ne_eq, not_false_eq_true,
                      true_implies, false_implies, sibling, Bool.not_true, dvl, dvr, anr,
                      hlFI, hrFI, Bool.true_eq_false]
                    constructor
                    · rintro (h | ⟨hR, hL⟩)
                      · exact absurd h nil_r
                      · exact ⟨hR, ⟨hd0, AncestorsDiffer_nil _ _⟩, hL⟩
                    · rintro ⟨hR, -, hL⟩
                      exact Or.inr ⟨hR, hL⟩
                | cons b' p =>
                  cases b
                  · simp only [List.cons.injEq, reduceCtorEq, false_and, and_false,
                      exists_false, or_false, true_and, exists_eq_right, List.length_cons,
                      Nat.add_le_add_iff_right, ne_eq, not_false_eq_true, true_implies,
                      false_implies, sibling, dvl, anl, meml, and_self, Bool.false_eq_true]
                    constructor
                    · rintro ⟨hlen, hdv, han, hsib⟩
                      exact ⟨hlen, hdv, ⟨hd0, han⟩, hsib⟩
                    · rintro ⟨hlen, hdv, ⟨-, han⟩, hsib⟩
                      exact ⟨hlen, hdv, han, hsib⟩
                  · simp only [List.cons.injEq, reduceCtorEq, false_and, and_false,
                      exists_false, or_false, false_or, true_and, exists_eq_right,
                      List.length_cons, Nat.add_le_add_iff_right, ne_eq, not_false_eq_true,
                      true_implies, false_implies, sibling, dvr, anr, memr, and_self,
                      Bool.true_eq_false]
                    constructor
                    · rintro ⟨hlen, hdv, han, hsib⟩
                      exact ⟨hlen, hdv, ⟨hd0, han⟩, hsib⟩
                    · rintro ⟨hlen, hdv, ⟨-, han⟩, hsib⟩
                      exact ⟨hlen, hdv, han, hsib⟩
          have hstep := diff_step h1 h2 par par2 l1 r1 l2 r2 v1 v2 g res _ _ lcon rcon h0
            c4.ne_null c5.ne_null hl hr
          have hmap : ∀ own : List Path,
              (res ++ (psl.map (List.cons false) ++ psr.map (List.cons true) ++ own).map
                (fun p => ((Node.mk NodeInternal h1 par l1 r1 v1 g).at p).range))
              = res ++ psl.map (fun p => (l1.at p).range)
                  ++ psr.map (fun p => (r1.at p).range)
                  ++ own.map
                    (fun p => ((Node.mk NodeInternal h1 par l1 r1 v1 g).at p).range) := by
            intro own
            simp [List.map_append, List.map_map, Function.comp_def, Node.at_cons_mk]
          by_cases hL : lcon = FullyInconsistent
          · by_cases hR : rcon = FullyInconsistent
            · by_cases hp : par = false
              · refine gen FullyInconsistent [[]] ?_ (by simp [hL, hR]) (by simp) ?_
                · rw [hstep, hmap]
                  simp [hL, hR, hp, Node.at_nil, Node.range]
                · intro p
                  simp [hL, hR, hp]
              · refine gen FullyInconsistent [] ?_ (by simp [hL, hR]) (by simp) ?_
                · rw [hstep, hmap]
                  simp [hL, hR, hp]
                · intro p
                  simp [hL, hR, hp]
            · refine gen PartiallyInconsistent [[false]] ?_ (by simp [hL, hR]) (by simp) ?_
              · rw [hstep, hmap]
                simp [hL, hR, eL1]
              · intro p
                simp [hL, hR]
          · by_cases hR : rcon = FullyInconsistent
            · refine gen PartiallyInconsistent [[true]] ?_ (by simp [hL, hR]) (by simp) ?_
              · rw [hstep, hmap]
                simp [hL, hR, eR1]
              · intro p
                simp [hL, hR]
            · refine gen PartiallyInconsistent [] ?_ (by simp [hL, hR]) (by simp) ?_
              · rw [hstep, hmap]
                simp [hL, hR]
              · intro p
                simp [hL, hR]

/-! ## Claims on the Ranges Diff reports -/

theorem not_Divergent_iff (d : Nat) (n1 n2 : Node) (p : Path) :
    ¬ Divergent d n1 n2 p ↔
      ∃ r : Path, (p ++ r).length ≤ d
        ∧ byteEqual (n1.at (p ++ r)).hash (n2.at (p ++ r)).hash = true := by
  simp only [Divergent, Differ, not_forall, Bool.not_eq_false, exists_prop]

theorem Divergent_append {d : Nat} {n1 n2 : Node} {p : Path} (h : Divergent d n1 n2 p)
    (x : Path) : Divergent d n1 n2 (p ++ x) := by
  intro r hlen
  rw [List.append_assoc] at hlen ⊢
  exact h (x ++ r) hlen

theorem sibling_append (p : Path) {q : Path} (hq : q ≠ []) :
    sibling (p ++ q) = p ++ sibling q := by
  induction p with
  | nil => rfl
  | cons c p ih =>
    cases hpq : p ++ q with
    | nil => simp [hq] at hpq
    | cons b rest =>
      rw [List.cons_append, hpq, sibling, ← hpq, ih, List.cons_append]

/-- Two positions whose Ranges `diff` reports are not one above the other. -/
theorem reported_incomparable {d : Nat} {n1 n2 : Node} {p q : Path}
    (hp : Divergent d n1 n2 p) (hq : q ≠ [] → ¬ Divergent d n1 n2 (sibling q))
    (hne : p ≠ q) : ¬ p <+: q := by
  rintro ⟨x, rfl⟩
  have hx : x ≠ [] := fun h => hne (by simp [h])
  have hpx : p ++ x ≠ [] := by simp [hx]
  have := hq hpx
  rw [sibling_append p hx] at this
  exact this (Divergent_append hp _)

/-- The method Diff on two trees whose roots are complete trees of the same
depth with the same node types and Ranges, the root without parent: both
Fills return, Diff returns, and the Ranges returned are those of a
duplicate-free list of positions, characterised on the trees as Fill left
them. -/
theorem Diff_reported (H : Bytes → Bytes) {d : Nat} {t1 t2 : MerkleTree}
    (c1 : t1.root.Complete d) (par1 : t1.root.hasParent = false)
    (s12 : t1.root.sameShape t2.root = true) :
    ∃ (ps : List Path) (f1 f2 : MerkleTree),
      t1.Fill H = Except.ok f1 ∧ t2.Fill H = Except.ok f2
      ∧ t1.Diff H t2 = Except.ok (ps.map (fun p => (t1.root.at p).range), f1, f2)
      ∧ ps.Nodup
      ∧ ∀ p : Path, p ∈ ps ↔
          (p.length ≤ d ∧ Divergent d f1.root f2.root p
            ∧ AncestorsDiffer f1.root f2.root p
            ∧ (p = [] → 0 < d)
            ∧ (p ≠ [] → ¬ Divergent d f1.root f2.root (sibling p))) := by
  have c2 : t2.root.Complete d := Node.Complete_of_sameShape s12 c1
  obtain ⟨f1, hf1, sf1, -, -⟩ := Fill_complete H c1
  obtain ⟨f2, hf2, sf2, -, -⟩ := Fill_complete H c2
  have cf1 := Node.Complete_of_sameShape sf1 c1
  have sf12 : f1.root.sameShape f2.root = true :=
    Node.sameShape_trans (Node.sameShape_symm sf1) (Node.sameShape_trans s12 sf2)
  have parf : f1.root.hasParent = false := (Node.sameShape_hasParent sf1).symm.trans par1
  obtain ⟨con, ps, hdiff, -, nd, mem⟩ := diff_reported [] cf1 sf12
  have hrange : ∀ p : Path, (f1.root.at p).range = (t1.root.at p).range :=
    fun p => (Node.sameShape_range (Node.sameShape_at sf1 p)).symm
  refine ⟨ps, f1, f2, hf1, hf2, ?_, nd, ?_⟩
  · simp [MerkleTree.Diff, hf1, hf2, hdiff, hrange]
  · intro p
    rw [mem p]
    constructor
    · rintro ⟨a, b, c, e, g⟩
      exact ⟨a, b, c, fun hp => (e hp).2, g⟩
    · rintro ⟨a, b, c, e, g⟩
      exact ⟨a, b, c, fun hp => ⟨parf, e hp⟩, g⟩

/-- C14 fails as stated for trees of depth 0: Deserialize returns, for two
flat trees of depth 0 with the entries "a" and "b", two trees of identical
shape, a single leaf as root.  The hashes differ at the root, which has no
ancestor and no other node in its subtree, yet Diff returns no Range,
whatever the digest is. -/
theorem C14_counterexample :
    Deserialize leafFlatA = Except.ok leafTreeA
      ∧ Deserialize leafFlatB = Except.ok leafTreeB
      ∧ leafTreeA.root.sameShape leafTreeB.root = true
      ∧ leafTreeA.root.isLeaf = Except.ok true
      ∧ ∀ H : Bytes → Bytes, ∃ f1 f2,
          leafTreeA.Fill H = Except.ok f1 ∧ leafTreeB.Fill H = Except.ok f2
          ∧ Divergent 0 f1.root f2.root [] ∧ AncestorsDiffer f1.root f2.root []
          ∧ leafTreeA.Diff H leafTreeB = Except.ok ([], f1, f2) :=
  ⟨rfl, rfl, rfl, rfl, fun _ => ⟨_, _, rfl, rfl,
    (Divergent_nil_zero _ _).mpr rfl, AncestorsDiffer_nil _ _, rfl⟩⟩

/-- C14, amended: for two trees whose roots are complete trees of the same
depth `d` with the same node types and Ranges, the root without parent (the
trees NewMerkleTree builds, and those Deserialize builds from a flat tree of
the full length, in any state of their hashes), Diff returns, and the
sequence it returns is the Range of each position of a duplicate-free list
`ps`, one entry per position.  On the trees as Diff's Fill left them, a
position `p` of the tree is in `ps` exactly when (i) the hashes differ at
`p`, at every node below `p` and at every ancestor of `p`, and (ii) `p` is the
root and the root is not a leaf (`d` is at least 1), or some node in the
subtree of the sibling of `p` has byte-equal hashes.  Two reported positions
are never one above the other, so the reported subtrees are pairwise
disjoint, and no reported position is at or below a node whose hashes are
equal.  For trees of depth 0, a single leaf as root, nothing is returned. -/
theorem C14_diff_reports (H : Bytes → Bytes) (d : Nat) (t1 t2 : MerkleTree)
    (c1 : t1.root.Complete d) (par1 : t1.root.hasParent = false)
    (s12 : t1.root.sameShape t2.root = true) :
    ∃ (ps : List Path) (f1 f2 : MerkleTree),
      t1.Fill H = Except.ok f1 ∧ t2.Fill H = Except.ok f2
      ∧ t1.Diff H t2 = Except.ok (ps.map (fun p => (t1.root.at p).range), f1, f2)
      ∧ ps.Nodup
      ∧ (∀ p : Path, p ∈ ps ↔
          (p.length ≤ d
            ∧ (Divergent d f1.root f2.root p ∧ AncestorsDiffer f1.root f2.root p)
            ∧ ((p = [] ∧ 0 < d) ∨ ∃ r : Path, (sibling p ++ r).length ≤ d
                ∧ byteEqual (f1.root.at (sibling p ++ r)).hash
                    (f2.root.at (sibling p ++ r)).hash = true)))
      ∧ (∀ p ∈ ps, ∀ q ∈ ps, p ≠ q → ¬ Comparable p q)
      ∧ (∀ p ∈ ps, ∀ j, j ≤ p.length → Differ f1.root f2.root (p.take j))
      ∧ (d = 0 → ps = []) := by
  obtain ⟨ps, f1, f2, hf1, hf2, hdiff, nd, mem⟩ := Diff_reported H c1 par1 s12
  refine ⟨ps, f1, f2, hf1, hf2, hdiff, nd, ?_, ?_, ?_, ?_⟩
  · intro p
    rw [mem p]
    constructor
    · rintro ⟨a, b, c, e, g⟩
      refine ⟨a, ⟨b, c⟩, ?_⟩
      by_cases hp : p = []
      · exact Or.inl ⟨hp, e hp⟩
      · exact Or.inr ((not_Divergent_iff _ _ _ _).mp (g hp))
    · rintro ⟨a, ⟨b, c⟩, e⟩
      rcases e with ⟨hp, hd⟩ | e
      · exact ⟨a, b, c, fun _ => hd, fun hne => absurd hp hne⟩
      · have hnd := (not_Divergent_iff _ _ _ _).mpr e
        refine ⟨a, b, c, fun hp => ?_, fun _ => hnd⟩
        subst hp
        exact absurd b hnd
  · intro p hp q hq hne hcomp
    obtain ⟨-, dp, -, -, sp⟩ := (mem p).mp hp
    obtain ⟨-, dq, -, -, sq⟩ := (mem q).mp hq
    rcases hcomp with h | h
    · exact reported_incomparable dp sq hne h
    · exact reported_incomparable dq sp (Ne.symm hne) h
  · intro p hp j hj
    obtain ⟨-, dp, ap, -⟩ := (mem p).mp hp
    rcases Nat.lt_or_ge j p.length with h | h
    · exact ap j h
    · rw [List.take_of_length_le h]
      simpa using dp [] (by simpa using ((mem p).mp hp).1)
  · intro hd
    apply List.eq_nil_iff_forall_not_mem.mpr
    intro p hp
    obtain ⟨a, -, -, e, -⟩ := (mem p).mp hp
    have hp0 : p = [] := List.length_eq_zero.mp (by omega)
    have := e hp0
    omega

/-- C14, amended, on the two trees of `TestDiff`, built by NewMerkleTree with
depth 2. -/
theorem C14_diff_reports_witness :
    ∃ (ps : List Path) (f1 f2 : MerkleTree),
      testTree1.Fill concatHash = Except.ok f1 ∧ testTree2.Fill concatHash = Except.ok f2
      ∧ testTree1.Diff concatHash testTree2
          = Except.ok (ps.map (fun p => (testTree1.root.at p).range), f1, f2)
      ∧ ps.Nodup
      ∧ (∀ p : Path, p ∈ ps ↔
          (p.length ≤ 2
            ∧ (Divergent 2 f1.root f2.root p ∧ AncestorsDiffer f1.root f2.root p)
            ∧ ((p = [] ∧ 0 < 2) ∨ ∃ r : Path, (sibling p ++ r).length ≤ 2
                ∧ byteEqual (f1.root.at (sibling p ++ r)).hash
                    (f2.root.at (sibling p ++ r)).hash = true)))
      ∧ (∀ p ∈ ps, ∀ q ∈ ps, p ≠ q → ¬ Comparable p q)
      ∧ (∀ p ∈ ps, ∀ j, j ≤ p.length → Differ f1.root f2.root (p.take j))
      ∧ (2 = 0 → ps = []) :=
  C14_diff_reports concatHash 2 testTree1 testTree2
    (@reachable_complete 2 [0] [255] [16] [31] testBase testTree1 rfl rfl).1 rfl rfl

/-- C15 fails on the code: in the trees `midLeft` and `midRight`, of depth 2
over (16,31], the leaves over (19,23] and (23,27] differ ("a" against absent,
absent against "c") and the two outer leaves are equal; the hashes after Fill
differ at the root and at both internal nodes, whatever the digest is.  Diff
returns the two Ranges (19,23] and (23,27], not the one contiguous Range
(19,27]: the Right of the first is byte-equal to the Left of the second. -/
theorem C15_diff_adjacent_ranges :
    (NewMerkleTree 2 [0] [255] [16] [31] = Except.ok testBase
      ∧ midLeft.sameShape testBase = true ∧ midRight.sameShape testBase = true)
      ∧ ∀ H : Bytes → Bytes, ∃ f1 f2,
          midLeft.Diff H midRight
            = Except.ok ([⟨[19], [23]⟩, ⟨[23], [27]⟩], f1, f2)
          ∧ bytesCompare (⟨[19], [23]⟩ : Range).Right (⟨[23], [27]⟩ : Range).Left = 0 :=
  ⟨⟨rfl, rfl, rfl⟩, fun _ => ⟨_, _, rfl, rfl⟩⟩

/-! ## Claims on the midpoint of a wrapping Range -/

/-- On a Range that wraps, the midpoint is the absolute value of
`Left + h - max`, with `h` the rounded-down half of
`max + Right - Left - min`, whether `Left + h` exceeds `max` or not. -/
theorem midpoint_wrap (t : MerkleTree) (rng : Range)
    (h : setBytes rng.Right < setBytes rng.Left) :
    setBytes (t.midpoint rng)
      = ((setBytes rng.Left : Int)
          + ((setBytes t.max : Int) + (setBytes rng.Right : Int) - (setBytes rng.Left : Int)
              - (setBytes t.min : Int)) / 2
          - (setBytes t.max : Int)).natAbs := by
  have hlt : ¬ ((setBytes rng.Left : Nat) : Int) ≤ ((setBytes rng.Right : Nat) : Int) := by
    intro hle
    have : setBytes rng.Left ≤ setBytes rng.Right := by exact_mod_cast hle
    omega
  simp only [MerkleTree.midpoint, hlt, if_false, Int.shiftRight_eq_div_pow, pow_one]
  split
  · rw [setBytes_append, setBytes_replicate_zero, setBytes_natBytes]
    simp
  · exact setBytes_natBytes _

/-- C16 fails on the code: on the ring [0,255] the wrapping range (200,10] has
size (255 - 200) + (10 - 0) = 65 and h = 32, and Left + h = 232 does not
exceed max, yet midpoint returns 23, the absolute value of 232 - 255; on the
over-bound branch the code agrees with the claim, (255,3] giving 1. -/
theorem C16_midpoint_wrapping_slip :
    NewMerkleTree 2 [0] [255] [200] [10] = Except.ok wrapDeep
      ∧ setBytes wrapDeep.fullRange.Right < setBytes wrapDeep.fullRange.Left
      ∧ setBytes wrapDeep.fullRange.Left
          + ((setBytes wrapDeep.max - setBytes wrapDeep.fullRange.Left)
              + (setBytes wrapDeep.fullRange.Right - setBytes wrapDeep.min)) / 2 = 232
      ∧ 232 ≤ setBytes wrapDeep.max
      ∧ wrapDeep.midpoint wrapDeep.fullRange = [23]
      ∧ wrapDeep.midpoint wrapDeep.fullRange ≠ natBytes 232
      ∧ wrapBase.midpoint ⟨[255], [3]⟩ = [1] :=
  ⟨rfl, by decide, by decide, by decide, rfl, by decide, rfl⟩

/-- C17 fails on the code: in the tree of depth 2 over the wrapping range
(200,10] on the ring [0,255], the root is split at 23 into (200,23] and
(23,10].  Under the cyclic rule the key 5 is in the Range of the root and in
the Ranges of both children, and the key 15 is in the Range of the left child
only although it is not in the Range of the root. -/
theorem C17_wrapping_split_overlaps :
    NewMerkleTree 2 [0] [255] [200] [10] = Except.ok wrapDeep
      ∧ wrapDeep.root.range = ⟨[200], [10]⟩
      ∧ (wrapDeep.root.at [false]).range = ⟨[200], [23]⟩
      ∧ (wrapDeep.root.at [true]).range = ⟨[23], [10]⟩
      ∧ wrapDeep.root.range.cyclicContains [5] = true
      ∧ (wrapDeep.root.at [false]).range.cyclicContains [5] = true
      ∧ (wrapDeep.root.at [true]).range.cyclicContains [5] = true
      ∧ wrapDeep.root.range.cyclicContains [15] = false
      ∧ (wrapDeep.root.at [false]).range.cyclicContains [15] = true
      ∧ (wrapDeep.root.at [true]).range.cyclicContains [15] = false :=
  ⟨rfl, rfl, rfl, rfl, rfl, rfl, rfl, rfl, rfl, rfl⟩

/-! ## Claims on the latch of Fill -/

theorem Node.setHash_at_ne (n : Node) (q : Path) (h : Option Bytes) (p : Path) (hne : p ≠ q) :
    ((n.setHash q h).at p).hash = (n.at p).hash := by
  induction q generalizing n p with
  | nil =>
    cases n with
    | null => rfl
    | mk typ hash parent l r level rng =>
      cases p with
      | nil => exact absurd rfl hne
      | cons b p => simp [Node.setHash, Node.at]
  | cons c q ih =>
    cases n with
    | null => rfl
    | mk typ hash parent l r level rng =>
      cases p with
      | nil => cases c <;> simp [Node.setHash, Node.at, Node.hash]
      | cons b p =>
        cases c <;> cases b <;> simp [Node.setHash, Node.at]
        · exact ih l p (fun e => hne (by rw [e]))
        · exact ih r p (fun e => hne (by rw [e]))

theorem foldl_setHash_filled (ws : List (Path × Option Bytes)) (f : MerkleTree) :
    (ws.foldl (fun a w => a.setHash w.1 w.2) f).filled = f.filled := by
  induction ws generalizing f with
  | nil => rfl
  | cons w ws ih =>
    rw [List.foldl_cons, ih]
    rfl

theorem foldl_setHash_at (ws : List (Path × Option Bytes)) (f : MerkleTree) (p : Path)
    (hp : ∀ w ∈ ws, w.1 ≠ p) :
    ((ws.foldl (fun a w => a.setHash w.1 w.2) f).root.at p).hash = (f.root.at p).hash := by
  induction ws generalizing f with
  | nil => rfl
  | cons w ws ih =>
    rw [List.foldl_cons, ih _ (fun v hv => hp v (List.mem_cons_of_mem _ hv))]
    exact Node.setHash_at_ne _ _ _ _ (Ne.symm (hp w (List.mem_cons_self _ _)))

theorem Fill_filled (H : Bytes → Bytes) {t f : MerkleTree} (h : t.Fill H = Except.ok f) :
    f.filled = true := by
  unfold MerkleTree.Fill MerkleTree.fillInnerHash at h
  by_cases hf : t.filled = true
  · simp only [hf, if_true, Except.ok.injEq] at h
    subst h
    exact hf
  · simp only [hf] at h
    cases hr : Merkle.fillInnerHash H t.root with
    | error e => simp [hr] at h
    | ok n =>
      simp only [hr, Bool.false_eq_true, if_false, Except.ok.injEq] at h
      subst h
      rfl

/-- C18: once Fill has returned on a tree, giving `f`, the latch is set; after
any sequence `ws` of writes of hashes through node handles, a later Fill
returns the tree unchanged, so that no hash is changed by it; every node that
was not written, every internal node when only leaves are written, still has
the hash the first Fill left; and Diff against another tree compares the
tree as it stands, with those hashes. -/
theorem C18_fill_latch (H : Bytes → Bytes) (t f : MerkleTree)
    (ws : List (Path × Option Bytes)) (hf : t.Fill H = Except.ok f) :
    f.filled = true
      ∧ (ws.foldl (fun a w => a.setHash w.1 w.2) f).Fill H
          = Except.ok (ws.foldl (fun a w => a.setHash w.1 w.2) f)
      ∧ (∀ p : Path, (∀ w ∈ ws, w.1 ≠ p) →
          ((ws.foldl (fun a w => a.setHash w.1 w.2) f).root.at p).hash = (f.root.at p).hash)
      ∧ (∀ (other g : MerkleTree) (con : consistency) (d : List Range),
          other.Fill H = Except.ok g →
          diff (ws.foldl (fun a w => a.setHash w.1 w.2) f).root g.root [] = Except.ok (con, d) →
          (ws.foldl (fun a w => a.setHash w.1 w.2) f).Diff H other
            = Except.ok (d, ws.foldl (fun a w => a.setHash w.1 w.2) f, g)) := by
  have hfilled := Fill_filled H hf
  have hlatch : (ws.foldl (fun a w => a.setHash w.1 w.2) f).filled = true :=
    (foldl_setHash_filled ws f).trans hfilled
  have hfill : (ws.foldl (fun a w => a.setHash w.1 w.2) f).Fill H
      = Except.ok (ws.foldl (fun a w => a.setHash w.1 w.2) f) := by
    simp [MerkleTree.Fill, MerkleTree.fillInnerHash, hlatch]
  refine ⟨hfilled, hfill, fun p hp => foldl_setHash_at ws f p hp, ?_⟩
  intro other g con d hg hd
  simp [MerkleTree.Diff, hfill, hg, hd]

/-- C18 on the first tree of `TestDiff`: after Fill its last leaf is changed
from "foo" to "bar"; a second Fill returns the tree as it is, the root keeps
the digest of "test" and "foo", and Diff against the unmodified tree, whose
last leaf differs, returns no Range. -/
theorem C18_fill_latch_witness :
    (testFilled.filled = true
      ∧ testStale.Fill concatHash = Except.ok testStale
      ∧ (∀ p : Path, (∀ w ∈ [(([true, true] : Path), some ([98, 97, 114] : Bytes))], w.1 ≠ p) →
          (testStale.root.at p).hash = (testFilled.root.at p).hash)
      ∧ (∀ (other g : MerkleTree) (con : consistency) (d : List Range),
          other.Fill concatHash = Except.ok g →
          diff testStale.root g.root [] = Except.ok (con, d) →
          testStale.Diff concatHash other = Except.ok (d, testStale, g)))
      ∧ testStale.root.hash = some [116, 101, 115, 116, 102, 111, 111]
      ∧ byteEqual (testStale.root.at [true, true]).hash (testTree1.root.at [true, true]).hash
          = false
      ∧ testStale.Diff concatHash testTree1 = Except.ok ([], testStale, testFilled) :=
  ⟨C18_fill_latch concatHash testTree1 testFilled
    [([true, true], some [98, 97, 114])] rfl, rfl, rfl, rfl⟩

/-! ## Claims on Fill after Deserialize -/

theorem Fill_sameShape (H : Bytes → Bytes) {d : Nat} {t t0 f : MerkleTree}
    (c : t.root.Complete d) (s : t.sameShape t0 = true) (hf : t.Fill H = Except.ok f) :
    f.sameShape t0 = true := by
  obtain ⟨e1, e2, e3, e4, sr⟩ := MerkleTree.sameShape_spec s
  unfold MerkleTree.Fill MerkleTree.fillInnerHash at hf
  by_cases hfl : t.filled = true
  · simp only [hfl, if_true, Except.ok.injEq] at hf
    subst hf
    exact s
  · obtain ⟨n', h1, h2, -, -⟩ := fillInnerHash_complete H c
    simp only [hfl, h1, Bool.false_eq_true, if_false, Except.ok.injEq] at hf
    subst hf
    simp [MerkleTree.sameShape, e1, e2, e3, e4,
      Node.sameShape_trans (Node.sameShape_symm h2) sr]

/-- Fill on a never-filled tree that has the leaf hashes of a tree whose
internal hashes are the combinations of their children's gives that tree's
hashes back at every position. -/
theorem refill_hash (H : Bytes → Bytes) {d : Nat} {t t2 f2 : MerkleTree}
    (hcomb : ∀ p : Path, p.length < d → (t.root.at p).hash =
      combineHash H (t.root.at (p ++ [false])).hash (t.root.at (p ++ [true])).hash)
    (c2 : t2.root.Complete d) (nf2 : t2.filled = false)
    (hleaf : ∀ p : Path, p.length = d → (t2.root.at p).hash = (t.root.at p).hash)
    (hf2 : t2.Fill H = Except.ok f2) :
    ∀ p : Path, p.length ≤ d → (f2.root.at p).hash = (t.root.at p).hash := by
  obtain ⟨f, hf, -, leaf2, comb2⟩ := Fill_complete H c2
  have e : f = f2 := Except.ok.inj (hf.symm.trans hf2)
  subst e
  have key : ∀ (k : Nat) (p : Path), p.length + k = d →
      (f.root.at p).hash = (t.root.at p).hash := by
    intro k
    induction k with
    | zero =>
      intro p hp
      rw [leaf2 p (by omega), hleaf p (by omega)]
    | succ k ih =>
      intro p hp
      rw [comb2 nf2 p (by omega), hcomb p (by omega),
        ih (p ++ [false]) (by simp; omega), ih (p ++ [true]) (by simp; omega)]
  intro p hp
  exact key (d - p.length) p (by omega)

/-- C19 fails as stated: Deserialize stores a zero-length entry as a present,
empty hash.  On the first tree of `TestDiff` after Fill, serialized and
written with zero-length entries for its two absent leaves, the node over
(16,23] is transmitted with hash "test"; Deserialize gives the leaf over
(19,23] the empty hash, not the absent one, and after Fill the node has
the digest of "test" followed by the empty hash, which is not "test" when the
digest has 8 bytes. -/
theorem C19_counterexample :
    (NewMerkleTree 2 [0] [255] [16] [31] = Except.ok testBase
      ∧ testTree1.sameShape testBase = true)
      ∧ ∀ H : Bytes → Bytes, ∃ f s t2 f2,
          testTree1.Fill H = Except.ok f ∧ Serialize f = Except.ok s
          ∧ s.zeroLength.FlatTree
              = [some (H [116, 101, 115, 116, 102, 111, 111]), some [116, 101, 115, 116],
                  some [102, 111, 111], some [116, 101, 115, 116], some [], some [],
                  some [102, 111, 111]]
          ∧ Deserialize s.zeroLength = Except.ok t2 ∧ t2.Fill H = Except.ok f2
          ∧ (t2.root.at [false, true]).hash = some []
          ∧ s.zeroLength.FlatTree[bfsIndex [false]]? = some (some [116, 101, 115, 116])
          ∧ (f2.root.at [false]).hash = some (H [116, 101, 115, 116])
          ∧ ((H [116, 101, 115, 116]).length = 8 →
              (f2.root.at [false]).hash ≠ some [116, 101, 115, 116]) :=
  ⟨⟨rfl, rfl⟩, fun H => ⟨_, _, _, _, rfl, rfl, rfl, rfl, rfl, rfl, rfl, rfl, fun h8 he => by
    have e : H [116, 101, 115, 116] = [116, 101, 115, 116] := Option.some.inj he
    rw [e] at h8
    exact absurd h8 (by decide)⟩⟩

/-- C19, amended: for a tree `t` obtained by Fill from a never-filled tree
built by NewMerkleTree, Serialize returns a flat tree in which absent hashes
stay absent; Deserialize of it returns, Fill on the result returns, and the
tree then has at every node, internal or leaf, the hash the flat tree carried
for it, which is the hash of `t` there. -/
theorem C19_deserialize_fill (H : Bytes → Bytes) (depth : Nat) (min max left right : Bytes)
    (t0 t1 t : MerkleTree)
    (h0 : NewMerkleTree depth min max left right = Except.ok t0)
    (s1 : t1.sameShape t0 = true) (nf : t1.filled = false)
    (hf : t1.Fill H = Except.ok t) :
    ∃ ser t2 f2, Serialize t = Except.ok ser ∧ Deserialize ser = Except.ok t2
      ∧ t2.Fill H = Except.ok f2
      ∧ ∀ p : Path, p.length ≤ depth →
          ser.FlatTree[bfsIndex p]? = some (f2.root.at p).hash
          ∧ (f2.root.at p).hash = (t.root.at p).hash := by
  obtain ⟨c1, -, -⟩ := reachable_complete h0 s1
  have s : t.sameShape t0 = true := Fill_sameShape H c1 s1 hf
  obtain ⟨f, hf', -, -, comb⟩ := Fill_complete H c1
  have e : f = t := Except.ok.inj (hf'.symm.trans hf)
  subst e
  obtain ⟨c, hpar, hrng⟩ := reachable_complete h0 s
  obtain ⟨-, -, -, -, hfr, hd, -⟩ := NewMerkleTree_spec h0
  obtain ⟨-, -, e3, e4, -⟩ := MerkleTree.sameShape_spec s
  have hb := reachable_built h0 s
  obtain ⟨ser, hser, hdes⟩ := Deserialize_Serialize hb (e4.trans hd) hpar
    (hrng.trans (e3.trans hfr).symm)
  have s2 : (f.root.relevel 0).sameShape f.root = true := Node.relevel_sameShape _ _
  have c2 : (f.root.relevel 0).Complete depth :=
    Node.Complete_of_sameShape (Node.sameShape_symm s2) c
  obtain ⟨f2, hf2, -, -, -⟩ := Fill_complete H
    (t := { filled := false, min := f.min, max := f.max, fullRange := f.fullRange,
            depth := f.depth, root := f.root.relevel 0 }) c2
  have key := refill_hash H (comb nf) c2 rfl
    (fun p _ => Node.relevel_at_hash _ _ p) hf2
  have hflat : ser.FlatTree = levelsFrom [f.root] 0 (depth + 1) := by
    have h2 := Serialize_complete c
    rw [hser] at h2
    rw [Except.ok.inj h2]
  refine ⟨ser, _, f2, hser, hdes, hf2, fun p hp => ⟨?_, key p hp⟩⟩
  rw [hflat, key p hp]
  exact levelsFrom_bfsIndex f.root depth hp

/-- C19, amended, on the first tree of `TestDiff`. -/
theorem C19_deserialize_fill_witness :
    ∃ ser t2 f2, Serialize testFilled = Except.ok ser ∧ Deserialize ser = Except.ok t2
      ∧ t2.Fill concatHash = Except.ok f2
      ∧ ∀ p : Path, p.length ≤ 2 →
          ser.FlatTree[bfsIndex p]? = some (f2.root.at p).hash
          ∧ (f2.root.at p).hash = (testFilled.root.at p).hash :=
  C19_deserialize_fill concatHash 2 [0] [255] [16] [31] testBase testTree1 testFilled
    rfl rfl rfl rfl

/-! ## Claims on the structural failure of Seek -/

/-- A node that passes `inRange` for some key has a Range that does not
wrap. -/
theorem Node.nonWrap_of_inRangeB {n : Node} {key : Bytes} (h : n.inRangeB key = true) :
    n.NonWrap := by
  simp only [Node.inRangeB, Bool.and_eq_true, decide_eq_true_eq] at h
  simp only [Node.NonWrap]
  omega

/-- From a node that passes `inRange`, the descent of `Seek` returns after as
many steps as there are levels below the node, and every node it selects
passes `inRange`. -/
theorem seekDown_inRange {t : MerkleTree} {k : Nat} {n : Node} (b : n.Built t k)
    {key : Bytes} (hk : n.inRangeB key = true) :
    ∃ r : Path, seekDown key n = Except.ok r ∧ r.length = k
      ∧ ∀ j, j ≤ r.length → (n.at (r.take j)).inRangeB key = true := by
  have nw := Node.nonWrap_of_inRangeB hk
  obtain ⟨r, h1, h2, h3, -⟩ := seekDown_nonwrap b nw hk
  refine ⟨r, h1, h2, fun j hj => ?_⟩
  have hlen : (r.take j).length ≤ k := by
    rw [List.length_take]
    omega
  cases hm : (n.at (r.take j)).inRangeB key with
  | true => rfl
  | false =>
    have hbelow := Node.Built.notin_below (b.built_at hlen) (b.nonWrap_at nw hlen) hm
      (q := r.drop j) (by simp only [List.length_take, List.length_drop]; omega)
    rw [← Node.at_append, List.take_append_drop, h3] at hbelow
    exact absurd hbelow (by simp)

/-- In a tree with the geometry of `buildTree`, from every position of the
tree, `Seek` fails with the key-not-in-tree failure or returns a leaf that
passes `inRange`. -/
theorem Seek_safe {t : MerkleTree} {d : Nat} (b : t.root.Built t d) (key : Bytes)
    (c : Cursor) (hc : ∀ p, c.pos = some p → p.length ≤ d) :
    c.Seek t key = (Except.error Panic.keyNotInTree, c)
      ∨ ∃ leaf : Path, c.Seek t key = (Except.ok leaf, ⟨some leaf⟩) ∧ leaf.length = d
          ∧ (t.root.at leaf).inRangeB key = true := by
  have hstart : ∃ start : Path, start.length ≤ d ∧
      (match c.pos with
        | none => []
        | some p => p) = start := by
    cases hp : c.pos with
    | none => exact ⟨[], Nat.zero_le _, rfl⟩
    | some p => exact ⟨p, hc p hp, rfl⟩
  obtain ⟨start, hlen, hst⟩ := hstart
  obtain ⟨up, hup, hul, -⟩ := seekUp_complete b.complete key start.reverse (by simpa using hlen)
  have hal : up.reverse.length ≤ d := by
    simp only [List.length_reverse] at hul ⊢
    omega
  have hne : t.root.at up.reverse ≠ Node.null := (b.built_at hal).built_ne_null
  cases hin : (t.root.at up.reverse).inRangeB key with
  | false =>
    left
    simp only [Cursor.Seek, hst, hup, Node.inRange_eq hne key, hin]
  | true =>
    right
    obtain ⟨q, hq1, hq2, hq3⟩ := seekDown_inRange (b.built_at hal) hin
    refine ⟨up.reverse ++ q, ?_, ?_, ?_⟩
    · simp only [Cursor.Seek, hst, hup, Node.inRange_eq hne key, hin, hq1]
    · rw [List.length_append, hq2]
      omega
    · have := hq3 q.length (Nat.le_refl _)
      rwa [List.take_length, ← Node.at_append] at this

/-- C20: in every tree built by NewMerkleTree, wrapping or not, from the unset
cursor and from a cursor on any node of the tree, for every key, Seek either
fails with the key-not-in-tree failure, the cursor unchanged, or returns a
leaf that passes inRange for the key; it never raises the structural failure.
From every node that passes inRange the descent returns, after exactly as
many steps as there are levels below the node, at most depth, and every node
it selects on the way passes inRange.  The loop of First returns after depth
steps to the left. -/
theorem C20_seek_never_structural (depth : Nat) (min max left right : Bytes)
    (t0 t : MerkleTree) (c : Cursor) (key : Bytes)
    (h0 : NewMerkleTree depth min max left right = Except.ok t0)
    (s : t.sameShape t0 = true)
    (hc : ∀ p, c.pos = some p → p.length ≤ depth) :
    (c.Seek t key = (Except.error Panic.keyNotInTree, c)
      ∨ ∃ leaf : Path, c.Seek t key = (Except.ok leaf, ⟨some leaf⟩) ∧ leaf.length = depth
          ∧ (t.root.at leaf).isLeaf = Except.ok true
          ∧ (t.root.at leaf).inRange key = Except.ok true)
      ∧ (c.Seek t key).1 ≠ Except.error Panic.treeNotBuiltCorrectly
      ∧ (∀ q : Path, q.length ≤ depth → (t.root.at q).inRange key = Except.ok true →
          ∃ r : Path, seekDown key (t.root.at q) = Except.ok r
            ∧ q.length + r.length = depth
            ∧ ∀ j, j ≤ r.length →
                (t.root.at (q ++ r.take j)).inRange key = Except.ok true)
      ∧ c.First t = (Except.ok (List.replicate depth false),
          ⟨some (List.replicate depth false)⟩) := by
  obtain ⟨cpl, -, -⟩ := reachable_complete h0 s
  have hb := reachable_built h0 s
  have hne : ∀ p : Path, p.length ≤ depth → t.root.at p ≠ Node.null := fun p hp =>
    (cpl.at hp).ne_null
  have hsafe := Seek_safe hb key c hc
  refine ⟨?_, ?_, ?_, ?_⟩
  · rcases hsafe with h | ⟨leaf, h1, h2, h3⟩
    · exact Or.inl h
    · refine Or.inr ⟨leaf, h1, h2, isLeaf_complete cpl h2, ?_⟩
      rw [Node.inRange_eq (hne leaf (Nat.le_of_eq h2)), h3]
  · rcases hsafe with h | ⟨leaf, h1, -, -⟩
    · rw [h]
      simp
    · rw [h1]
      simp
  · intro q hq hin
    rw [Node.inRange_eq (hne q hq), Except.ok.injEq] at hin
    obtain ⟨r, h1, h2, h3⟩ := seekDown_inRange (hb.built_at hq) hin
    refine ⟨r, h1, by omega, fun j hj => ?_⟩
    have hlen : (q ++ r.take j).length ≤ depth := by
      rw [List.length_append, List.length_take]
      omega
    rw [Node.inRange_eq (hne _ hlen), Node.at_append, h3 j hj]
  · simp [Cursor.First, leftmost_complete cpl]

/-- C20 on the tree of depth 2 over the wrapping range (200,10], with the
cursor on its second leaf and the key 20. -/
theorem C20_seek_never_structural_witness :
    (Cursor.Seek wrapDeep ⟨some [false, true]⟩ [20]
        = (Except.error Panic.keyNotInTree, ⟨some [false, true]⟩)
      ∨ ∃ leaf : Path, Cursor.Seek wrapDeep ⟨some [false, true]⟩ [20]
            = (Except.ok leaf, ⟨some leaf⟩) ∧ leaf.length = 2
          ∧ (wrapDeep.root.at leaf).isLeaf = Except.ok true
          ∧ (wrapDeep.root.at leaf).inRange [20] = Except.ok true)
      ∧ (Cursor.Seek wrapDeep ⟨some [false, true]⟩ [20]).1
          ≠ Except.error Panic.treeNotBuiltCorrectly
      ∧ (∀ q : Path, q.length ≤ 2 → (wrapDeep.root.at q).inRange [20] = Except.ok true →
          ∃ r : Path, seekDown [20] (wrapDeep.root.at q) = Except.ok r
            ∧ q.length + r.length = 2
            ∧ ∀ j, j ≤ r.length →
                (wrapDeep.root.at (q ++ r.take j)).inRange [20] = Except.ok true)
      ∧ Cursor.First wrapDeep ⟨some [false, true]⟩ = (Except.ok (List.replicate 2 false),
          ⟨some (List.replicate 2 false)⟩) :=
  C20_seek_never_structural 2 [0] [255] [200] [10] wrapDeep wrapDeep ⟨some [false, true]⟩ [20]
    rfl rfl (fun p hp => by
      simp only [Option.some.injEq] at hp
      subst hp
      decide)

end Merkle
